import Mathlib

/-!
Verification of the UserVars evaluation engine (`src/user-vars.ts`).

This file gives a shallow embedding of the engine: the path resolver
(`normalizePath`, `getPath`), the comparison operators used by table
conditions, the scoped variable store with `setVar`/`#addScope`, the
dependency-tracked cache with `#setChanged`, and the recursive evaluator
(`#evaluate`, `#followReference`, `#evalCondition`, `#evaluateFull`,
`getVar`).  JavaScript machine behaviour is modelled explicitly:
strings are Lean `String`s, JS objects are association lists that keep
insertion order, `parseFloat` is modelled over `ℚ` with an explicit NaN,
exceptions are an explicit `Except`, and unbounded recursion is indexed
by fuel.  Theorems named `C1_...` .. `C10_...` settle the specification
claims.
-/

set_option maxRecDepth 20000
set_option maxHeartbeats 1000000

namespace UserVars

/-! ### Character / string helpers (JS string primitives) -/

/-- JS `String.prototype.startsWith`, over char lists: `startsWithL s p`
is true when `p` is a prefix of `s`. -/
def startsWithL : List Char → List Char → Bool
  | _, [] => true
  | [], _ :: _ => false
  | c :: cs, p :: ps => p == c && startsWithL cs ps

/-- Collapse runs of `'.'`: the flag records whether the previous kept
character was a dot of a run. -/
def collapseDotsAux : Bool → List Char → List Char
  | _, [] => []
  | prevDot, c :: rest =>
    if c == '.' then
      if prevDot then collapseDotsAux true rest
      else '.' :: collapseDotsAux true rest
    else c :: collapseDotsAux false rest

/-- Collapse every run of `'.'` characters to a single `'.'`
(JS `path.replace(/\.+/g, ".")`). -/
def collapseDotsL (l : List Char) : List Char := collapseDotsAux false l

/-- JS `str.split(sep)` for a single-character separator: never returns
an empty list (`"".split(".") == [""]`). -/
def splitOnCharL (sep : Char) : List Char → List (List Char)
  | [] => [[]]
  | c :: rest =>
    if c == sep then [] :: splitOnCharL sep rest
    else
      match splitOnCharL sep rest with
      | [] => [[c]]
      | h :: t => (c :: h) :: t

/-- JS `path.split(".")`. -/
def splitOnDotL : List Char → List (List Char) := splitOnCharL '.'

/-- The up-marker `"../"`. -/
def upMarker : List Char := ['.', '.', '/']

/-- The `"global."` prefix. -/
def globalDotMarker : List Char := ['g', 'l', 'o', 'b', 'a', 'l', '.']

/-! ### Path resolver (`normalizePath`, `getPath`) -/

/-- `normalizePath(path, scope = "global")` from `user-vars.ts`:
strip one leading `"../"` when the scope is not global, strip a leading
`"global."`, collapse repeated dots, keep only the first and last
dot-separated segment, and re-scope single segments. -/
def normalizePath (path : String) (scope : String := "global") : String :=
  let up : Bool := startsWithL path.data upMarker && !(scope == "global")
  let p1 : List Char := if up then path.data.drop 3 else path.data
  let p2 : List Char := if startsWithL p1 globalDotMarker then p1.drop 7 else p1
  let p3 : List Char := collapseDotsL p2
  let parts : List (List Char) := splitOnDotL p3
  let multipleParts : Bool := decide (parts.length > 1)
  let first : List Char := parts.headD []
  let lastPart : List Char := parts.getLastD []
  if (scope == "global" || up) && !multipleParts then String.mk first
  else if !multipleParts then String.mk (scope.data ++ '.' :: first)
  else String.mk (first ++ '.' :: lastPart)

/-- `getPath(name, scope = "global")` from `user-vars.ts`. -/
def getPath (name : String) (scope : String := "global") : String :=
  if scope == "global" then name
  else if startsWithL name.data upMarker then String.mk (name.data.drop 3)
  else String.mk (scope.data ++ '.' :: name.data)

/-- One character of the identifier pattern `/^[A-Z\d_]+$/i`. -/
def isWordChar (c : Char) : Bool := c.isAlpha || c.isDigit || c == '_'

/-- JS `pattern.test(s)` for the identifier pattern `/^[A-Z\d_]+$/i`. -/
def patternTest (s : String) : Bool := !s.data.isEmpty && s.data.all isWordChar

/-! ### Literals, JS numbers and the comparison operators -/

/-- An evaluated value: `Literal = string | string[]` in the source. -/
inductive Lit where
  | str (s : String)
  | lst (l : List String)
deriving DecidableEq, Repr

/-- A JS number as produced by `parseFloat`: NaN, the two infinities, or
a finite value (modelled as a rational). -/
inductive JsNum where
  | nan
  | posInf
  | negInf
  | val (q : ℚ)
deriving DecidableEq, Repr

/-- Digits to a natural number (base 10). -/
def digitsToNat (ds : List Char) : Nat :=
  ds.foldl (fun a c => a * 10 + (c.toNat - 48)) 0

/-- Model of JS `parseFloat`: skip leading whitespace, optional sign,
`Infinity`, or decimal digits with optional fraction and exponent;
anything unparsable is NaN. -/
def jsParseFloat (s : String) : JsNum :=
  let cs := s.data.dropWhile (fun c => c == ' ' || c == '\t' || c == '\n' || c == '\r')
  let signRest : ℚ × List Char :=
    match cs with
    | '+' :: r => (1, r)
    | '-' :: r => (-1, r)
    | r => (1, r)
  let sign := signRest.1
  let cs1 := signRest.2
  if startsWithL cs1 ['I','n','f','i','n','i','t','y'] then
    if sign == 1 then .posInf else .negInf
  else
    let intPart := cs1.takeWhile Char.isDigit
    let rest := cs1.dropWhile Char.isDigit
    let fracRest : List Char × List Char :=
      match rest with
      | '.' :: r => (r.takeWhile Char.isDigit, r.dropWhile Char.isDigit)
      | r => ([], r)
    let fracPart := fracRest.1
    let rest2 := fracRest.2
    if intPart.isEmpty && fracPart.isEmpty then .nan
    else
      let mantissa : ℚ :=
        sign * ((digitsToNat intPart : ℚ) + (digitsToNat fracPart : ℚ) / ((10 : ℚ) ^ fracPart.length))
      match rest2 with
      | 'e' :: r | 'E' :: r =>
        let esignRest : Int × List Char :=
          match r with
          | '+' :: rr => (1, rr)
          | '-' :: rr => (-1, rr)
          | rr => (1, rr)
        let eds := esignRest.2.takeWhile Char.isDigit
        if eds.isEmpty then .val mantissa
        else .val (mantissa * (10 : ℚ) ^ (esignRest.1 * (digitsToNat eds : Int)))
      | _ => .val mantissa

/-- JS `<` on numbers (NaN compares false). -/
def jsNumLt : JsNum → JsNum → Bool
  | .nan, _ => false
  | _, .nan => false
  | .negInf, .negInf => false
  | .negInf, _ => true
  | _, .negInf => false
  | .posInf, _ => false
  | .val _, .posInf => true
  | .val a, .val b => decide (a < b)

/-- JS `>` on numbers. -/
def jsNumGt (a b : JsNum) : Bool := jsNumLt b a

/-- `parseLtGt` from `user-vars.ts`: a string operand is `parseFloat`ed,
a list operand coerces to its length. -/
def parseLtGt (arg1 arg2 : Lit) : JsNum × JsNum :=
  let num1 := match arg1 with
    | .str s => jsParseFloat s
    | .lst l => .val l.length
  let num2 := match arg2 with
    | .str s => jsParseFloat s
    | .lst l => .val l.length
  (num1, num2)

namespace comparisons

/-- `comparisons.eq`: strings compare with `===`; two lists compare by a
both-directions subset check (`typeof` mismatch is false). -/
def eq : Lit → Lit → Bool
  | .str a, .str b => a == b
  | .lst a, .lst b =>
    ((a.filter (fun i => !(b.contains i))) ++ (b.filter (fun i => !(a.contains i)))).length == 0
  | _, _ => false

/-- `comparisons.lt`. -/
def lt (arg1 arg2 : Lit) : Bool := jsNumLt (parseLtGt arg1 arg2).1 (parseLtGt arg1 arg2).2

/-- `comparisons.gt`. -/
def gt (arg1 arg2 : Lit) : Bool := jsNumGt (parseLtGt arg1 arg2).1 (parseLtGt arg1 arg2).2

/-- `comparisons.in` (`in` is a Lean keyword, hence `inOp`): membership
for a string left operand, subset for a list left operand. -/
def inOp : Lit → List String → Bool
  | .str a, arg2 => arg2.contains a
  | .lst a, arg2 => a.all (fun i => arg2.contains i)

end comparisons

/-! ### Declared variable data (the tagged-union `Var` shapes) -/

/-- A TS `Value`: a plain string or a `TypedValue` (`{value, type}`),
where inline expressions additionally carry local `vars` bindings. -/
inductive ValueItem where
  | vstr (s : String)
  | typed (value : String) (type : String) (vars : Option (List (String × ValueItem)))

/-- A table row condition `{val1, comparison, val2}`. -/
structure Condition where
  val1 : ValueItem
  comparison : String
  val2 : ValueItem

/-- A table row `{conditions, output}`. -/
structure TableRow where
  conditions : List Condition
  output : ValueItem

/-- The `value` field of a `Var`: `Value | Value[] | TableRow[]`. -/
inductive VarValue where
  | one (v : ValueItem)
  | arr (l : List ValueItem)
  | rows (r : List TableRow)

/-- A declared variable. `dflt` models the `default` field of tables;
optional fields are `none` when absent on the JS object. -/
structure VarData where
  name : String
  scope : String
  varType : String
  value : VarValue
  priority : Option String := none
  dflt : Option ValueItem := none
  vars : Option (List (String × ValueItem)) := none
  functions : Option (List ValueItem) := none

/-- A slot of the root store: a variable or a scope (`Var | Scope`). -/
inductive Node where
  | var (v : VarData)
  | scope (m : List (String × VarData))

/-! ### Full-table output data (`TableData` and friends) -/

/-- `ConditionData` from the source. -/
structure ConditionData where
  val1 : Lit
  val1Path : String
  comparison : String
  val2 : Lit
  val2Path : String
deriving DecidableEq, Repr

/-- `TableRowData` from the source. -/
structure TableRowData where
  conditions : List ConditionData
  output : Lit
  outputPath : String
deriving DecidableEq, Repr

/-- `TableData` from the source (`dflt` models the `default` field). -/
structure TableData where
  output : Lit
  outputPath : String
  outIndex : Int
  value : List TableRowData
  dflt : Lit
  defaultPath : String
  priority : String
deriving DecidableEq, Repr

/-- A cache entry: `Literal | TableData`. -/
inductive CacheVal where
  | lit (l : Lit)
  | table (t : TableData)
deriving DecidableEq, Repr

/-! ### JS objects as association lists (insertion order preserved) -/

/-- Lookup in a JS object. -/
def alookup {α : Type} : List (String × α) → String → Option α
  | [], _ => none
  | (k, v) :: rest, key => if k == key then some v else alookup rest key

/-- Assignment in a JS object: replace in place or append. -/
def aset {α : Type} : List (String × α) → String → α → List (String × α)
  | [], key, v => [(key, v)]
  | (k, w) :: rest, key, v =>
    if k == key then (k, v) :: rest else (k, w) :: aset rest key v

/-- JS `Set.add` (only called after a `has` check in the source, but kept
idempotent like the original). -/
def sAdd (s : List String) (x : String) : List String :=
  if s.contains x then s else s ++ [x]

/-! ### Engine state and errors -/

/-- The mutable state of a `UserVars` instance.  `trace` and `circHit`
are ghost instrumentation fields, not present in the source: `trace`
records every path successfully dereferenced by `#followReference`, and
`circHit` records whether the circular-dependency check ever fired.
They influence nothing. -/
structure St where
  vars : List (String × Node)
  deps : List (String × List String)
  cache : List (String × CacheVal)
  changed : List (String × Bool)
  trace : List String
  circHit : Bool

/-- The state of a fresh `new UserVars()`. -/
def initSt : St :=
  { vars := [], deps := [], cache := [], changed := [], trace := [], circHit := false }

/-- Thrown JS values: `ReferenceError`, `TypeError`, plain-string
throws, errors raised inside the external expression library, and the
out-of-fuel artifact of the shallow embedding. -/
inductive Err where
  | refE (msg : String)
  | typeE (msg : String)
  | strE (msg : String)
  | jsE
  | fuelE
deriving DecidableEq, Repr

/-! ### Raw variable lookup (lodash `get` over the store) -/

/-- Truthiness of `v[field]` when lodash `get` indexes a second path
segment into a `Var` object rather than a `Scope`. -/
def fieldTruthy (v : VarData) (field : String) : Bool :=
  if field == "name" then !v.name.isEmpty
  else if field == "scope" then !v.scope.isEmpty
  else if field == "varType" then !v.varType.isEmpty
  else if field == "value" then
    (match v.value with | .one (.vstr s) => !s.isEmpty | _ => true)
  else if field == "priority" then
    (match v.priority with | some p => !p.isEmpty | none => false)
  else if field == "default" then
    (match v.dflt with | some (.vstr s) => !s.isEmpty | some _ => true | none => false)
  else if field == "vars" then v.vars.isSome
  else if field == "functions" then v.functions.isSome
  else false

/-- Result of lodash `get(this.vars, path, null)`. -/
inductive GetRes where
  | var (v : VarData)
  | scopeNode (m : List (String × VarData))
  | junk
  | nothing

/-- lodash `get` on the store, for the (at most two-segment) normalized
paths `normalizePath` produces.  A second segment indexing into a `Var`
object reaches a field of that object (`junk` when truthy). -/
def jsGet (vars : List (String × Node)) (path : String) : GetRes :=
  match splitOnDotL path.data with
  | [seg] =>
    match alookup vars (String.mk seg) with
    | none => .nothing
    | some (.var v) => .var v
    | some (.scope m) => .scopeNode m
  | [seg1, seg2] =>
    match alookup vars (String.mk seg1) with
    | none => .nothing
    | some (.scope m) =>
      match alookup m (String.mk seg2) with
      | none => .nothing
      | some v => .var v
    | some (.var v) => if fieldTruthy v (String.mk seg2) then .junk else .nothing
  | _ => .nothing

/-- `getRawVar(path)`: normalize, look up, and classify; a scope or
other non-`Var` truthy result is a `TypeError`, absence a
`ReferenceError`. -/
def getRawVar (vars : List (String × Node)) (path : String) : Except Err VarData :=
  match jsGet vars (normalizePath path) with
  | .var v => .ok v
  | .scopeNode _ => .error (.typeE ("Variable " ++ path ++ " is malformed (is it a scope?)"))
  | .junk => .error (.typeE ("Variable " ++ path ++ " is malformed (is it a scope?)"))
  | .nothing => .error (.refE ("Variable " ++ path ++ " not found"))

/-! ### Stale marking (`#setChanged`) and the store writers -/

/-- `#setChanged(path)`: mark `path` changed, then recurse into every
recorded dependent (the `for (let i of this.deps[path])` loop is the
fold).  The source has no visited-set guard, so the recursion is
fuel-indexed; `.error .fuelE` models the stack overflow on cyclic
dependent edges. -/
def setChangedF : Nat → String → St → Except Err St
  | 0, _, _ => .error .fuelE
  | fuel + 1, path, st =>
    let st1 := { st with changed := aset st.changed path true }
    match alookup st1.deps path with
    | none => .ok st1
    | some l =>
      l.foldl
        (fun acc i =>
          match acc with
          | .error e => .error e
          | .ok s => setChangedF fuel i s) (.ok st1)

/-- `#addScope(scope, overwrite)` from the source, returning the
boolean together with the updated state. -/
def addScope (scope : String) (overwrite : Bool) (st : St) : Bool × St :=
  match alookup st.vars scope with
  | none => (true, { st with vars := aset st.vars scope (.scope []) })
  | some (.var _) =>
    if overwrite then (true, { st with vars := aset st.vars scope (.scope []) })
    else (false, st)
  | some (.scope _) =>
    if !overwrite then (true, st)
    else (false, st)

/-- `setVar(value, forceOverwrite)` from the source.  Note the source
behaviour: at the root an existing `Var` is replaced unconditionally
(the first `if` also fires when `isVar` holds), while inside a scope an
existing variable is never replaced and `#addScope` returns `false` for
an existing scope when `overwrite` is `true`. -/
def setVar (fuel : Nat) (value : VarData) (forceOverwrite : Bool) (st : St) :
    Except Err (Bool × St) :=
  if !patternTest value.name then
    .error (.strE ("Name must match pattern (" ++ value.scope ++ "." ++ value.name ++ ")"))
  else if !patternTest value.scope then
    .error (.strE ("Scope must match pattern (" ++ value.scope ++ "." ++ value.name ++ ")"))
  else if value.scope == "global" then
    match alookup st.vars value.name with
    | none | some (.var _) =>
      let st1 := { st with vars := aset st.vars value.name (.var value) }
      (setChangedF fuel (getPath value.name value.scope) st1).map (fun st2 => (true, st2))
    | some (.scope _) =>
      if forceOverwrite then
        let st1 := { st with vars := aset st.vars value.name (.var value) }
        (setChangedF fuel (getPath value.name value.scope) st1).map (fun st2 => (true, st2))
      else .ok (false, st)
  else
    match addScope value.scope forceOverwrite st with
    | (true, st1) =>
      match alookup st1.vars value.scope with
      | some (.scope m) =>
        match alookup m value.name with
        | none =>
          let st2 := { st1 with vars := aset st1.vars value.scope (.scope (aset m value.name value)) }
          (setChangedF fuel (getPath value.name value.scope) st2).map (fun st3 => (true, st3))
        | some _ => .ok (false, st1)
      | _ => .ok (false, st1)
    | (false, st1) => .ok (false, st1)

/-! ### The external expression parser capability (`expr-eval`) -/

/-- A binding passed to `parsed.evaluate`: a string, or a numeric list
(`followed.map(parseFloat)`). -/
inductive BindVal where
  | bstr (s : String)
  | bnums (l : List JsNum)

/-- A parsed expression of the external library: `freeVars` models
`parsed.variables()` and `evalFn` the evaluation function (result already `.toString()`ed; an
exception is an `Err`). -/
structure ParsedExpr where
  freeVars : List String
  evalFn : List (String × BindVal) → Except Err String

/-- The injected external parser capability (`this.parser`). -/
structure ParserCap where
  parse : String → Except Err ParsedExpr

/-- A parser capability whose `parse` always throws; used for concrete
runs that never reach an expression. -/
def dummyCap : ParserCap := { parse := fun _ => .error .jsE }

/-- JS truthiness of a cache slot: missing and `""` are falsy; arrays
and `TableData` objects are truthy. -/
def cacheTruthy : Option CacheVal → Bool
  | none => false
  | some (.lit (.str s)) => !s.isEmpty
  | some (.lit (.lst _)) => true
  | some (.table _) => true

/-- `evaluated.match(/,/g) ? evaluated.split(",") : evaluated`. -/
def commaSplit (s : String) : Lit :=
  if s.data.contains ',' then .lst ((splitOnCharL ',' s.data).map String.mk) else .str s

/-! ### The evaluator

The recursion of `#evaluate` through `#followReference` is through
stored variables and therefore unbounded; it is indexed by fuel.  Each
piece below is written against a parameter `recur`, the one-level-deeper
`#evaluate`; `evaluate cap fuel` ties the knot, spending one fuel per
nested `#evaluate` call. -/

/-- The type of `#evaluate`: variable, `origin` (the visited set),
`parents` (the dependency chain), state. -/
abbrev EvalRecur := VarData → List String → List String → St → Except Err (Lit × St)

/-- The dependency bookkeeping at the top of `#evaluate`: initialize
`deps[thisPath]` and add every parent not yet present. -/
def depsInitAdd (deps : List (String × List String)) (thisPath : String)
    (parents : List String) : List (String × List String) :=
  let d0 := match alookup deps thisPath with
    | none => aset deps thisPath []
    | some _ => deps
  parents.foldl
    (fun d i =>
      match alookup d thisPath with
      | some s => if s.contains i then d else aset d thisPath (s ++ [i])
      | none => aset d thisPath [i]) d0

/-- The non-expression branch of `#followReference` (the `try`/`catch`
around `getRawVar` and the recursive `#evaluate`): a `ReferenceError`
becomes `"[MISSING REFERENCE]"`, other errors propagate.  The source's
inline-expression branch reaches this code by constructing a
`{value: path, type: "reference"}` wrapper; here it is a function.
The `trace` update is ghost instrumentation. -/
def followRefBasic (recur : EvalRecur) (rv : String) (scope : String)
    (origin parents : List String) (st : St) : Except Err (Lit × St) :=
  let path := normalizePath rv scope
  match getRawVar st.vars path with
  | .error (.refE _) => .ok (.str "[MISSING REFERENCE]", st)
  | .error e => .error e
  | .ok v =>
    let st1 := { st with trace := st.trace ++ [path] }
    match recur v origin parents st1 with
    | .error e => .error e
    | .ok (value, st2) =>
      .ok (value, { st2 with cache := aset st2.cache path (.lit value),
                             changed := aset st2.changed path false })

/-- The bindings loop of the inline-expression branch of
`#followReference`.  Entries not among the parsed free variables are
skipped; non-literal entries are re-normalized and followed as
references; a missing reference aborts with `[MISSING [object Object]]`
(the source stringifies the binding object into the template). -/
def inlineVarsLoop (recur : EvalRecur) :
    List (String × ValueItem) → List String → String → List String → List String →
    List (String × BindVal) → St → Except Err ((List (String × BindVal) ⊕ Lit) × St)
  | [], _, _, _, _, acc, st => .ok (.inl acc, st)
  | (k, cur) :: rest, pvars, scope, origin, parents, acc, st =>
    if !(pvars.contains k) then
      inlineVarsLoop recur rest pvars scope origin parents acc st
    else
      match cur with
      | .vstr s => inlineVarsLoop recur rest pvars scope origin parents (aset acc k (.bstr s)) st
      | .typed v t _ =>
        if t == "literal" then
          inlineVarsLoop recur rest pvars scope origin parents (aset acc k (.bstr v)) st
        else
          match followRefBasic recur (normalizePath v scope) scope origin parents st with
          | .error e => .error e
          | .ok (.str followed, st1) =>
            if followed == "[MISSING REFERENCE]" then
              .ok (.inr (.str "[MISSING [object Object]]"), st1)
            else inlineVarsLoop recur rest pvars scope origin parents (aset acc k (.bstr followed)) st1
          | .ok (.lst followed, st1) =>
            inlineVarsLoop recur rest pvars scope origin parents
              (aset acc k (.bnums (followed.map jsParseFloat))) st1

/-- `#followReference(ref, scope, origin, parents)`: an inline
expression is parsed and evaluated with its local bindings; anything
else resolves as a reference. -/
def followReferenceStep (cap : ParserCap) (recur : EvalRecur) (rv rt : String)
    (rvars : Option (List (String × ValueItem))) (scope : String)
    (origin parents : List String) (st : St) : Except Err (Lit × St) :=
  if rt == "expression" then
    match cap.parse rv with
    | .error e => .error e
    | .ok parsed =>
      match rvars with
      | none => .error (.typeE "runtime TypeError: Object.keys of undefined vars")
      | some ivars =>
        match inlineVarsLoop recur ivars parsed.freeVars scope origin parents [] st with
        | .error e => .error e
        | .ok (.inr l, st1) => .ok (l, st1)
        | .ok (.inl input, st1) =>
          match parsed.evalFn input with
          | .error e => .error e
          | .ok evaluated => .ok (commaSplit evaluated, st1)
  else followRefBasic recur rv scope origin parents st

/-- The result record of `#evalCondition` (the source returns a plain
boolean when `full` is false and this record when `full` is true; the
embedding always returns the record and plain callers project
`.output`). -/
structure CondOut where
  output : Bool
  val1 : Lit
  val2 : Lit

/-- `#evalCondition(cond, scope, origin, parents, full)`. -/
def evalConditionStep (cap : ParserCap) (recur : EvalRecur) (cond : Condition)
    (scope : String) (origin parents : List String) (_full : Bool) (st : St) :
    Except Err (CondOut × St) :=
  match (match cond.val1 with
         | .vstr s => (.ok (Lit.str s, st) : Except Err (Lit × St))
         | .typed v t vs =>
           if t == "literal" then .ok (Lit.str v, st)
           else followReferenceStep cap recur v t vs scope origin parents st) with
  | .error e => .error e
  | .ok (val1, st1) =>
    match (match cond.val2 with
           | .vstr s => (.ok (Lit.str s, st1) : Except Err (Lit × St))
           | .typed v t vs =>
             if t == "literal" then .ok (Lit.str v, st1)
             else followReferenceStep cap recur v t vs scope origin parents st1) with
    | .error e => .error e
    | .ok (val2, st2) =>
      let failed : Bool :=
        if cond.comparison == "eq" then !(comparisons.eq val1 val2)
        else if cond.comparison == "lt" then !(comparisons.lt val1 val2)
        else if cond.comparison == "gt" then !(comparisons.gt val1 val2)
        else if cond.comparison == "in" then
          (match val2 with
           | .lst l2 => !(comparisons.inOp val1 l2)
           | .str _ => true)
        else false
      .ok ({ output := !failed, val1 := val1, val2 := val2 }, st2)

/-- The `for e of row.conditions` loop with its `break`: stops at the
first failing condition. -/
def condsLoop (cap : ParserCap) (recur : EvalRecur) :
    List Condition → String → List String → List String → St → Except Err (Bool × St)
  | [], _, _, _, st => .ok (true, st)
  | c :: rest, scope, origin, parents, st =>
    match evalConditionStep cap recur c scope origin parents false st with
    | .error e => .error e
    | .ok (co, st1) =>
      if co.output then condsLoop cap recur rest scope origin parents st1
      else .ok (false, st1)

/-- The row scan of the table branch of `#evaluate`: the first row (in
scan order) whose conditions all pass has its output resolved and
returned.  The source writes an ascending and a descending index loop;
the descending loop is this function applied to the reversed row
list. -/
def scanRows (cap : ParserCap) (recur : EvalRecur) :
    List TableRow → String → List String → List String → St → Except Err (Option Lit × St)
  | [], _, _, _, st => .ok (none, st)
  | row :: rest, scope, origin, parents, st =>
    match condsLoop cap recur row.conditions scope origin parents st with
    | .error e => .error e
    | .ok (false, st1) => scanRows cap recur rest scope origin parents st1
    | .ok (true, st1) =>
      match row.output with
      | .vstr s => .ok (some (.str s), st1)
      | .typed v t vs =>
        if t == "literal" then .ok (some (.str v), st1)
        else
          match followReferenceStep cap recur v t vs scope origin parents st1 with
          | .error e => .error e
          | .ok (l, st2) => .ok (some l, st2)

/-- The `list.value.forEach` loop of the list branch: strings and
literals pass through, references splice in list results, a missing
reference becomes an inline `[MISSING <path>]` entry. -/
def listLoop (cap : ParserCap) (recur : EvalRecur) :
    List ValueItem → String → List String → List String → List String → St →
    Except Err (Lit × St)
  | [], _, _, _, acc, st => .ok (.lst acc, st)
  | e :: rest, scope, origin, parents, acc, st =>
    match e with
    | .vstr s => listLoop cap recur rest scope origin parents (acc ++ [s]) st
    | .typed v t vs =>
      if t == "literal" then listLoop cap recur rest scope origin parents (acc ++ [v]) st
      else
        match followReferenceStep cap recur v t vs scope origin parents st with
        | .error err => .error err
        | .ok (.lst current, st1) =>
          listLoop cap recur rest scope origin parents (acc ++ current) st1
        | .ok (.str current, st1) =>
          if current == "[MISSING REFERENCE]" then
            listLoop cap recur rest scope origin parents
              (acc ++ ["[MISSING " ++ v ++ "]"]) st1
          else listLoop cap recur rest scope origin parents (acc ++ [current]) st1

/-- Resolution of the expression text (`expr.value`) in the expression
branch: `.inl` is the text to parse, `.inr` an early return
(`[LIST <path>]` when the reference resolved to a list). -/
def exprToParse (cap : ParserCap) (recur : EvalRecur) (value : VarData)
    (origin parents : List String) (st : St) : Except Err ((String ⊕ Lit) × St) :=
  match value.value with
  | .one (.vstr s) => .ok (.inl s, st)
  | .one (.typed v t vs) =>
    if t == "literal" then .ok (.inl v, st)
    else
      match followReferenceStep cap recur v t vs value.scope origin parents st with
      | .error e => .error e
      | .ok (.lst _, st1) => .ok (.inr (.str ("[LIST " ++ v ++ "]")), st1)
      | .ok (.str s, st1) => .ok (.inl s, st1)
  | _ => .error (.typeE "runtime TypeError: expression value is an array")

/-- The `functions` loop of the expression branch, accumulating
semicolon-separated definition fragments; a missing function reference
aborts with `[MISSING <path>]`. -/
def exprFnsLoop (cap : ParserCap) (recur : EvalRecur) :
    List ValueItem → String → List String → List String → String → St →
    Except Err ((String ⊕ Lit) × St)
  | [], _, _, _, acc, st => .ok (.inl acc, st)
  | i :: rest, scope, origin, parents, acc, st =>
    match i with
    | .vstr s => exprFnsLoop cap recur rest scope origin parents (acc ++ s ++ "; ") st
    | .typed v t vs =>
      if t == "literal" then
        exprFnsLoop cap recur rest scope origin parents (acc ++ v ++ "; ") st
      else
        match followReferenceStep cap recur v t vs scope origin parents st with
        | .error e => .error e
        | .ok (.lst func, st1) =>
          exprFnsLoop cap recur rest scope origin parents
            (acc ++ String.join (func.map (fun e => e ++ "; "))) st1
        | .ok (.str func, st1) =>
          if func == "[MISSING REFERENCE]" then
            .ok (.inr (.str ("[MISSING " ++ v ++ "]")), st1)
          else exprFnsLoop cap recur rest scope origin parents (acc ++ func ++ "; ") st1

/-- The `expr.vars` bindings loop of the expression branch.  As in the
source, a missing reference aborts with `[MISSING [object Object]]`
(the binding object itself is interpolated). -/
def exprVarsLoop (cap : ParserCap) (recur : EvalRecur) :
    List (String × ValueItem) → List String → String → List String → List String →
    List (String × BindVal) → St → Except Err ((List (String × BindVal) ⊕ Lit) × St)
  | [], _, _, _, _, acc, st => .ok (.inl acc, st)
  | (k, cur) :: rest, pvars, scope, origin, parents, acc, st =>
    if !(pvars.contains k) then
      exprVarsLoop cap recur rest pvars scope origin parents acc st
    else
      match cur with
      | .vstr s => exprVarsLoop cap recur rest pvars scope origin parents (aset acc k (.bstr s)) st
      | .typed v t vs =>
        if t == "literal" then
          exprVarsLoop cap recur rest pvars scope origin parents (aset acc k (.bstr v)) st
        else
          match followReferenceStep cap recur v t vs scope origin parents st with
          | .error e => .error e
          | .ok (.str followed, st1) =>
            if followed == "[MISSING REFERENCE]" then
              .ok (.inr (.str "[MISSING [object Object]]"), st1)
            else
              exprVarsLoop cap recur rest pvars scope origin parents
                (aset acc k (.bstr followed)) st1
          | .ok (.lst followed, st1) =>
            exprVarsLoop cap recur rest pvars scope origin parents
              (aset acc k (.bnums (followed.map jsParseFloat))) st1

/-- One unfolding of `#evaluate(value, origin, parents)`, with `recur`
the next-deeper `#evaluate`.  The `circHit` update is ghost
instrumentation of the circular-dependency check. -/
def evaluateStep (cap : ParserCap) (recur : EvalRecur) (value : VarData)
    (origin parents : List String) (st : St) : Except Err (Lit × St) :=
  let thisPath := getPath value.name value.scope
  let st := { st with deps := depsInitAdd st.deps thisPath parents }
  let parents := parents ++ [thisPath]
  if origin.contains thisPath then
    .ok (.str "[CIRCULAR DEPENDENCY]", { st with circHit := true })
  else
    let origin := sAdd origin thisPath
    if value.varType == "basic" then
      match value.value with
      | .one (.vstr s) => .ok (.str s, st)
      | .one (.typed v t vs) =>
        if !(["literal", "reference", "expression"].contains t) then
          .error (.typeE ("Basic variable value must be of type Value (" ++
            value.scope ++ "." ++ value.name ++ ")"))
        else if t == "literal" then .ok (.str v, st)
        else followReferenceStep cap recur v t vs value.scope origin parents st
      | _ =>
        .error (.typeE ("Basic variable value must be of type Value (" ++
          value.scope ++ "." ++ value.name ++ ")"))
    else if value.varType == "list" then
      match value.value with
      | .arr items => listLoop cap recur items value.scope origin parents [] st
      | .rows [] => .ok (.lst [], st)
      | .rows (_ :: _) => .error (.typeE "runtime TypeError: undefined reference value")
      | .one _ =>
        .error (.typeE ("List variable value must be of type string[] (" ++
          value.scope ++ "." ++ value.name ++ ")"))
    else if value.varType == "table" then
      if !(match value.priority with
           | some p => ["first", "last"].contains p
           | none => false) then
        .error (.typeE ("Table \"variable\" priority field must be either \"first\" or \"last\" (" ++
          value.scope ++ "." ++ value.name ++ "))"))
      else if !(match value.dflt with
                | some (.vstr _) => true
                | some (.typed _ t _) => ["literal", "reference", "expression"].contains t
                | none => false) then
        .error (.typeE ("Table \"default\" field must be of type Value (" ++
          value.scope ++ "." ++ value.name ++ ")"))
      else
        match value.value with
        | .one _ =>
          .error (.typeE ("Table variable values must be of type TableRow[] (" ++
            value.scope ++ "." ++ value.name ++ ")"))
        | .arr (_ :: _) =>
          .error (.typeE ("Table variable values must be of type TableRow[] (" ++
            value.scope ++ "." ++ value.name ++ ")"))
        | .arr [] | .rows _ =>
          let rows := match value.value with
            | .rows r => r
            | _ => []
          let scanned := if value.priority == some "first" then rows else rows.reverse
          match scanRows cap recur scanned value.scope origin parents st with
          | .error e => .error e
          | .ok (some l, st1) => .ok (l, st1)
          | .ok (none, st1) =>
            match value.dflt with
            | some (.vstr s) => .ok (.str s, st1)
            | some (.typed v t vs) =>
              if t == "literal" then .ok (.str v, st1)
              else followReferenceStep cap recur v t vs value.scope origin parents st1
            | none => .error (.typeE "unreachable: default checked above")
    else if value.varType == "expression" then
      match value.vars with
      | none =>
        .error (.typeE ("Expression \"vars\" field must be of type Value mapping (" ++
          value.scope ++ "." ++ value.name ++ ")"))
      | some exprVars =>
        match exprToParse cap recur value origin parents st with
        | .error e => .error e
        | .ok (.inr l, st1) => .ok (l, st1)
        | .ok (.inl toParse0, st1) =>
          match (match value.functions with
                 | none => (.ok (.inl "", st1) : Except Err ((String ⊕ Lit) × St))
                 | some fns => exprFnsLoop cap recur fns value.scope origin parents "" st1) with
          | .error e => .error e
          | .ok (.inr l, st2) => .ok (l, st2)
          | .ok (.inl functions, st2) =>
            let toParse := functions ++ toParse0
            match cap.parse toParse with
            | .error e => .error e
            | .ok parsed =>
              match exprVarsLoop cap recur exprVars parsed.freeVars value.scope origin
                  parents [] st2 with
              | .error e => .error e
              | .ok (.inr l, st3) => .ok (l, st3)
              | .ok (.inl input, st3) =>
                match parsed.evalFn input with
                | .error e => .error e
                | .ok evaluated => .ok (commaSplit evaluated, st3)
    else .ok (.str "[NOT IMPLEMENTED]", st)

/-- `#evaluate`, fuel-indexed: one fuel per nested `#evaluate` call. -/
def evaluate (cap : ParserCap) : Nat → EvalRecur
  | 0 => fun _ _ _ _ => .error .fuelE
  | fuel + 1 => fun v origin parents st => evaluateStep cap (evaluate cap fuel) v origin parents st

/-- The inner conditions loop of `#evaluateFull` (no break: every
condition of the row is evaluated and recorded). -/
def evalFullCondsLoop (cap : ParserCap) (recur : EvalRecur) :
    List Condition → String → List String → List String → List ConditionData → Bool → St →
    Except Err ((List ConditionData × Bool) × St)
  | [], _, _, _, accConds, out, st => .ok ((accConds, out), st)
  | e :: rest, scope, origin, parents, accConds, out, st =>
    match evalConditionStep cap recur e scope origin parents true st with
    | .error err => .error err
    | .ok (cond, st1) =>
      let val1Path := match e.val1 with
        | .typed v t _ => if t != "literal" then v else ""
        | .vstr _ => ""
      let val2Path := match e.val2 with
        | .typed v t _ => if t != "literal" then v else ""
        | .vstr _ => ""
      let cd : ConditionData :=
        { val1 := cond.val1, val1Path := val1Path, comparison := e.comparison,
          val2 := cond.val2, val2Path := val2Path }
      evalFullCondsLoop cap recur rest scope origin parents (accConds ++ [cd])
        (if !cond.output then false else out) st1

/-- The row loop of `#evaluateFull`: every row's conditions and output
are resolved and recorded; the final output follows the
`out && (!found || priority === "last")` update rule of the source
(note that a later literal-output row keeps the older `outputPath`). -/
def evalFullRowsLoop (cap : ParserCap) (recur : EvalRecur) :
    List TableRow → Nat → String → String → List String → List String →
    List TableRowData → Bool → Lit → String → Int → St →
    Except Err ((List TableRowData × Bool × Lit × String × Int) × St)
  | [], _, _, _, _, _, accRows, found, outLit, outPath, outIndex, st =>
    .ok ((accRows, found, outLit, outPath, outIndex), st)
  | row :: rest, i, priority, scope, origin, parents, accRows, found, outLit, outPath, outIndex, st =>
    match evalFullCondsLoop cap recur row.conditions scope origin parents [] true st with
    | .error e => .error e
    | .ok ((conds, out), st1) =>
      match (match row.output with
             | .vstr s => (.ok ((Lit.str s, ""), st1) : Except Err ((Lit × String) × St))
             | .typed v t vs =>
               if t == "literal" then .ok ((Lit.str v, ""), st1)
               else
                 match followReferenceStep cap recur v t vs scope origin parents st1 with
                 | .error e => .error e
                 | .ok (l, st2) => .ok ((l, v), st2)) with
      | .error e => .error e
      | .ok ((rowOut, rowOutPath), st2) =>
        let accRows1 := accRows ++
          [{ conditions := conds, output := rowOut, outputPath := rowOutPath }]
        if out && (!found || priority == "last") then
          let newPath := match row.output with
            | .typed v t _ => if t != "literal" then v else outPath
            | .vstr _ => outPath
          evalFullRowsLoop cap recur rest (i + 1) priority scope origin parents accRows1
            true rowOut newPath (Int.ofNat i) st2
        else
          evalFullRowsLoop cap recur rest (i + 1) priority scope origin parents accRows1
            found outLit outPath outIndex st2

/-- `#evaluateFull(table)`: full-trace evaluation of a table.  Called by
`getVar` without the shape checks of `#evaluate`; a missing `priority`
is modelled as `""` and a missing `default` as the runtime `TypeError`
the source would hit. -/
def evaluateFullStep (cap : ParserCap) (recur : EvalRecur) (table : VarData) (st : St) :
    Except Err (TableData × St) :=
  let thisPath := getPath table.name table.scope
  let origin := sAdd [] thisPath
  let parents := [thisPath]
  let priority := table.priority.getD ""
  match (match table.value with
         | .rows r => (.ok r : Except Err (List TableRow))
         | .arr [] => .ok []
         | .arr (_ :: _) => .error (.typeE "runtime TypeError: item has no conditions")
         | .one (.vstr s) =>
           if s.isEmpty then .ok [] else .error (.typeE "runtime TypeError: item has no conditions")
         | .one (.typed _ _ _) => .ok []) with
  | .error e => .error e
  | .ok rows =>
    match evalFullRowsLoop cap recur rows 0 priority table.scope origin parents
        [] false (.str "") "" (-1) st with
    | .error e => .error e
    | .ok ((rowDatas, found, outLit, outPath, outIndex), st1) =>
      match (match table.dflt with
             | none => (.error (.typeE "runtime TypeError: undefined default") :
                 Except Err ((Lit × String) × St))
             | some (.vstr s) => .ok ((Lit.str s, ""), st1)
             | some (.typed v t vs) =>
               if t == "literal" then .ok ((Lit.str v, ""), st1)
               else
                 match followReferenceStep cap recur v t vs table.scope origin parents st1 with
                 | .error e => .error e
                 | .ok (l, st2) => .ok ((l, v), st2)) with
      | .error e => .error e
      | .ok ((defaultVal, defaultPath), st2) =>
        let isRefDefault := match table.dflt with
          | some (.typed _ t _) => t != "literal"
          | _ => false
        let td : TableData :=
          { output := if found then outLit else defaultVal,
            outputPath := if found then outPath else (if isRefDefault then defaultPath else outPath),
            outIndex := outIndex,
            value := rowDatas,
            dflt := defaultVal,
            defaultPath := defaultPath,
            priority := priority }
        .ok (td, st2)

/-- `getVar(path, full)`: answer from the cache when the slot is fresh
and truthy, else evaluate (fully for tables when `full`) and cache
under the caller's spelling of `path`. -/
def getVar (cap : ParserCap) (fuel : Nat) (path : String) (full : Bool) (st : St) :
    Except Err (CacheVal × St) :=
  match getRawVar st.vars path with
  | .error e => .error e
  | .ok varbl =>
    if full && varbl.varType == "table" then
      let key := path ++ "-full"
      if !((alookup st.changed key).getD false) && cacheTruthy (alookup st.cache key) then
        .ok ((alookup st.cache key).getD (.lit (.str "")), st)
      else
        match evaluateFullStep cap (evaluate cap fuel) varbl st with
        | .error e => .error e
        | .ok (value, st1) =>
          .ok (.table value, { st1 with cache := aset st1.cache key (.table value),
                                        changed := aset st1.changed key false })
    else
      if !((alookup st.changed path).getD false) && cacheTruthy (alookup st.cache path) then
        .ok ((alookup st.cache path).getD (.lit (.str "")), st)
      else
        match evaluate cap fuel varbl [] [] st with
        | .error e => .error e
        | .ok (value, st1) =>
          .ok (.lit value, { st1 with cache := aset st1.cache path (.lit value),
                                      changed := aset st1.changed path false })

/-- `setVarBulk(...values)`: `setVar` with overwrite disabled for each,
collecting the booleans. -/
def setVarBulk (fuel : Nat) (values : List VarData) (st : St) : Except Err (List Bool × St) :=
  match values with
  | [] => .ok ([], st)
  | v :: rest =>
    match setVar fuel v false st with
    | .error e => .error e
    | .ok (b, st1) =>
      match setVarBulk fuel rest st1 with
      | .error e => .error e
      | .ok (bs, st2) => .ok (b :: bs, st2)

/-! ### Projection helpers for concrete runs -/

/-- Run `setVarBulk` from a fresh instance, keeping the final state. -/
def runBulkSt (vs : List VarData) : St :=
  match setVarBulk 100 vs initSt with
  | .ok (_, st) => st
  | .error _ => initSt

/-- The state after a `getVar` call. -/
def stOfGet (r : Except Err (CacheVal × St)) : St :=
  match r with
  | .ok p => p.2
  | .error _ => initSt

/-- The value of a `getVar` call. -/
def resOfGet (r : Except Err (CacheVal × St)) : Except Err CacheVal := r.map Prod.fst

/-- The state after a `setVar` call. -/
def stOfSet (r : Except Err (Bool × St)) : St :=
  match r with
  | .ok p => p.2
  | .error _ => initSt

/-- The boolean of a `setVar` call. -/
def resOfSet (r : Except Err (Bool × St)) : Except Err Bool := r.map Prod.fst

/-! ### Claim C1: `setVar` overwrite semantics -/

/-- `{name: "nice", scope: "global", value: "69", varType: "basic"}`. -/
def vNice69 : VarData :=
  { name := "nice", scope := "global", varType := "basic", value := .one (.vstr "69") }

/-- The same global name with value `"6969"`. -/
def vNice6969 : VarData :=
  { name := "nice", scope := "global", varType := "basic", value := .one (.vstr "6969") }

/-- `{name: "nice", scope: "scope1", value: "69", varType: "basic"}`. -/
def vScoped69 : VarData :=
  { name := "nice", scope := "scope1", varType := "basic", value := .one (.vstr "69") }

/-- The same scoped name with value `"6969"`. -/
def vScoped6969 : VarData :=
  { name := "nice", scope := "scope1", varType := "basic", value := .one (.vstr "6969") }

/-- First write of the global pair. -/
def c1runA1 : Except Err (Bool × St) := setVar 10 vNice69 false initSt

/-- Second write of the global pair, `overwrite = false`. -/
def c1runA2 : Except Err (Bool × St) := setVar 10 vNice6969 false (stOfSet c1runA1)

/-- First write of the scoped pair. -/
def c1runB1 : Except Err (Bool × St) := setVar 10 vScoped69 false initSt

/-- Second write of the scoped pair, `overwrite = true`. -/
def c1runB2 : Except Err (Bool × St) := setVar 10 vScoped6969 true (stOfSet c1runB1)

/-! ### Claim C2: termination of the public operations -/

/-- `a` is a basic reference to `b`. -/
def vRefA : VarData :=
  { name := "a", scope := "global", varType := "basic", value := .one (.typed "b" "reference" none) }

/-- `b` is a basic reference to `a`. -/
def vRefB : VarData :=
  { name := "b", scope := "global", varType := "basic", value := .one (.typed "a" "reference" none) }

/-- An overwrite for `a` with a plain literal. -/
def vLitA : VarData :=
  { name := "a", scope := "global", varType := "basic", value := .one (.vstr "x") }

/-- The store holding the two-cycle `a → b → a`. -/
def c2store : St := runBulkSt [vRefA, vRefB]

/-- The state after `getVar("a")` on the cyclic store: the dependency
bookkeeping of `#evaluate` has recorded `deps["a"] = {"a", "b"}` (a
self-edge) and `deps["b"] = {"a"}`. -/
def c2evaluated : St := stOfGet (getVar dummyCap 10 "a" false c2store)

/-! ### Claim C3: resolution-time anomaly handling -/

/-- A global list whose single item references the scope `scope1`. -/
def vScopeRefList : VarData :=
  { name := "list", scope := "global", varType := "list",
    value := .arr [.typed "scope1" "reference" none] }

/-- Store with the scope-referencing list and a variable inside
`scope1` (so that `scope1` exists as a scope). -/
def c3store : St := runBulkSt [vScopeRefList, vScoped69]

/-- A global list with a reference to the absent variable `no`. -/
def vMissRefList : VarData :=
  { name := "list2", scope := "global", varType := "list",
    value := .arr [.vstr "a", .typed "no" "reference" none, .vstr "b"] }

/-- Store with only the missing-reference list. -/
def c3missStore : St := runBulkSt [vMissRefList]

/-! ### Claim C4: cache transparency -/

/-- The overwrite `{name: "nice", value: "70"}`. -/
def vNice70 : VarData :=
  { name := "nice", scope := "global", varType := "basic", value := .one (.vstr "70") }

/-- State after `getVar("global.nice")` cached `"69"` under the
spelling `"global.nice"`. -/
def c4stale1 : St := stOfGet (getVar dummyCap 10 "global.nice" false (runBulkSt [vNice69]))

/-- State after overwriting `nice` to `"70"` (which marks only the
canonical spelling `"nice"` stale). -/
def c4stale2 : St := stOfSet (setVar 10 vNice70 true c4stale1)

/-- `{name: "niceVar", value: {value: "nice", type: "reference"}}`. -/
def vNiceVar : VarData :=
  { name := "niceVar", scope := "global", varType := "basic",
    value := .one (.typed "nice" "reference" none) }

/-- Scenario (6), first read: `niceVar` references `nice`. -/
def c4s6a : Except Err (CacheVal × St) :=
  getVar dummyCap 10 "niceVar" false (runBulkSt [vNice69, vNiceVar])

/-- Scenario (6), re-read after overwriting `nice` to `"70"`. -/
def c4s6b : Except Err (CacheVal × St) :=
  getVar dummyCap 10 "niceVar" false (stOfSet (setVar 10 vNice70 true (stOfGet c4s6a)))

/-! ### Claim C6: the dependency-graph invariant -/

/-- `p` references `d`. -/
def vRefP : VarData :=
  { name := "p", scope := "global", varType := "basic", value := .one (.typed "d" "reference" none) }

/-- `d` is the literal `"1"`. -/
def vLitD : VarData :=
  { name := "d", scope := "global", varType := "basic", value := .one (.vstr "1") }

/-- The overwrite of `p` with the plain literal `"L"`. -/
def vLitP : VarData :=
  { name := "p", scope := "global", varType := "basic", value := .one (.vstr "L") }

/-- State after evaluating `p` (which records the edge `d → p`). -/
def c6evalSt : St := stOfGet (getVar dummyCap 10 "p" false (runBulkSt [vRefP, vLitD]))

/-- State after overwriting `p` with the literal. -/
def c6overwritten : St := stOfSet (setVar 10 vLitP true c6evalSt)

/-- The re-read of `p` after the overwrite: its most recent successful
evaluation evaluates a plain literal. -/
def c6final : Except Err (CacheVal × St) := getVar dummyCap 10 "p" false c6overwritten

/-- Reachability along recorded dependent edges of a `deps` map. -/
inductive ReachDeps (deps : List (String × List String)) : String → String → Prop where
  | refl (p : String) : ReachDeps deps p p
  | step {p q r : String} (h1 : ReachDeps deps p q)
      (h2 : r ∈ (alookup deps q).getD []) : ReachDeps deps p r

/-- The state of a completed `#setChanged` run. -/
def stOfChanged (r : Except Err St) : St :=
  match r with
  | .ok st => st
  | .error _ => initSt

/-- The marking run for the witness: `#setChanged("d")` on the
evaluated state. -/
def c6marked : Except Err St := setChangedF 5 "d" c6evalSt

/-! ### Claim C5: cycles evaluate to the circular-dependency sentinel -/

/-- The storage key that `#followReference` ends up looking up for a
reference string `rv` written in `scope`: `#followReference` normalizes
once and `getRawVar` normalizes again (with the global default). -/
def refTarget (scope rv : String) : String :=
  normalizePath (normalizePath rv scope)

/-- A closed set of stored basic references: every path of `S` is
stored under its own canonical key, holds a basic reference variable,
and the reference's target key is again in `S`.  The node set of any
reference cycle (of any length, crossing scopes via `../` or
`scope.name` or not) is such a set. -/
def closedRefSet (vars : List (String × Node)) (S : List String) : Prop :=
  ∀ p ∈ S, ∃ (rv : String) (vs : Option (List (String × ValueItem))) (v : VarData),
    jsGet vars p = .var v ∧
    v.varType = "basic" ∧
    v.value = .one (.typed rv "reference" vs) ∧
    getPath v.name v.scope = p ∧
    refTarget v.scope rv ∈ S

/-- Members of `S` not yet in the visited set. -/
def countMissing (S origin : List String) : Nat :=
  (S.filter (fun x => !origin.contains x)).length

/-- The repository test cycle `var1 → var2 → scope.var3 → ../var4 →
var1`. -/
def c5v1 : VarData :=
  { name := "var1", scope := "global", varType := "basic",
    value := .one (.typed "var2" "reference" none) }

/-- Second node of the witness cycle. -/
def c5v2 : VarData :=
  { name := "var2", scope := "global", varType := "basic",
    value := .one (.typed "scope.var3" "reference" none) }

/-- Third node of the witness cycle (inside the scope `scope`). -/
def c5v3 : VarData :=
  { name := "var3", scope := "scope", varType := "basic",
    value := .one (.typed "../var4" "reference" none) }

/-- Fourth node of the witness cycle. -/
def c5v4 : VarData :=
  { name := "var4", scope := "global", varType := "basic",
    value := .one (.typed "var1" "reference" none) }

/-- The store holding the four-node cross-scope cycle. -/
def c5store : St := runBulkSt [c5v1, c5v2, c5v3, c5v4]

/-- The node set of the witness cycle. -/
def c5set : List String := ["var1", "var2", "scope.var3", "var4"]

/-! ### Result independence from the auxiliary state

The evaluator never reads `deps`, `cache`, `changed` or the ghost
fields: results depend only on the store (`vars`), the arguments and
the fuel.  The lemmas below prove this for every piece, together with
the fact that evaluation never modifies `vars`. -/

/-- Result component of a stateful evaluator call. -/
def resOf {α : Type} (r : Except Err (α × St)) : Except Err α := r.map Prod.fst

/-- `recur` returns equal results on states with equal stores. -/
def RecurResIndep (recur : EvalRecur) : Prop :=
  ∀ v origin parents st st', st.vars = st'.vars →
    resOf (recur v origin parents st) = resOf (recur v origin parents st')

/-- `recur` never modifies the store. -/
def RecurVarsPres (recur : EvalRecur) : Prop :=
  ∀ v origin parents st l st1, recur v origin parents st = .ok (l, st1) → st1.vars = st.vars

/-- The output resolution of a passing table row (the `true` branch of
the row scan in `#evaluate`). -/
def rowResolve (cap : ParserCap) (recur : EvalRecur) (row : TableRow) (scope : String)
    (origin parents : List String) (st : St) : Except Err (Lit × St) :=
  match row.output with
  | .vstr s => .ok (.str s, st)
  | .typed v t vs =>
    if t == "literal" then .ok (.str v, st)
    else followReferenceStep cap recur v t vs scope origin parents st

/-- The default resolution of a table with no passing row (the
`.ok (none, st1)` branch of the table case of `#evaluate`). -/
def dfltResolve (cap : ParserCap) (recur : EvalRecur) (value : VarData)
    (origin parents : List String) (st : St) : Except Err (Lit × St) :=
  match value.dflt with
  | some (.vstr s) => .ok (.str s, st)
  | some (.typed v t vs) =>
    if t == "literal" then .ok (.str v, st)
    else followReferenceStep cap recur v t vs value.scope origin parents st
  | none => .error (.typeE "unreachable: default checked above")

/-- The table `default` shape check of `#evaluate`. -/
def dfltOk : Option ValueItem → Bool
  | some (.vstr _) => true
  | some (.typed _ t _) => ["literal", "reference", "expression"].contains t
  | none => false

/-- Rows for the C7 witness: rows 0 and 1 pass, row 2 fails. -/
def c7rows : List TableRow :=
  [{ conditions := [{ val1 := .vstr "1", comparison := "eq", val2 := .vstr "1" }],
     output := .vstr "row0" },
   { conditions := [{ val1 := .vstr "2", comparison := "eq", val2 := .vstr "2" }],
     output := .vstr "row1" },
   { conditions := [{ val1 := .vstr "a", comparison := "eq", val2 := .vstr "b" }],
     output := .vstr "row2" }]

/-- A `priority: "first"` table over `c7rows`. -/
def c7first : VarData :=
  { name := "t", scope := "global", varType := "table", value := .rows c7rows,
    priority := some "first", dflt := some (.vstr "dflt") }

/-- A `priority: "last"` table over `c7rows`. -/
def c7last : VarData :=
  { name := "t", scope := "global", varType := "table", value := .rows c7rows,
    priority := some "last", dflt := some (.vstr "dflt") }

/-- Rows for the C7 default witness: the single row fails. -/
def c7rowsF : List TableRow :=
  [{ conditions := [{ val1 := .vstr "a", comparison := "eq", val2 := .vstr "b" }],
     output := .vstr "row0" }]

/-- A table none of whose rows passes. -/
def c7none : VarData :=
  { name := "t", scope := "global", varType := "table", value := .rows c7rowsF,
    priority := some "first", dflt := some (.vstr "dflt") }

/-- Every path in `origin` has rank above `r`. -/
def OriginBelow (rank : String → Nat) (origin : List String) (r : Nat) : Prop :=
  ∀ p, p ∈ origin → r < rank p

/-- Every resolvable reference in `refs` (resolved against `scope`)
reaches a variable whose path rank is below every path in `origin`. -/
def RefsBelow (rank : String → Nat) (vars : List (String × Node)) (scope : String)
    (origin : List String) (refs : List String) : Prop :=
  ∀ rv, rv ∈ refs → ∀ w, getRawVar vars (normalizePath rv scope) = .ok w →
    OriginBelow rank origin (rank (getPath w.name w.scope))

/-- Reference strings consumed by the inline-expression bindings loop
(each non-literal binding is pre-normalized against the scope, exactly
as `#followReference` does before the lookup). -/
def inlineRefs (scope : String) (entries : List (String × ValueItem)) : List String :=
  entries.flatMap (fun kv =>
    match kv.2 with
    | .vstr _ => []
    | .typed rv2 t2 _ => if t2 == "literal" then [] else [normalizePath rv2 scope])

/-- Reference strings a `Value` item can hand to `#followReference`. -/
def itemRefs (scope : String) : ValueItem → List String
  | .vstr _ => []
  | .typed rv t vs =>
    if t == "literal" then []
    else if t == "expression" then
      (match vs with
       | some entries => inlineRefs scope entries
       | none => [])
    else [rv]

/-- Reference strings of one table condition. -/
def condRefs (scope : String) (c : Condition) : List String :=
  itemRefs scope c.val1 ++ itemRefs scope c.val2

/-- Reference strings of one table row. -/
def rowRefs (scope : String) (row : TableRow) : List String :=
  row.conditions.flatMap (condRefs scope) ++ itemRefs scope row.output

/-- The syntactic reference edges of a stored variable: all reference
strings its evaluation can resolve. -/
def varRefs (v : VarData) : List String :=
  (match v.value with
   | .one vi => itemRefs v.scope vi
   | .arr items => items.flatMap (itemRefs v.scope)
   | .rows rows => rows.flatMap (rowRefs v.scope))
  ++ (match v.dflt with
      | some vi => itemRefs v.scope vi
      | none => [])
  ++ (match v.vars with
      | some entries => entries.flatMap (fun kv => itemRefs v.scope kv.2)
      | none => [])
  ++ (match v.functions with
      | some fns => fns.flatMap (itemRefs v.scope)
      | none => [])

/-- `rank` strictly decreases along every resolvable reference edge out
of `v`. -/
def varRefsOkB (rank : String → Nat) (vars : List (String × Node)) (v : VarData) : Bool :=
  (varRefs v).all (fun rv =>
    match getRawVar vars (normalizePath rv v.scope) with
    | .ok u => decide (rank (getPath u.name u.scope) < rank (getPath v.name v.scope))
    | .error _ => true)

/-- `rank` is a topological rank of the store's reference graph: it
strictly decreases along every resolvable reference edge (the store's
reference graph is acyclic). -/
def rankOkB (rank : String → Nat) (vars : List (String × Node)) : Bool :=
  vars.all (fun kn =>
    match kn.2 with
    | .var w => varRefsOkB rank vars w
    | .scope m => m.all (fun kv => varRefsOkB rank vars kv.2))

/-- The no-false-circular hypothesis for the recursion parameter. -/
def RecurCirc (rank : String → Nat) (recur : EvalRecur) : Prop :=
  ∀ v origin parents st r st1,
    rankOkB rank st.vars = true →
    varRefsOkB rank st.vars v = true →
    OriginBelow rank origin (rank (getPath v.name v.scope)) →
    st.circHit = false →
    recur v origin parents st = .ok (r, st1) →
    st1.circHit = false

/-- An acyclic (reference-free) store whose variable's literal value is
the circular-dependency sentinel string. -/
def c10inband : VarData :=
  { name := "fake", scope := "global", varType := "basic",
    value := .one (.vstr "[CIRCULAR DEPENDENCY]") }

/-- A variable referencing `p`. -/
def c10ref : VarData :=
  { name := "d", scope := "global", varType := "basic",
    value := .one (.typed "p" "reference" none) }

/-- The referenced literal. -/
def c10lit : VarData :=
  { name := "p", scope := "global", varType := "basic", value := .one (.vstr "69") }

/-- The acyclic witness store (one edge `d → p`). -/
def c10st : St := runBulkSt [c10ref, c10lit]

/-- A topological rank for `c10st`: the leaf `p` below everything
else. -/
def c10rank : String → Nat := fun s => if s == "p" then 0 else 1

/-- Edge containment between two dependents maps: every dependent
recorded in the first is recorded in the second. -/
def depsSub (a b : List (String × List String)) : Prop :=
  ∀ d q, q ∈ (alookup a d).getD [] → q ∈ (alookup b d).getD []

/-- The recursion hypothesis of the dependents-growth lemmas: the
one-deeper `#evaluate` never removes a recorded dependent edge. -/
def RecurDeps (recur : EvalRecur) : Prop :=
  ∀ v origin parents st l st1, recur v origin parents st = .ok (l, st1) →
    depsSub st.deps st1.deps

/-! ## Theorems -/

/-- Claim C1 (code bug, both directions): at the root, `setVar(v2, false)`
after `setVar(v, false)` at the same global path returns `true` and
replaces the stored variable (the claim/spec say it returns `false` and
leaves `v` in place); and in a non-global scope, `setVar(v2, true)`
returns `false` and leaves `v` in place (the claim/spec say it returns
`true` and replaces), because `#addScope` returns `false` for an
existing scope when `overwrite` is `true`, contradicting its own doc
comment ("True if scope was added or already existed"). -/
theorem C1_overwrite_code_bug :
    resOfSet c1runA1 = .ok true ∧
    resOfSet c1runA2 = .ok true ∧
    alookup (stOfSet c1runA2).vars "nice" = some (.var vNice6969) ∧
    resOfSet c1runB1 = .ok true ∧
    resOfSet c1runB2 = .ok false ∧
    jsGet (stOfSet c1runB2).vars "scope1.nice" = .var vScoped69 := by
  exact ⟨rfl, rfl, rfl, rfl, rfl, rfl⟩

/-- `#setChanged` diverges on the self-edge: at any fuel the marking
recursion runs out (the JS original overflows the stack). -/
theorem setChangedF_selfloop (fuel : Nat) :
    ∀ st : St, alookup st.deps "a" = some ["a", "b"] →
      setChangedF fuel "a" st = .error .fuelE := by
  induction fuel with
  | zero => intro st _; rfl
  | succ n ih =>
    intro st h
    have h1 : alookup ({ st with changed := aset st.changed "a" true } : St).deps "a"
        = some ["a", "b"] := h
    simp only [setChangedF, h1]
    simp only [List.foldl_cons, ih _ h1, List.foldl_nil]

/-- Claim C2 (code bug): after evaluating the reachable cyclic store
`a → b → a`, the dependents map holds a self-edge on `"a"`, and the
stale-marking cascade of a subsequent `setVar` on `"a"` never
terminates: `setVar` fails with the out-of-fuel artifact at every fuel
(the JS original recurses in `#setChanged` until the stack
overflows). -/
theorem C2_setChanged_diverges :
    alookup c2evaluated.deps "a" = some ["a", "b"] ∧
    ∀ fuel : Nat, setVar fuel vLitA true c2evaluated = .error .fuelE := by
  refine ⟨rfl, fun fuel => ?_⟩
  have heq : setVar fuel vLitA true c2evaluated
      = (setChangedF fuel "a"
          { c2evaluated with vars := aset c2evaluated.vars "a" (.var vLitA) }).map
          (fun st2 => (true, st2)) := rfl
  rw [heq, setChangedF_selfloop fuel
    { c2evaluated with vars := aset c2evaluated.vars "a" (.var vLitA) } rfl]
  rfl

/-- Claim C3 (counterexample): a reference that points at a scope does
not resolve to the sentinel `"[VARIABLE POINTS TO SCOPE]"`: `getVar`
raises the `TypeError` of `getRawVar` (only `ReferenceError` is turned
into a sentinel by `#followReference`), so the claim's "never raises"
is false on the code. -/
theorem C3_scope_reference_raises :
    resOfGet (getVar dummyCap 10 "list" false c3store)
      = .error (.typeE "Variable scope1 is malformed (is it a scope?)") := rfl

/-- Claim C3 (amended): a missing reference resolves to
`"[MISSING REFERENCE]"` (inline `[MISSING <path>]` in lists), a
circular reference resolves to `"[CIRCULAR DEPENDENCY]"`, an `in`
comparison whose right operand is not a sequence evaluates to a failed
condition, and evaluation of the enclosing list continues around a
missing reference; but a reference that points at a scope instead of a
variable propagates a `TypeError` rather than resolving to a
sentinel. -/
theorem C3_anomaly_handling :
    (∀ (recur : EvalRecur) (rv scope : String) (origin parents : List String) (st : St),
      jsGet st.vars (normalizePath (normalizePath rv scope)) = .nothing →
      followRefBasic recur rv scope origin parents st = .ok (.str "[MISSING REFERENCE]", st)) ∧
    (∀ (recur : EvalRecur) (rv scope : String) (origin parents : List String) (st : St)
        (m : List (String × VarData)),
      jsGet st.vars (normalizePath (normalizePath rv scope)) = .scopeNode m →
      followRefBasic recur rv scope origin parents st
        = .error (.typeE ("Variable " ++ normalizePath rv scope ++ " is malformed (is it a scope?)"))) ∧
    (∀ (cap : ParserCap) (recur : EvalRecur) (v : VarData) (origin parents : List String) (st : St),
      origin.contains (getPath v.name v.scope) = true →
      (evaluateStep cap recur v origin parents st).map Prod.fst
        = .ok (.str "[CIRCULAR DEPENDENCY]")) ∧
    (∀ (cap : ParserCap) (recur : EvalRecur) (s1 s2 scope : String)
        (origin parents : List String) (full : Bool) (st : St),
      evalConditionStep cap recur { val1 := .vstr s1, comparison := "in", val2 := .vstr s2 }
          scope origin parents full st
        = .ok ({ output := false, val1 := .str s1, val2 := .str s2 }, st)) ∧
    resOfGet (getVar dummyCap 10 "list2" false c3missStore)
      = .ok (.lit (.lst ["a", "[MISSING no]", "b"])) := by
  refine ⟨?_, ?_, ?_, fun cap recur s1 s2 scope origin parents full st => rfl, rfl⟩
  · intro recur rv scope origin parents st h
    simp only [followRefBasic, getRawVar, h]
  · intro recur rv scope origin parents st m h
    simp only [followRefBasic, getRawVar, h]
  · intro cap recur v origin parents st h
    simp only [evaluateStep, h, if_true, Except.map]

/-- Concrete instantiation of `C3_anomaly_handling`. -/
theorem C3_anomaly_handling_witness :
    followRefBasic (evaluate dummyCap 5) "no" "global" [] [] initSt
      = .ok (.str "[MISSING REFERENCE]", initSt) ∧
    followRefBasic (evaluate dummyCap 5) "scope1" "global" [] [] c3store
      = .error (.typeE ("Variable " ++ normalizePath "scope1" "global" ++ " is malformed (is it a scope?)")) ∧
    (evaluateStep dummyCap (evaluate dummyCap 5) vRefA ["a"] [] initSt).map Prod.fst
      = .ok (.str "[CIRCULAR DEPENDENCY]") ∧
    evalConditionStep dummyCap (evaluate dummyCap 5)
        { val1 := .vstr "x", comparison := "in", val2 := .vstr "y" } "global" [] [] false initSt
      = .ok ({ output := false, val1 := .str "x", val2 := .str "y" }, initSt) :=
  ⟨C3_anomaly_handling.1 (evaluate dummyCap 5) "no" "global" [] [] initSt rfl,
   C3_anomaly_handling.2.1 (evaluate dummyCap 5) "scope1" "global" [] [] c3store
     [("nice", vScoped69)] rfl,
   C3_anomaly_handling.2.2.1 dummyCap (evaluate dummyCap 5) vRefA ["a"] [] initSt rfl,
   C3_anomaly_handling.2.2.2.1 dummyCap (evaluate dummyCap 5) "x" "y" "global" [] [] false initSt⟩

/-- Claim C4 (counterexample): after the overwrite, `getVar` under the
spelling `"global.nice"` answers `"69"` from the cache while a fresh
evaluation of the variable now stored at that path yields `"70"` —
the cache hit does not equal re-evaluation. -/
theorem C4_cache_spelling_stale :
    resOfGet (getVar dummyCap 10 "global.nice" false c4stale2) = .ok (.lit (.str "69")) ∧
    (evaluate dummyCap 10 vNice70 [] [] c4stale2).map Prod.fst = .ok (.str "70") ∧
    alookup c4stale2.vars "nice" = some (.var vNice70) := ⟨rfl, rfl, rfl⟩

/-- Claim C4 (amended, positive part): under the canonical spelling and
plain form, invalidation propagates through the recorded dependency
edge: overwriting `nice` to `"70"` and re-reading `niceVar` yields
`"70"` (spec scenario (6)). -/
theorem C4_cache_scenario6 :
    resOfGet c4s6a = .ok (.lit (.str "69")) ∧
    resOfGet c4s6b = .ok (.lit (.str "70")) := ⟨rfl, rfl⟩

/-- Claim C6 (counterexample): after overwriting `p` with a literal and
re-evaluating it, the dependents map still contains the edge `d → p`,
although the most recent successful evaluation of `p` dereferenced
nothing (the ghost dereference trace is unchanged across it) — the
"only if dereferenced during the most recent successful evaluation"
invariant is false on the code, which never prunes edges. -/
theorem C6_stale_edge_counterexample :
    resOfGet c6final = .ok (.lit (.str "L")) ∧
    (stOfGet c6final).trace = c6overwritten.trace ∧
    alookup (stOfGet c6final).deps "d" = some ["p"] := ⟨rfl, rfl, rfl⟩

/-! ### Claim C9: the `eq` comparison on sequences -/

/-- Claim C9 (counterexample): two sequences with the same elements at
different multiplicities are `eq`-equal — `eq` is not multiset
equality. -/
theorem C9_eq_multiset_counterexample :
    comparisons.eq (.lst ["a", "a"]) (.lst ["a"]) = true := rfl

/-- Claim C9 (amended): `eq` on two sequences holds exactly when each
sequence's elements all appear in the other (set equality of elements,
ignoring order and multiplicity); a sequence operand is never
`eq`-equal to a string operand. -/
theorem C9_eq_set_equality :
    (∀ a b : List String,
      (comparisons.eq (.lst a) (.lst b) = true ↔ (∀ x ∈ a, x ∈ b) ∧ (∀ x ∈ b, x ∈ a))) ∧
    (∀ (l : List String) (s : String), comparisons.eq (.lst l) (.str s) = false) ∧
    (∀ (l : List String) (s : String), comparisons.eq (.str s) (.lst l) = false) := by
  refine ⟨fun a b => ?_, fun l s => rfl, fun l s => rfl⟩
  simp [comparisons.eq, List.filter_eq_nil_iff]

/-! ### Claim C8: round-trip stability of path resolution -/

/-- A word character is not a dot. -/
theorem word_ne_dot {c : Char} (h : isWordChar c = true) : c ≠ '.' := by
  intro he; subst he; exact absurd h (by decide)

/-- A list headed by a word character never starts with a dot-headed
pattern. -/
theorem startsWith_dotPattern_false {c : Char} (cs ps : List Char)
    (h : isWordChar c = true) : startsWithL (c :: cs) ('.' :: ps) = false := by
  simp [startsWithL, beq_eq_false_iff_ne.mpr (Ne.symm (word_ne_dot h))]

/-- Collapsing dots is the identity on an all-word list. -/
theorem collapse_word (l : List Char) (h : l.all isWordChar = true) :
    ∀ flag, collapseDotsAux flag l = l := by
  induction l with
  | nil => intro flag; rfl
  | cons c cs ih =>
    intro flag
    simp only [List.all_cons, Bool.and_eq_true] at h
    simp [collapseDotsAux, beq_eq_false_iff_ne.mpr (word_ne_dot h.1), ih h.2]

/-- Collapsing dots is the identity on `a ++ "." ++ b` for word lists
`a` and `b`. -/
theorem collapse_word_dot_word (a b : List Char) (ha : a.all isWordChar = true)
    (hb : b.all isWordChar = true) :
    collapseDotsAux false (a ++ '.' :: b) = a ++ '.' :: b := by
  induction a with
  | nil =>
    simp only [List.nil_append]
    show collapseDotsAux false ('.' :: b) = '.' :: b
    simp [collapseDotsAux, collapse_word b hb true]
  | cons c cs ih =>
    simp only [List.all_cons, Bool.and_eq_true] at ha
    simp [collapseDotsAux, beq_eq_false_iff_ne.mpr (word_ne_dot ha.1), ih ha.2]

/-- Splitting an all-word list on dots yields the single segment. -/
theorem split_word (l : List Char) (h : l.all isWordChar = true) :
    splitOnCharL '.' l = [l] := by
  induction l with
  | nil => rfl
  | cons c cs ih =>
    simp only [List.all_cons, Bool.and_eq_true] at h
    simp [splitOnCharL, beq_eq_false_iff_ne.mpr (word_ne_dot h.1), ih h.2]

/-- Splitting `a ++ "." ++ b` on dots yields the two segments. -/
theorem split_word_dot_word (a b : List Char) (ha : a.all isWordChar = true)
    (hb : b.all isWordChar = true) :
    splitOnCharL '.' (a ++ '.' :: b) = [a, b] := by
  induction a with
  | nil => simp [splitOnCharL, split_word b hb]
  | cons c cs ih =>
    simp only [List.all_cons, Bool.and_eq_true] at ha
    simp [splitOnCharL, beq_eq_false_iff_ne.mpr (word_ne_dot ha.1), ih ha.2]

/-- An all-word list never starts with `g ++ "."`. -/
theorem startsWith_gdot_word_false (g : List Char) :
    ∀ l : List Char, l.all isWordChar = true → startsWithL l (g ++ ['.']) = false := by
  induction g with
  | nil =>
    intro l h
    match l with
    | [] => rfl
    | c :: cs =>
      simp only [List.all_cons, Bool.and_eq_true] at h
      simp [startsWithL, beq_eq_false_iff_ne.mpr (Ne.symm (word_ne_dot h.1))]
  | cons d g2 ihg =>
    intro l h
    match l with
    | [] => rfl
    | c :: cs =>
      simp only [List.all_cons, Bool.and_eq_true] at h
      simp [startsWithL, ihg cs h.2]

/-- `a ++ "." ++ b` starts with `g ++ "."` exactly when `a = g`, for
word lists `a` and `g`. -/
theorem startsWith_word_dot_iff (g : List Char) :
    ∀ a b : List Char, g.all isWordChar = true → a.all isWordChar = true →
      (startsWithL (a ++ '.' :: b) (g ++ ['.']) = true ↔ a = g) := by
  induction g with
  | nil =>
    intro a b _ ha
    cases a with
    | nil => simp [startsWithL]
    | cons c cs =>
      simp only [List.all_cons, Bool.and_eq_true] at ha
      simp [startsWithL, beq_eq_false_iff_ne.mpr (Ne.symm (word_ne_dot ha.1))]
  | cons d g2 ihg =>
    intro a b hg ha
    simp only [List.all_cons, Bool.and_eq_true] at hg
    cases a with
    | nil =>
      simp [startsWithL, beq_eq_false_iff_ne.mpr (word_ne_dot hg.1)]
    | cons c cs =>
      simp only [List.all_cons, Bool.and_eq_true] at ha
      by_cases hdc : d = c
      · subst hdc
        simp [startsWithL, ihg cs b hg.2 ha.2]
      · simp only [startsWithL, beq_eq_false_iff_ne.mpr hdc, Bool.false_and,
          Bool.false_eq_true, false_iff, List.cons.injEq, not_and]
        intro hcd
        exact absurd hcd.symm hdc

/-- Claim C8: for every name and scope matching the identifier pattern,
`normalizePath(getPath(n, s), s) = getPath(n, s)`. -/
theorem C8_normalizePath_roundtrip (n s : String) (hn : patternTest n = true)
    (hs : patternTest s = true) :
    normalizePath (getPath n s) s = getPath n s := by
  simp only [patternTest, Bool.and_eq_true, Bool.not_eq_true'] at hn hs
  obtain ⟨hn0, hn1⟩ := hn
  obtain ⟨hs0, hs1⟩ := hs
  have hglobChars : globalDotMarker = "global".data ++ ['.'] := rfl
  by_cases hsg : s = "global"
  · subst hsg
    have hgp : getPath n "global" = n := by simp [getPath]
    rw [hgp]
    have h1 : startsWithL n.data globalDotMarker = false := by
      rw [hglobChars]; exact startsWith_gdot_word_false _ _ hn1
    have h2 : collapseDotsL n.data = n.data := collapse_word n.data hn1 false
    have h3 : splitOnDotL n.data = [n.data] := split_word n.data hn1
    simp [normalizePath, h1, h2, h3]
  · have hbeq : (s == "global") = false := beq_eq_false_iff_ne.mpr hsg
    obtain ⟨c, cs, hcons⟩ : ∃ c cs, n.data = c :: cs := by
      cases hd : n.data with
      | nil => rw [hd] at hn0; simp at hn0
      | cons c cs => exact ⟨c, cs, rfl⟩
    obtain ⟨d, ds, hscons⟩ : ∃ d ds, s.data = d :: ds := by
      cases hd : s.data with
      | nil => rw [hd] at hs0; simp at hs0
      | cons d ds => exact ⟨d, ds, rfl⟩
    have hcw : isWordChar c = true := by
      rw [hcons, List.all_cons, Bool.and_eq_true] at hn1; exact hn1.1
    have hdw : isWordChar d = true := by
      rw [hscons, List.all_cons, Bool.and_eq_true] at hs1; exact hs1.1
    have hupn : startsWithL n.data upMarker = false := by
      rw [hcons]; exact startsWith_dotPattern_false cs _ hcw
    have hgp : getPath n s = String.mk (s.data ++ '.' :: n.data) := by
      simp [getPath, hbeq, hupn]
    rw [hgp]
    have hsd_ne : s.data ≠ "global".data := by
      intro hd
      apply hsg
      have h2 : String.mk s.data = String.mk "global".data := by rw [hd]
      exact h2
    have hup2 : startsWithL (s.data ++ '.' :: n.data) upMarker = false := by
      rw [hscons]; exact startsWith_dotPattern_false _ _ hdw
    have hglob2 : startsWithL (s.data ++ '.' :: n.data) globalDotMarker = false := by
      rw [hglobChars]
      cases hb : startsWithL (s.data ++ '.' :: n.data) ("global".data ++ ['.'])
      · rfl
      · exact absurd ((startsWith_word_dot_iff "global".data s.data n.data (by decide) hs1).mp hb)
          hsd_ne
    have h2 : collapseDotsL (s.data ++ '.' :: n.data) = s.data ++ '.' :: n.data :=
      collapse_word_dot_word s.data n.data hs1 hn1
    have h3 : splitOnDotL (s.data ++ '.' :: n.data) = [s.data, n.data] :=
      split_word_dot_word s.data n.data hs1 hn1
    simp [normalizePath, hup2, hbeq, hglob2, h2, h3]

/-- Concrete instantiation of `C8_normalizePath_roundtrip`. -/
theorem C8_normalizePath_roundtrip_witness :
    patternTest "var" = true ∧ patternTest "scope" = true ∧
    normalizePath (getPath "var" "scope") "scope" = getPath "var" "scope" :=
  ⟨by decide, by decide, C8_normalizePath_roundtrip "var" "scope" (by decide) (by decide)⟩

/-! ### Claim C6 (amended): accumulation and transitive marking -/

/-- Lookup after assignment in a JS object. -/
theorem alookup_aset {α : Type} (m : List (String × α)) (k x : String) (v : α) :
    alookup (aset m k v) x = if x = k then some v else alookup m x := by
  induction m with
  | nil =>
    by_cases hxk : x = k
    · subst hxk; simp [aset, alookup]
    · simp [aset, alookup, beq_eq_false_iff_ne.mpr (Ne.symm hxk), hxk]
  | cons kv rest ih =>
    obtain ⟨k2, w⟩ := kv
    by_cases hk2 : k2 = k
    · subst hk2
      by_cases hxk : x = k2
      · subst hxk; simp [aset, alookup]
      · simp [aset, alookup, beq_eq_false_iff_ne.mpr (Ne.symm hxk), hxk]
    · by_cases hxk2 : x = k2
      · subst hxk2
        simp [aset, alookup, beq_eq_false_iff_ne.mpr hk2, hk2]
      · simp [aset, alookup, beq_eq_false_iff_ne.mpr hk2,
          beq_eq_false_iff_ne.mpr (Ne.symm hxk2), ih]

/-- Inversion: anything reachable from `q` is `q` itself or reachable
from one of `q`'s recorded dependents. -/
theorem ReachDeps.cases_head {deps : List (String × List String)} {q r : String}
    (h : ReachDeps deps q r) :
    r = q ∨ ∃ c, c ∈ (alookup deps q).getD [] ∧ ReachDeps deps c r := by
  induction h with
  | refl => exact Or.inl rfl
  | step h1 h2 ih =>
    rcases ih with rfl | ⟨c, hc, hcr⟩
    · exact Or.inr ⟨_, h2, ReachDeps.refl _⟩
    · exact Or.inr ⟨c, hc, ReachDeps.step hcr h2⟩

/-- The error accumulator of the `#setChanged` fold is absorbing. -/
theorem setChanged_fold_error (l : List String) (fuel : Nat) (e : Err) :
    l.foldl (fun (acc : Except Err St) i => match acc with
      | .error e2 => .error e2
      | .ok s => setChangedF fuel i s) (.error e) = .error e := by
  induction l with
  | nil => rfl
  | cons x rest ih => simpa using ih

/-- Correctness of a completed `#setChanged`: the deps map is
untouched, existing marks persist, and everything reachable from the
written path along recorded dependent edges is marked. -/
theorem setChangedF_marks (fuel : Nat) :
    ∀ (q : String) (st st2 : St), setChangedF fuel q st = .ok st2 →
      st2.deps = st.deps ∧
      (∀ x, alookup st.changed x = some true → alookup st2.changed x = some true) ∧
      (∀ r, ReachDeps st.deps q r → alookup st2.changed r = some true) := by
  induction fuel with
  | zero => intro q st st2 h; exact absurd h (by simp [setChangedF])
  | succ n ih =>
    -- the loop lemma for the fold over the recorded dependents
    have loop : ∀ (l : List String) (st0 st2 : St),
        (l.foldl (fun (acc : Except Err St) i => match acc with
          | .error e => .error e
          | .ok s => setChangedF n i s) (.ok st0)) = .ok st2 →
        st2.deps = st0.deps ∧
        (∀ x, alookup st0.changed x = some true → alookup st2.changed x = some true) ∧
        (∀ c, c ∈ l → ∀ r, ReachDeps st0.deps c r → alookup st2.changed r = some true) := by
      intro l
      induction l with
      | nil =>
        intro st0 st2 h
        simp only [List.foldl_nil, Except.ok.injEq] at h
        subst h
        exact ⟨rfl, fun x hx => hx, fun c hc => absurd hc (List.not_mem_nil c)⟩
      | cons c0 rest ihl =>
        intro st0 st2 h
        simp only [List.foldl_cons] at h
        cases hc0 : setChangedF n c0 st0 with
        | error e => rw [hc0] at h; rw [setChanged_fold_error] at h; exact absurd h (by simp)
        | ok st1 =>
          rw [hc0] at h
          obtain ⟨hd1, hm1, hr1⟩ := ih c0 st0 st1 hc0
          obtain ⟨hd2, hm2, hr2⟩ := ihl st1 st2 h
          refine ⟨by rw [hd2, hd1], fun x hx => hm2 x (hm1 x hx), ?_⟩
          intro c hc r hreach
          rcases List.mem_cons.mp hc with rfl | hcr
          · exact hm2 r (hr1 r hreach)
          · exact hr2 c hcr r (by rw [hd1]; exact hreach)
    intro q st st2 h
    simp only [setChangedF] at h
    set st1 : St := { st with changed := aset st.changed q true } with hst1
    have hst1c : ∀ x, alookup st.changed x = some true → alookup st1.changed x = some true := by
      intro x hx
      show alookup (aset st.changed q true) x = some true
      rw [alookup_aset]
      by_cases hxq : x = q
      · simp [hxq]
      · simp [hxq, hx]
    have hst1q : alookup st1.changed q = some true := by
      show alookup (aset st.changed q true) q = some true
      rw [alookup_aset]
      simp
    cases hdep : alookup st1.deps q with
    | none =>
      rw [hdep] at h
      simp only [Except.ok.injEq] at h
      subst h
      refine ⟨rfl, hst1c, ?_⟩
      intro r hreach
      rcases hreach.cases_head with rfl | ⟨c, hc, _⟩
      · exact hst1q
      · rw [show alookup st.deps q = alookup st1.deps q from rfl, hdep] at hc
        exact absurd hc (List.not_mem_nil c)
    | some l =>
      rw [hdep] at h
      obtain ⟨hd2, hm2, hr2⟩ := loop l st1 st2 h
      refine ⟨hd2, fun x hx => hm2 x (hst1c x hx), ?_⟩
      intro r hreach
      rcases hreach.cases_head with rfl | ⟨c, hc, hcr⟩
      · exact hm2 r hst1q
      · rw [show alookup st.deps q = alookup st1.deps q from rfl] at hc
        rw [hdep] at hc
        simp only [Option.getD_some] at hc
        exact hr2 c hc r hcr

/-- Membership after `depsInitAdd` on a map that already has an entry
for `tp`: exactly the old dependents plus the parents chain under
`tp`. -/
theorem depsInitAdd_some_mem :
    ∀ (parents : List String) (dmap : List (String × List String)) (tp : String)
      (s0 : List String), alookup dmap tp = some s0 →
      ∀ d q, q ∈ (alookup (depsInitAdd dmap tp parents) d).getD [] ↔
        q ∈ (alookup dmap d).getD [] ∨ (d = tp ∧ q ∈ parents) := by
  intro parents
  induction parents with
  | nil =>
    intro dmap tp s0 hs d q
    simp only [depsInitAdd, List.foldl_nil]
    rw [hs]
    simp
  | cons i rest ih =>
    intro dmap tp s0 hs d q
    simp only [depsInitAdd, List.foldl_cons]
    rw [hs]
    dsimp only
    rw [hs]
    dsimp only
    by_cases hci : s0.contains i = true
    · rw [if_pos hci]
      have IH := ih dmap tp s0 hs d q
      simp only [depsInitAdd] at IH
      rw [hs] at IH
      dsimp only at IH
      rw [IH]
      have him : i ∈ s0 := by simpa using hci
      constructor
      · rintro (hm | ⟨rfl, hq⟩)
        · exact Or.inl hm
        · exact Or.inr ⟨rfl, List.mem_cons_of_mem i hq⟩
      · rintro (hm | ⟨rfl, hq⟩)
        · exact Or.inl hm
        · rcases List.mem_cons.mp hq with rfl | hq2
          · refine Or.inl ?_
            rw [hs]
            simpa using him
          · exact Or.inr ⟨rfl, hq2⟩
    · rw [if_neg hci]
      have hs2 : alookup (aset dmap tp (s0 ++ [i])) tp = some (s0 ++ [i]) := by
        rw [alookup_aset]
        simp
      have IH := ih (aset dmap tp (s0 ++ [i])) tp (s0 ++ [i]) hs2 d q
      simp only [depsInitAdd] at IH
      rw [hs2] at IH
      dsimp only at IH
      rw [IH]
      rw [alookup_aset]
      by_cases hd : d = tp
      · subst hd
        rw [if_pos rfl, hs]
        simp only [Option.getD_some, List.mem_append, List.mem_singleton, List.mem_cons,
          List.not_mem_nil, or_false]
        tauto
      · rw [if_neg hd]
        simp [hd]

/-- On a map with no entry for `tp`, `depsInitAdd` first initializes
the entry to `[]`. -/
theorem depsInitAdd_none_eq (dmap : List (String × List String)) (tp : String)
    (parents : List String) (hn : alookup dmap tp = none) :
    depsInitAdd dmap tp parents = depsInitAdd (aset dmap tp []) tp parents := by
  have hs2 : alookup (aset dmap tp []) tp = some [] := by
    rw [alookup_aset]
    simp
  simp only [depsInitAdd]
  rw [hn, hs2]

/-- Membership after the dependency bookkeeping at the top of
`#evaluate`: exactly the old dependents of each path, plus the parents
chain under the evaluated path. -/
theorem depsInitAdd_mem (deps : List (String × List String)) (tp : String)
    (parents : List String) (d q : String) :
    q ∈ (alookup (depsInitAdd deps tp parents) d).getD [] ↔
      q ∈ (alookup deps d).getD [] ∨ (d = tp ∧ q ∈ parents) := by
  cases hs : alookup deps tp with
  | some s0 => exact depsInitAdd_some_mem parents deps tp s0 hs d q
  | none =>
    rw [depsInitAdd_none_eq deps tp parents hs,
      depsInitAdd_some_mem parents (aset deps tp []) tp []
        (by rw [alookup_aset]; simp) d q,
      alookup_aset]
    by_cases hd : d = tp
    · subst hd
      rw [if_pos rfl, hs]
      simp
    · rw [if_neg hd]

/-- Reflexivity of dependents-map containment. -/
theorem depsSub_rfl (a : List (String × List String)) : depsSub a a :=
  fun _ _ hq => hq

/-- Transitivity of dependents-map containment. -/
theorem depsSub_trans {a b c : List (String × List String)}
    (h1 : depsSub a b) (h2 : depsSub b c) : depsSub a c :=
  fun d q hq => h2 d q (h1 d q hq)

/-- `depsInitAdd` never removes a recorded dependent edge. -/
theorem depsInitAdd_sub (deps : List (String × List String)) (tp : String)
    (parents : List String) : depsSub deps (depsInitAdd deps tp parents) :=
  fun d q hq => (depsInitAdd_mem deps tp parents d q).mpr (Or.inl hq)

/-- The dependents map only grows through the basic reference
resolution. -/
theorem followRefBasic_deps (recur : EvalRecur) (hD : RecurDeps recur) :
    ∀ rv scope origin parents st l st1,
      followRefBasic recur rv scope origin parents st = .ok (l, st1) →
      depsSub st.deps st1.deps := by
  intro rv scope origin parents st l st1 h
  simp only [followRefBasic] at h
  cases hg : getRawVar st.vars (normalizePath rv scope) with
  | error e =>
    rw [hg] at h
    cases e <;> dsimp only at h <;>
      first
      | (simp only [Except.ok.injEq, Prod.mk.injEq] at h
         rw [← h.2]
         exact depsSub_rfl st.deps)
      | simp at h
  | ok w =>
    rw [hg] at h
    dsimp only at h
    cases hr : recur w origin parents
        { st with trace := st.trace ++ [normalizePath rv scope] } with
    | error e => rw [hr] at h; exact absurd h (by simp)
    | ok q =>
      obtain ⟨value, st2⟩ := q
      rw [hr] at h
      dsimp only at h
      simp only [Except.ok.injEq, Prod.mk.injEq] at h
      rw [← h.2]
      exact hD w origin parents { st with trace := st.trace ++ [normalizePath rv scope] }
        value st2 hr

/-- The dependents map only grows through the inline-expression
bindings loop. -/
theorem inlineVarsLoop_deps (recur : EvalRecur) (hD : RecurDeps recur) :
    ∀ (entries : List (String × ValueItem)) (pvars : List String) (scope : String)
      (origin parents : List String) (acc : List (String × BindVal)) st x st1,
      inlineVarsLoop recur entries pvars scope origin parents acc st = .ok (x, st1) →
      depsSub st.deps st1.deps := by
  intro entries
  induction entries with
  | nil =>
    intro pvars scope origin parents acc st x st1 h
    simp only [inlineVarsLoop, Except.ok.injEq, Prod.mk.injEq] at h
    rw [← h.2]
    exact depsSub_rfl st.deps
  | cons kv rest ih =>
    intro pvars scope origin parents acc st x st1 h
    obtain ⟨k, cur⟩ := kv
    simp only [inlineVarsLoop] at h
    by_cases hk : pvars.contains k = true
    · simp only [hk, Bool.not_true, Bool.false_eq_true, if_false] at h
      cases cur with
      | vstr s => exact ih pvars scope origin parents (aset acc k (.bstr s)) st x st1 h
      | typed v t vs =>
        by_cases ht : t = "literal"
        · simp only [ht, beq_self_eq_true, if_true] at h
          exact ih pvars scope origin parents (aset acc k (.bstr v)) st x st1 h
        · simp only [beq_eq_false_iff_ne.mpr ht, Bool.false_eq_true, if_false] at h
          cases hf : followRefBasic recur (normalizePath v scope) scope origin parents st with
          | error e => rw [hf] at h; exact absurd h (by simp)
          | ok q =>
            obtain ⟨l, u1⟩ := q
            rw [hf] at h
            have hdu : depsSub st.deps u1.deps :=
              followRefBasic_deps recur hD (normalizePath v scope) scope origin parents
                st l u1 hf
            cases l with
            | str followed =>
              dsimp only at h
              by_cases hm : followed = "[MISSING REFERENCE]"
              · rw [if_pos (by simp [hm])] at h
                simp only [Except.ok.injEq, Prod.mk.injEq] at h
                rw [← h.2]
                exact hdu
              · rw [if_neg (by simp [hm])] at h
                exact depsSub_trans hdu
                  (ih pvars scope origin parents (aset acc k (.bstr followed)) u1 x st1 h)
            | lst followed =>
              dsimp only at h
              exact depsSub_trans hdu
                (ih pvars scope origin parents
                  (aset acc k (.bnums (followed.map jsParseFloat))) u1 x st1 h)
    · have hk2 : pvars.contains k = false := by simpa using hk
      simp only [hk2, Bool.not_false, if_true] at h
      exact ih pvars scope origin parents acc st x st1 h

/-- The dependents map only grows through `#followReference`. -/
theorem followReferenceStep_deps (cap : ParserCap) (recur : EvalRecur)
    (hD : RecurDeps recur) :
    ∀ rv rt rvars scope origin parents st x st1,
      followReferenceStep cap recur rv rt rvars scope origin parents st = .ok (x, st1) →
      depsSub st.deps st1.deps := by
  intro rv rt rvars scope origin parents st x st1 h
  simp only [followReferenceStep] at h
  by_cases hexp : rt = "expression"
  · subst hexp
    simp only [beq_self_eq_true, if_true] at h
    cases hpar : cap.parse rv with
    | error e => rw [hpar] at h; exact absurd h (by simp)
    | ok parsed =>
      rw [hpar] at h
      cases rvars with
      | none => exact absurd h (by simp)
      | some ivars =>
        dsimp only at h
        cases hvl : inlineVarsLoop recur ivars parsed.freeVars scope origin parents [] st with
        | error e => rw [hvl] at h; exact absurd h (by simp)
        | ok q =>
          obtain ⟨xi, s1⟩ := q
          rw [hvl] at h
          have hds1 : depsSub st.deps s1.deps :=
            inlineVarsLoop_deps recur hD ivars parsed.freeVars scope origin parents [] st
              xi s1 hvl
          cases xi with
          | inl input =>
            dsimp only at h
            cases hev : parsed.evalFn input with
            | error e => rw [hev] at h; exact absurd h (by simp)
            | ok evaluated =>
              rw [hev] at h
              simp only [Except.ok.injEq, Prod.mk.injEq] at h
              rw [← h.2]
              exact hds1
          | inr l =>
            dsimp only at h
            simp only [Except.ok.injEq, Prod.mk.injEq] at h
            rw [← h.2]
            exact hds1
  · simp only [beq_eq_false_iff_ne.mpr hexp, Bool.false_eq_true, if_false] at h
    exact followRefBasic_deps recur hD rv scope origin parents st x st1 h

/-- The dependents map only grows through `#evalCondition`. -/
theorem evalConditionStep_deps (cap : ParserCap) (recur : EvalRecur)
    (hD : RecurDeps recur) :
    ∀ cond scope origin parents full st x st1,
      evalConditionStep cap recur cond scope origin parents full st = .ok (x, st1) →
      depsSub st.deps st1.deps := by
  intro cond scope origin parents full st x st1 h
  obtain ⟨cv1, cmp, cv2⟩ := cond
  simp only [evalConditionStep] at h
  split at h
  · exact absurd h (by simp)
  · rename_i val1 s1 heq1
    have h1 : depsSub st.deps s1.deps := by
      cases cv1 with
      | vstr s =>
        simp only [Except.ok.injEq, Prod.mk.injEq] at heq1
        rw [← heq1.2]
        exact depsSub_rfl st.deps
      | typed v t vs =>
        dsimp only at heq1
        by_cases ht : t = "literal"
        · simp only [ht, beq_self_eq_true, if_true, Except.ok.injEq, Prod.mk.injEq] at heq1
          rw [← heq1.2]
          exact depsSub_rfl st.deps
        · simp only [beq_eq_false_iff_ne.mpr ht, Bool.false_eq_true, if_false] at heq1
          exact followReferenceStep_deps cap recur hD v t vs scope origin parents st
            val1 s1 heq1
    split at h
    · exact absurd h (by simp)
    · rename_i val2 s2 heq2
      have h2 : depsSub s1.deps s2.deps := by
        cases cv2 with
        | vstr s =>
          simp only [Except.ok.injEq, Prod.mk.injEq] at heq2
          rw [← heq2.2]
          exact depsSub_rfl s1.deps
        | typed v t vs =>
          dsimp only at heq2
          by_cases ht : t = "literal"
          · simp only [ht, beq_self_eq_true, if_true, Except.ok.injEq, Prod.mk.injEq] at heq2
            rw [← heq2.2]
            exact depsSub_rfl s1.deps
          · simp only [beq_eq_false_iff_ne.mpr ht, Bool.false_eq_true, if_false] at heq2
            exact followReferenceStep_deps cap recur hD v t vs scope origin parents s1
              val2 s2 heq2
      simp only [Except.ok.injEq, Prod.mk.injEq] at h
      rw [← h.2]
      exact depsSub_trans h1 h2

/-- The dependents map only grows through the conditions loop. -/
theorem condsLoop_deps (cap : ParserCap) (recur : EvalRecur) (hD : RecurDeps recur) :
    ∀ (conds : List Condition) scope origin parents st x st1,
      condsLoop cap recur conds scope origin parents st = .ok (x, st1) →
      depsSub st.deps st1.deps := by
  intro conds
  induction conds with
  | nil =>
    intro scope origin parents st x st1 h
    simp only [condsLoop, Except.ok.injEq, Prod.mk.injEq] at h
    rw [← h.2]
    exact depsSub_rfl st.deps
  | cons c rest ih =>
    intro scope origin parents st x st1 h
    simp only [condsLoop] at h
    cases hc : evalConditionStep cap recur c scope origin parents false st with
    | error e => rw [hc] at h; exact absurd h (by simp)
    | ok p =>
      obtain ⟨co, s1⟩ := p
      rw [hc] at h
      dsimp only at h
      have hds1 : depsSub st.deps s1.deps :=
        evalConditionStep_deps cap recur hD c scope origin parents false st co s1 hc
      by_cases ho : co.output = true
      · rw [if_pos ho] at h
        exact depsSub_trans hds1 (ih scope origin parents s1 x st1 h)
      · rw [if_neg ho] at h
        simp only [Except.ok.injEq, Prod.mk.injEq] at h
        rw [← h.2]
        exact hds1

/-- The dependents map only grows through the table row scan. -/
theorem scanRows_deps (cap : ParserCap) (recur : EvalRecur) (hD : RecurDeps recur) :
    ∀ (rows : List TableRow) scope origin parents st x st1,
      scanRows cap recur rows scope origin parents st = .ok (x, st1) →
      depsSub st.deps st1.deps := by
  intro rows
  induction rows with
  | nil =>
    intro scope origin parents st x st1 h
    simp only [scanRows, Except.ok.injEq, Prod.mk.injEq] at h
    rw [← h.2]
    exact depsSub_rfl st.deps
  | cons row rest ih =>
    intro scope origin parents st x st1 h
    obtain ⟨rc, ro⟩ := row
    simp only [scanRows] at h
    cases hc : condsLoop cap recur rc scope origin parents st with
    | error e => rw [hc] at h; exact absurd h (by simp)
    | ok p =>
      obtain ⟨b, s1⟩ := p
      rw [hc] at h
      have h1 : depsSub st.deps s1.deps :=
        condsLoop_deps cap recur hD rc scope origin parents st b s1 hc
      cases b with
      | false =>
        dsimp only at h
        exact depsSub_trans h1 (ih scope origin parents s1 x st1 h)
      | true =>
        dsimp only at h
        cases ro with
        | vstr s =>
          simp only [Except.ok.injEq, Prod.mk.injEq] at h
          rw [← h.2]
          exact h1
        | typed v t vs =>
          dsimp only at h
          by_cases ht : t = "literal"
          · rw [if_pos (by simp [ht])] at h
            simp only [Except.ok.injEq, Prod.mk.injEq] at h
            rw [← h.2]
            exact h1
          · rw [if_neg (by simp [ht])] at h
            cases hf : followReferenceStep cap recur v t vs scope origin parents s1 with
            | error e => rw [hf] at h; exact absurd h (by simp)
            | ok q =>
              obtain ⟨l, s2⟩ := q
              rw [hf] at h
              dsimp only at h
              simp only [Except.ok.injEq, Prod.mk.injEq] at h
              rw [← h.2]
              exact depsSub_trans h1
                (followReferenceStep_deps cap recur hD v t vs scope origin parents s1
                  l s2 hf)

/-- The dependents map only grows through the list loop. -/
theorem listLoop_deps (cap : ParserCap) (recur : EvalRecur) (hD : RecurDeps recur) :
    ∀ (items : List ValueItem) scope origin parents acc st x st1,
      listLoop cap recur items scope origin parents acc st = .ok (x, st1) →
      depsSub st.deps st1.deps := by
  intro items
  induction items with
  | nil =>
    intro scope origin parents acc st x st1 h
    simp only [listLoop, Except.ok.injEq, Prod.mk.injEq] at h
    rw [← h.2]
    exact depsSub_rfl st.deps
  | cons e rest ih =>
    intro scope origin parents acc st x st1 h
    simp only [listLoop] at h
    cases e with
    | vstr s => exact ih scope origin parents (acc ++ [s]) st x st1 h
    | typed v t vs =>
      dsimp only at h
      by_cases ht : t = "literal"
      · rw [if_pos (by simp [ht])] at h
        exact ih scope origin parents (acc ++ [v]) st x st1 h
      · rw [if_neg (by simp [ht])] at h
        cases hf : followReferenceStep cap recur v t vs scope origin parents st with
        | error er => rw [hf] at h; exact absurd h (by simp)
        | ok q =>
          obtain ⟨l, u1⟩ := q
          rw [hf] at h
          have hdu : depsSub st.deps u1.deps :=
            followReferenceStep_deps cap recur hD v t vs scope origin parents st l u1 hf
          cases l with
          | lst current =>
            dsimp only at h
            exact depsSub_trans hdu (ih scope origin parents (acc ++ current) u1 x st1 h)
          | str current =>
            dsimp only at h
            by_cases hm : current = "[MISSING REFERENCE]"
            · rw [if_pos (by simp [hm])] at h
              exact depsSub_trans hdu
                (ih scope origin parents (acc ++ ["[MISSING " ++ v ++ "]"]) u1 x st1 h)
            · rw [if_neg (by simp [hm])] at h
              exact depsSub_trans hdu (ih scope origin parents (acc ++ [current]) u1 x st1 h)

/-- The dependents map only grows through the expression-text
resolution. -/
theorem exprToParse_deps (cap : ParserCap) (recur : EvalRecur) (hD : RecurDeps recur) :
    ∀ (value : VarData) origin parents st x st1,
      exprToParse cap recur value origin parents st = .ok (x, st1) →
      depsSub st.deps st1.deps := by
  intro value origin parents st x st1 h
  simp only [exprToParse] at h
  cases hvv : value.value with
  | one vi =>
    rw [hvv] at h
    cases vi with
    | vstr s =>
      dsimp only at h
      simp only [Except.ok.injEq, Prod.mk.injEq] at h
      rw [← h.2]
      exact depsSub_rfl st.deps
    | typed v t vs =>
      dsimp only at h
      by_cases ht : t = "literal"
      · rw [if_pos (by simp [ht])] at h
        simp only [Except.ok.injEq, Prod.mk.injEq] at h
        rw [← h.2]
        exact depsSub_rfl st.deps
      · rw [if_neg (by simp [ht])] at h
        cases hf : followReferenceStep cap recur v t vs value.scope origin parents st with
        | error er => rw [hf] at h; exact absurd h (by simp)
        | ok q =>
          obtain ⟨l, u1⟩ := q
          rw [hf] at h
          have hdu : depsSub st.deps u1.deps :=
            followReferenceStep_deps cap recur hD v t vs value.scope origin parents st
              l u1 hf
          cases l with
          | lst current =>
            dsimp only at h
            simp only [Except.ok.injEq, Prod.mk.injEq] at h
            rw [← h.2]
            exact hdu
          | str s =>
            dsimp only at h
            simp only [Except.ok.injEq, Prod.mk.injEq] at h
            rw [← h.2]
            exact hdu
  | arr items => rw [hvv] at h; exact absurd h (by simp)
  | rows r => rw [hvv] at h; exact absurd h (by simp)

/-- The dependents map only grows through the functions loop. -/
theorem exprFnsLoop_deps (cap : ParserCap) (recur : EvalRecur) (hD : RecurDeps recur) :
    ∀ (fns : List ValueItem) scope origin parents acc st x st1,
      exprFnsLoop cap recur fns scope origin parents acc st = .ok (x, st1) →
      depsSub st.deps st1.deps := by
  intro fns
  induction fns with
  | nil =>
    intro scope origin parents acc st x st1 h
    simp only [exprFnsLoop, Except.ok.injEq, Prod.mk.injEq] at h
    rw [← h.2]
    exact depsSub_rfl st.deps
  | cons i rest ih =>
    intro scope origin parents acc st x st1 h
    simp only [exprFnsLoop] at h
    cases i with
    | vstr s => exact ih scope origin parents (acc ++ s ++ "; ") st x st1 h
    | typed v t vs =>
      dsimp only at h
      by_cases ht : t = "literal"
      · rw [if_pos (by simp [ht])] at h
        exact ih scope origin parents (acc ++ v ++ "; ") st x st1 h
      · rw [if_neg (by simp [ht])] at h
        cases hf : followReferenceStep cap recur v t vs scope origin parents st with
        | error er => rw [hf] at h; exact absurd h (by simp)
        | ok q =>
          obtain ⟨l, u1⟩ := q
          rw [hf] at h
          have hdu : depsSub st.deps u1.deps :=
            followReferenceStep_deps cap recur hD v t vs scope origin parents st l u1 hf
          cases l with
          | lst func =>
            dsimp only at h
            exact depsSub_trans hdu
              (ih scope origin parents
                (acc ++ String.join (func.map (fun e => e ++ "; "))) u1 x st1 h)
          | str func =>
            dsimp only at h
            by_cases hm : func = "[MISSING REFERENCE]"
            · rw [if_pos (by simp [hm])] at h
              simp only [Except.ok.injEq, Prod.mk.injEq] at h
              rw [← h.2]
              exact hdu
            · rw [if_neg (by simp [hm])] at h
              exact depsSub_trans hdu
                (ih scope origin parents (acc ++ func ++ "; ") u1 x st1 h)

/-- The dependents map only grows through the expression bindings
loop. -/
theorem exprVarsLoop_deps (cap : ParserCap) (recur : EvalRecur) (hD : RecurDeps recur) :
    ∀ (entries : List (String × ValueItem)) pvars scope origin parents acc st x st1,
      exprVarsLoop cap recur entries pvars scope origin parents acc st = .ok (x, st1) →
      depsSub st.deps st1.deps := by
  intro entries
  induction entries with
  | nil =>
    intro pvars scope origin parents acc st x st1 h
    simp only [exprVarsLoop, Except.ok.injEq, Prod.mk.injEq] at h
    rw [← h.2]
    exact depsSub_rfl st.deps
  | cons kv rest ih =>
    intro pvars scope origin parents acc st x st1 h
    obtain ⟨k, cur⟩ := kv
    simp only [exprVarsLoop] at h
    by_cases hk : pvars.contains k = true
    · simp only [hk, Bool.not_true, Bool.false_eq_true, if_false] at h
      cases cur with
      | vstr s => exact ih pvars scope origin parents (aset acc k (.bstr s)) st x st1 h
      | typed v t vs =>
        by_cases ht : t = "literal"
        · simp only [ht, beq_self_eq_true, if_true] at h
          exact ih pvars scope origin parents (aset acc k (.bstr v)) st x st1 h
        · simp only [beq_eq_false_iff_ne.mpr ht, Bool.false_eq_true, if_false] at h
          cases hf : followReferenceStep cap recur v t vs scope origin parents st with
          | error er => rw [hf] at h; exact absurd h (by simp)
          | ok q =>
            obtain ⟨l, u1⟩ := q
            rw [hf] at h
            have hdu : depsSub st.deps u1.deps :=
              followReferenceStep_deps cap recur hD v t vs scope origin parents st l u1 hf
            cases l with
            | str followed =>
              dsimp only at h
              by_cases hm : followed = "[MISSING REFERENCE]"
              · rw [if_pos (by simp [hm])] at h
                simp only [Except.ok.injEq, Prod.mk.injEq] at h
                rw [← h.2]
                exact hdu
              · rw [if_neg (by simp [hm])] at h
                exact depsSub_trans hdu
                  (ih pvars scope origin parents (aset acc k (.bstr followed)) u1 x st1 h)
            | lst followed =>
              dsimp only at h
              exact depsSub_trans hdu
                (ih pvars scope origin parents
                  (aset acc k (.bnums (followed.map jsParseFloat))) u1 x st1 h)
    · have hk2 : pvars.contains k = false := by simpa using hk
      simp only [hk2, Bool.not_false, if_true] at h
      exact ih pvars scope origin parents acc st x st1 h

/-- The dependents map only grows through one unfolding of
`#evaluate`: the entry bookkeeping only adds the parents chain, and
every later step only adds. -/
theorem evaluateStep_deps (cap : ParserCap) (recur : EvalRecur) (hD : RecurDeps recur) :
    ∀ value origin parents st x st1,
      evaluateStep cap recur value origin parents st = .ok (x, st1) →
      depsSub st.deps st1.deps := by
  intro value origin parents st x st1 h
  simp only [evaluateStep] at h
  have hA : depsSub st.deps
      (depsInitAdd st.deps (getPath value.name value.scope) parents) :=
    depsInitAdd_sub st.deps (getPath value.name value.scope) parents
  by_cases hcont : origin.contains (getPath value.name value.scope) = true
  · rw [if_pos hcont] at h
    simp only [Except.ok.injEq, Prod.mk.injEq] at h
    rw [← h.2]
    exact hA
  · rw [if_neg hcont] at h
    by_cases hb : value.varType = "basic"
    · have hbC : (value.varType == "basic") = true := by simp [hb]
      rw [if_pos hbC] at h
      cases hvv : value.value with
      | one vi =>
        rw [hvv] at h
        cases vi with
        | vstr s =>
          dsimp only at h
          simp only [Except.ok.injEq, Prod.mk.injEq] at h
          rw [← h.2]
          exact hA
        | typed v t vs =>
          dsimp only at h
          by_cases hin : (["literal", "reference", "expression"].contains t) = true
          · have hinC : ¬((!(["literal", "reference", "expression"].contains t)) = true) := by
              rw [hin]; decide
            rw [if_neg hinC] at h
            by_cases ht : t = "literal"
            · have hlit : (t == "literal") = true := by simp [ht]
              rw [if_pos hlit] at h
              simp only [Except.ok.injEq, Prod.mk.injEq] at h
              rw [← h.2]
              exact hA
            · have hlit : ¬((t == "literal") = true) := by simp [ht]
              rw [if_neg hlit] at h
              exact depsSub_trans hA
                (followReferenceStep_deps cap recur hD v t vs value.scope
                  (sAdd origin (getPath value.name value.scope))
                  (parents ++ [getPath value.name value.scope])
                  { st with deps := depsInitAdd st.deps (getPath value.name value.scope) parents }
                  x st1 h)
          · have hin2 : (["literal", "reference", "expression"].contains t) = false := by
              rw [Bool.not_eq_true] at hin; exact hin
            have hinC : ((!(["literal", "reference", "expression"].contains t)) = true) := by
              rw [hin2]; decide
            rw [if_pos hinC] at h
            exact absurd h (by simp)
      | arr items => rw [hvv] at h; exact absurd h (by simp)
      | rows r => rw [hvv] at h; exact absurd h (by simp)
    · have hbC : ¬((value.varType == "basic") = true) := by simp [hb]
      rw [if_neg hbC] at h
      by_cases hl : value.varType = "list"
      · have hlC : (value.varType == "list") = true := by simp [hl]
        rw [if_pos hlC] at h
        cases hvv : value.value with
        | one vi => rw [hvv] at h; exact absurd h (by simp)
        | arr items =>
          rw [hvv] at h
          exact depsSub_trans hA
            (listLoop_deps cap recur hD items value.scope
              (sAdd origin (getPath value.name value.scope))
              (parents ++ [getPath value.name value.scope]) []
              { st with deps := depsInitAdd st.deps (getPath value.name value.scope) parents }
              x st1 h)
        | rows r =>
          rw [hvv] at h
          cases r with
          | nil =>
            dsimp only at h
            simp only [Except.ok.injEq, Prod.mk.injEq] at h
            rw [← h.2]
            exact hA
          | cons a as => exact absurd h (by simp)
      · have hlC : ¬((value.varType == "list") = true) := by simp [hl]
        rw [if_neg hlC] at h
        by_cases htb : value.varType = "table"
        · have htbC : (value.varType == "table") = true := by simp [htb]
          rw [if_pos htbC] at h
          cases hp : value.priority with
          | none =>
            rw [hp] at h
            dsimp only at h
            have hpC : ((!false) = true) := by decide
            rw [if_pos hpC] at h
            exact absurd h (by simp)
          | some p =>
            rw [hp] at h
            dsimp only at h
            by_cases hpl : (["first", "last"].contains p) = true
            · have hpC : ¬((!(["first", "last"].contains p)) = true) := by
                rw [hpl]; decide
              rw [if_neg hpC] at h
              cases hd : value.dflt with
              | none =>
                rw [hd] at h
                dsimp only at h
                have hdC : ((!false) = true) := by decide
                rw [if_pos hdC] at h
                exact absurd h (by simp)
              | some dvi =>
                rw [hd] at h
                cases dvi with
                | vstr ds =>
                  dsimp only at h
                  have hdC : ¬((!true) = true) := by decide
                  rw [if_neg hdC] at h
                  cases hvv : value.value with
                  | one vi => rw [hvv] at h; exact absurd h (by simp)
                  | arr items =>
                    rw [hvv] at h
                    cases items with
                    | nil =>
                      dsimp only at h
                      set scanned := if (some p == some "first") = true
                        then ([] : List TableRow) else List.reverse ([] : List TableRow)
                      cases hs : scanRows cap recur scanned value.scope
                          (sAdd origin (getPath value.name value.scope))
                          (parents ++ [getPath value.name value.scope])
                          { st with deps := depsInitAdd st.deps (getPath value.name value.scope) parents } with
                      | error e => rw [hs] at h; exact absurd h (by simp)
                      | ok q =>
                        obtain ⟨xr, u1⟩ := q
                        rw [hs] at h
                        have hdu : depsSub
                            (depsInitAdd st.deps (getPath value.name value.scope) parents)
                            u1.deps :=
                          scanRows_deps cap recur hD scanned value.scope
                            (sAdd origin (getPath value.name value.scope))
                            (parents ++ [getPath value.name value.scope])
                            { st with deps := depsInitAdd st.deps (getPath value.name value.scope) parents }
                            xr u1 hs
                        cases xr with
                        | some l =>
                          dsimp only at h
                          simp only [Except.ok.injEq, Prod.mk.injEq] at h
                          rw [← h.2]
                          exact depsSub_trans hA hdu
                        | none =>
                          dsimp only at h
                          simp only [Except.ok.injEq, Prod.mk.injEq] at h
                          rw [← h.2]
                          exact depsSub_trans hA hdu
                    | cons i is => exact absurd h (by simp)
                  | rows rows =>
                    rw [hvv] at h
                    dsimp only at h
                    set scanned := if (some p == some "first") = true
                      then rows else rows.reverse
                    cases hs : scanRows cap recur scanned value.scope
                        (sAdd origin (getPath value.name value.scope))
                        (parents ++ [getPath value.name value.scope])
                        { st with deps := depsInitAdd st.deps (getPath value.name value.scope) parents } with
                    | error e => rw [hs] at h; exact absurd h (by simp)
                    | ok q =>
                      obtain ⟨xr, u1⟩ := q
                      rw [hs] at h
                      have hdu : depsSub
                          (depsInitAdd st.deps (getPath value.name value.scope) parents)
                          u1.deps :=
                        scanRows_deps cap recur hD scanned value.scope
                          (sAdd origin (getPath value.name value.scope))
                          (parents ++ [getPath value.name value.scope])
                          { st with deps := depsInitAdd st.deps (getPath value.name value.scope) parents }
                          xr u1 hs
                      cases xr with
                      | some l =>
                        dsimp only at h
                        simp only [Except.ok.injEq, Prod.mk.injEq] at h
                        rw [← h.2]
                        exact depsSub_trans hA hdu
                      | none =>
                        dsimp only at h
                        simp only [Except.ok.injEq, Prod.mk.injEq] at h
                        rw [← h.2]
                        exact depsSub_trans hA hdu
                | typed dv dt dvs =>
                  dsimp only at h
                  by_cases hint : (["literal", "reference", "expression"].contains dt) = true
                  · have hdC : ¬((!(["literal", "reference", "expression"].contains dt))
                        = true) := by rw [hint]; decide
                    rw [if_neg hdC] at h
                    cases hvv : value.value with
                    | one vi => rw [hvv] at h; exact absurd h (by simp)
                    | arr items =>
                      rw [hvv] at h
                      cases items with
                      | nil =>
                        dsimp only at h
                        set scanned := if (some p == some "first") = true
                          then ([] : List TableRow) else List.reverse ([] : List TableRow)
                        cases hs : scanRows cap recur scanned value.scope
                            (sAdd origin (getPath value.name value.scope))
                            (parents ++ [getPath value.name value.scope])
                            { st with deps := depsInitAdd st.deps (getPath value.name value.scope) parents } with
                        | error e => rw [hs] at h; exact absurd h (by simp)
                        | ok q =>
                          obtain ⟨xr, u1⟩ := q
                          rw [hs] at h
                          have hdu : depsSub
                              (depsInitAdd st.deps (getPath value.name value.scope) parents)
                              u1.deps :=
                            scanRows_deps cap recur hD scanned value.scope
                              (sAdd origin (getPath value.name value.scope))
                              (parents ++ [getPath value.name value.scope])
                              { st with deps := depsInitAdd st.deps (getPath value.name value.scope) parents }
                              xr u1 hs
                          cases xr with
                          | some l =>
                            dsimp only at h
                            simp only [Except.ok.injEq, Prod.mk.injEq] at h
                            rw [← h.2]
                            exact depsSub_trans hA hdu
                          | none =>
                            dsimp only at h
                            by_cases hdt : dt = "literal"
                            · rw [if_pos (by simp [hdt])] at h
                              simp only [Except.ok.injEq, Prod.mk.injEq] at h
                              rw [← h.2]
                              exact depsSub_trans hA hdu
                            · rw [if_neg (by simp [hdt])] at h
                              exact depsSub_trans hA (depsSub_trans hdu
                                (followReferenceStep_deps cap recur hD dv dt dvs value.scope
                                  (sAdd origin (getPath value.name value.scope))
                                  (parents ++ [getPath value.name value.scope]) u1 x st1 h))
                      | cons i is => exact absurd h (by simp)
                    | rows rows =>
                      rw [hvv] at h
                      dsimp only at h
                      set scanned := if (some p == some "first") = true
                        then rows else rows.reverse
                      cases hs : scanRows cap recur scanned value.scope
                          (sAdd origin (getPath value.name value.scope))
                          (parents ++ [getPath value.name value.scope])
                          { st with deps := depsInitAdd st.deps (getPath value.name value.scope) parents } with
                      | error e => rw [hs] at h; exact absurd h (by simp)
                      | ok q =>
                        obtain ⟨xr, u1⟩ := q
                        rw [hs] at h
                        have hdu : depsSub
                            (depsInitAdd st.deps (getPath value.name value.scope) parents)
                            u1.deps :=
                          scanRows_deps cap recur hD scanned value.scope
                            (sAdd origin (getPath value.name value.scope))
                            (parents ++ [getPath value.name value.scope])
                            { st with deps := depsInitAdd st.deps (getPath value.name value.scope) parents }
                            xr u1 hs
                        cases xr with
                        | some l =>
                          dsimp only at h
                          simp only [Except.ok.injEq, Prod.mk.injEq] at h
                          rw [← h.2]
                          exact depsSub_trans hA hdu
                        | none =>
                          dsimp only at h
                          by_cases hdt : dt = "literal"
                          · rw [if_pos (by simp [hdt])] at h
                            simp only [Except.ok.injEq, Prod.mk.injEq] at h
                            rw [← h.2]
                            exact depsSub_trans hA hdu
                          · rw [if_neg (by simp [hdt])] at h
                            exact depsSub_trans hA (depsSub_trans hdu
                              (followReferenceStep_deps cap recur hD dv dt dvs value.scope
                                (sAdd origin (getPath value.name value.scope))
                                (parents ++ [getPath value.name value.scope]) u1 x st1 h))
                  · have hint2 : (["literal", "reference", "expression"].contains dt)
                        = false := by rw [Bool.not_eq_true] at hint; exact hint
                    have hdC : ((!(["literal", "reference", "expression"].contains dt))
                        = true) := by rw [hint2]; decide
                    rw [if_pos hdC] at h
                    exact absurd h (by simp)
            · have hpl2 : (["first", "last"].contains p) = false := by
                rw [Bool.not_eq_true] at hpl; exact hpl
              have hpC : ((!(["first", "last"].contains p)) = true) := by
                rw [hpl2]; decide
              rw [if_pos hpC] at h
              exact absurd h (by simp)
        · have htbC : ¬((value.varType == "table") = true) := by simp [htb]
          rw [if_neg htbC] at h
          by_cases hex : value.varType = "expression"
          · have hexC : (value.varType == "expression") = true := by simp [hex]
            rw [if_pos hexC] at h
            cases hvars : value.vars with
            | none => rw [hvars] at h; exact absurd h (by simp)
            | some exprVars =>
              rw [hvars] at h
              dsimp only at h
              cases hep : exprToParse cap recur value
                  (sAdd origin (getPath value.name value.scope))
                  (parents ++ [getPath value.name value.scope])
                  { st with deps := depsInitAdd st.deps (getPath value.name value.scope) parents } with
              | error e => rw [hep] at h; exact absurd h (by simp)
              | ok q =>
                obtain ⟨xp, u1⟩ := q
                rw [hep] at h
                have hdu : depsSub
                    (depsInitAdd st.deps (getPath value.name value.scope) parents)
                    u1.deps :=
                  exprToParse_deps cap recur hD value
                    (sAdd origin (getPath value.name value.scope))
                    (parents ++ [getPath value.name value.scope])
                    { st with deps := depsInitAdd st.deps (getPath value.name value.scope) parents }
                    xp u1 hep
                cases xp with
                | inr l =>
                  dsimp only at h
                  simp only [Except.ok.injEq, Prod.mk.injEq] at h
                  rw [← h.2]
                  exact depsSub_trans hA hdu
                | inl toParse0 =>
                  dsimp only at h
                  cases hfns : value.functions with
                  | none =>
                    rw [hfns] at h
                    dsimp only at h
                    cases hpar : cap.parse ("" ++ toParse0) with
                    | error e => rw [hpar] at h; exact absurd h (by simp)
                    | ok parsed =>
                      rw [hpar] at h
                      dsimp only at h
                      cases hvl : exprVarsLoop cap recur exprVars parsed.freeVars
                          value.scope (sAdd origin (getPath value.name value.scope))
                          (parents ++ [getPath value.name value.scope]) [] u1 with
                      | error e => rw [hvl] at h; exact absurd h (by simp)
                      | ok q2 =>
                        obtain ⟨xv, w1⟩ := q2
                        rw [hvl] at h
                        have hdw : depsSub u1.deps w1.deps :=
                          exprVarsLoop_deps cap recur hD exprVars parsed.freeVars
                            value.scope (sAdd origin (getPath value.name value.scope))
                            (parents ++ [getPath value.name value.scope]) [] u1 xv w1 hvl
                        cases xv with
                        | inr l =>
                          dsimp only at h
                          simp only [Except.ok.injEq, Prod.mk.injEq] at h
                          rw [← h.2]
                          exact depsSub_trans hA (depsSub_trans hdu hdw)
                        | inl input =>
                          dsimp only at h
                          cases hev : parsed.evalFn input with
                          | error e => rw [hev] at h; exact absurd h (by simp)
                          | ok evaluated =>
                            rw [hev] at h
                            simp only [Except.ok.injEq, Prod.mk.injEq] at h
                            rw [← h.2]
                            exact depsSub_trans hA (depsSub_trans hdu hdw)
                  | some fns =>
                    rw [hfns] at h
                    dsimp only at h
                    cases hfl : exprFnsLoop cap recur fns value.scope
                        (sAdd origin (getPath value.name value.scope))
                        (parents ++ [getPath value.name value.scope]) "" u1 with
                    | error e => rw [hfl] at h; exact absurd h (by simp)
                    | ok q2 =>
                      obtain ⟨xf, w1⟩ := q2
                      rw [hfl] at h
                      have hdw : depsSub u1.deps w1.deps :=
                        exprFnsLoop_deps cap recur hD fns value.scope
                          (sAdd origin (getPath value.name value.scope))
                          (parents ++ [getPath value.name value.scope]) "" u1 xf w1 hfl
                      cases xf with
                      | inr l =>
                        dsimp only at h
                        simp only [Except.ok.injEq, Prod.mk.injEq] at h
                        rw [← h.2]
                        exact depsSub_trans hA (depsSub_trans hdu hdw)
                      | inl functions =>
                        dsimp only at h
                        cases hpar : cap.parse (functions ++ toParse0) with
                        | error e => rw [hpar] at h; exact absurd h (by simp)
                        | ok parsed =>
                          rw [hpar] at h
                          dsimp only at h
                          cases hvl : exprVarsLoop cap recur exprVars parsed.freeVars
                              value.scope (sAdd origin (getPath value.name value.scope))
                              (parents ++ [getPath value.name value.scope]) [] w1 with
                          | error e => rw [hvl] at h; exact absurd h (by simp)
                          | ok q3 =>
                            obtain ⟨xv, y1⟩ := q3
                            rw [hvl] at h
                            have hdy : depsSub w1.deps y1.deps :=
                              exprVarsLoop_deps cap recur hD exprVars parsed.freeVars
                                value.scope (sAdd origin (getPath value.name value.scope))
                                (parents ++ [getPath value.name value.scope]) [] w1 xv y1 hvl
                            cases xv with
                            | inr l =>
                              dsimp only at h
                              simp only [Except.ok.injEq, Prod.mk.injEq] at h
                              rw [← h.2]
                              exact depsSub_trans hA
                                (depsSub_trans hdu (depsSub_trans hdw hdy))
                            | inl input =>
                              dsimp only at h
                              cases hev : parsed.evalFn input with
                              | error e => rw [hev] at h; exact absurd h (by simp)
                              | ok evaluated =>
                                rw [hev] at h
                                simp only [Except.ok.injEq, Prod.mk.injEq] at h
                                rw [← h.2]
                                exact depsSub_trans hA
                                  (depsSub_trans hdu (depsSub_trans hdw hdy))
          · have hexC : ¬((value.varType == "expression") = true) := by simp [hex]
            rw [if_neg hexC] at h
            simp only [Except.ok.injEq, Prod.mk.injEq] at h
            rw [← h.2]
            exact hA

/-- `#evaluate` never removes a recorded dependent edge, at any
fuel. -/
theorem evaluate_deps (cap : ParserCap) : ∀ fuel, RecurDeps (evaluate cap fuel) := by
  intro fuel
  induction fuel with
  | zero =>
    intro v origin parents st l st1 h
    exact absurd h (by simp [evaluate])
  | succ n ih =>
    intro v origin parents st l st1 h
    exact evaluateStep_deps cap (evaluate cap n) ih v origin parents st l st1 h

/-- The dependents map only grows through the inner conditions loop of
`#evaluateFull`. -/
theorem evalFullCondsLoop_deps (cap : ParserCap) (recur : EvalRecur)
    (hD : RecurDeps recur) :
    ∀ (conds : List Condition) scope origin parents accConds out st x st1,
      evalFullCondsLoop cap recur conds scope origin parents accConds out st
        = .ok (x, st1) →
      depsSub st.deps st1.deps := by
  intro conds
  induction conds with
  | nil =>
    intro scope origin parents accConds out st x st1 h
    simp only [evalFullCondsLoop, Except.ok.injEq, Prod.mk.injEq] at h
    rw [← h.2]
    exact depsSub_rfl st.deps
  | cons e rest ih =>
    intro scope origin parents accConds out st x st1 h
    simp only [evalFullCondsLoop] at h
    cases hc : evalConditionStep cap recur e scope origin parents true st with
    | error err => rw [hc] at h; exact absurd h (by simp)
    | ok p =>
      obtain ⟨cond, s1⟩ := p
      rw [hc] at h
      dsimp only at h
      exact depsSub_trans
        (evalConditionStep_deps cap recur hD e scope origin parents true st cond s1 hc)
        (ih scope origin parents _ _ s1 x st1 h)

/-- The dependents map only grows through the row loop of
`#evaluateFull`. -/
theorem evalFullRowsLoop_deps (cap : ParserCap) (recur : EvalRecur)
    (hD : RecurDeps recur) :
    ∀ (rows : List TableRow) (i : Nat) (priority scope : String)
      (origin parents : List String) (accRows : List TableRowData) (found : Bool)
      (outLit : Lit) (outPath : String) (outIndex : Int) st x st1,
      evalFullRowsLoop cap recur rows i priority scope origin parents accRows found
        outLit outPath outIndex st = .ok (x, st1) →
      depsSub st.deps st1.deps := by
  intro rows
  induction rows with
  | nil =>
    intro i priority scope origin parents accRows found outLit outPath outIndex st x st1 h
    simp only [evalFullRowsLoop, Except.ok.injEq, Prod.mk.injEq] at h
    rw [← h.2]
    exact depsSub_rfl st.deps
  | cons row rest ih =>
    intro i priority scope origin parents accRows found outLit outPath outIndex st x st1 h
    simp only [evalFullRowsLoop] at h
    cases hc : evalFullCondsLoop cap recur row.conditions scope origin parents [] true st with
    | error e => rw [hc] at h; exact absurd h (by simp)
    | ok p =>
      obtain ⟨co, s1⟩ := p
      obtain ⟨conds, out⟩ := co
      rw [hc] at h
      dsimp only at h
      have h1 : depsSub st.deps s1.deps :=
        evalFullCondsLoop_deps cap recur hD row.conditions scope origin parents [] true st
          (conds, out) s1 hc
      split at h
      · exact absurd h (by simp)
      · rename_i rowOut rowOutPath s2 heq2
        have h2 : depsSub s1.deps s2.deps := by
          cases hro : row.output with
          | vstr s =>
            rw [hro] at heq2
            dsimp only at heq2
            simp only [Except.ok.injEq, Prod.mk.injEq] at heq2
            rw [← heq2.2]
            exact depsSub_rfl s1.deps
          | typed v t vs =>
            rw [hro] at heq2
            dsimp only at heq2
            by_cases ht : t = "literal"
            · rw [if_pos (by simp [ht])] at heq2
              simp only [Except.ok.injEq, Prod.mk.injEq] at heq2
              rw [← heq2.2]
              exact depsSub_rfl s1.deps
            · rw [if_neg (by simp [ht])] at heq2
              cases hf : followReferenceStep cap recur v t vs scope origin parents s1 with
              | error e => rw [hf] at heq2; exact absurd heq2 (by simp)
              | ok q =>
                obtain ⟨l, u1⟩ := q
                rw [hf] at heq2
                dsimp only at heq2
                simp only [Except.ok.injEq, Prod.mk.injEq] at heq2
                rw [← heq2.2]
                exact followReferenceStep_deps cap recur hD v t vs scope origin parents
                  s1 l u1 hf
        by_cases hsel : (out && (!found || priority == "last")) = true
        · rw [if_pos hsel] at h
          exact depsSub_trans h1 (depsSub_trans h2
            (ih _ _ _ _ _ _ _ _ _ _ s2 x st1 h))
        · rw [if_neg hsel] at h
          exact depsSub_trans h1 (depsSub_trans h2
            (ih _ _ _ _ _ _ _ _ _ _ s2 x st1 h))

/-- The dependents map only grows through `#evaluateFull`. -/
theorem evaluateFullStep_deps (cap : ParserCap) (recur : EvalRecur)
    (hD : RecurDeps recur) :
    ∀ (table : VarData) (st : St) (x : TableData) (st1 : St),
      evaluateFullStep cap recur table st = .ok (x, st1) →
      depsSub st.deps st1.deps := by
  intro table st x st1 h
  simp only [evaluateFullStep] at h
  split at h
  · exact absurd h (by simp)
  · rename_i rows heqrows
    cases hrl : evalFullRowsLoop cap recur rows 0 (table.priority.getD "") table.scope
        (sAdd [] (getPath table.name table.scope)) [getPath table.name table.scope]
        [] false (.str "") "" (-1) st with
    | error e => rw [hrl] at h; exact absurd h (by simp)
    | ok p =>
      obtain ⟨q5, s1⟩ := p
      obtain ⟨rowDatas, found, outLit, outPath0, outIndex⟩ := q5
      rw [hrl] at h
      dsimp only at h
      have h1 : depsSub st.deps s1.deps :=
        evalFullRowsLoop_deps cap recur hD rows 0 (table.priority.getD "") table.scope
          (sAdd [] (getPath table.name table.scope)) [getPath table.name table.scope]
          [] false (.str "") "" (-1) st (rowDatas, found, outLit, outPath0, outIndex)
          s1 hrl
      split at h
      · exact absurd h (by simp)
      · rename_i defaultVal defaultPath s2 heqd
        have h2 : depsSub s1.deps s2.deps := by
          cases htd : table.dflt with
          | none =>
            rw [htd] at heqd
            dsimp only at heqd
            exact absurd heqd (by simp)
          | some dvi =>
            rw [htd] at heqd
            cases dvi with
            | vstr s =>
              dsimp only at heqd
              simp only [Except.ok.injEq, Prod.mk.injEq] at heqd
              rw [← heqd.2]
              exact depsSub_rfl s1.deps
            | typed dv dt dvs =>
              dsimp only at heqd
              by_cases hdt : dt = "literal"
              · rw [if_pos (by simp [hdt])] at heqd
                simp only [Except.ok.injEq, Prod.mk.injEq] at heqd
                rw [← heqd.2]
                exact depsSub_rfl s1.deps
              · rw [if_neg (by simp [hdt])] at heqd
                cases hf : followReferenceStep cap recur dv dt dvs table.scope
                    (sAdd [] (getPath table.name table.scope))
                    [getPath table.name table.scope] s1 with
                | error e => rw [hf] at heqd; exact absurd heqd (by simp)
                | ok q =>
                  obtain ⟨l, u1⟩ := q
                  rw [hf] at heqd
                  dsimp only at heqd
                  simp only [Except.ok.injEq, Prod.mk.injEq] at heqd
                  rw [← heqd.2]
                  exact followReferenceStep_deps cap recur hD dv dt dvs table.scope
                    (sAdd [] (getPath table.name table.scope))
                    [getPath table.name table.scope] s1 l u1 hf
        simp only [Except.ok.injEq, Prod.mk.injEq] at h
        rw [← h.2]
        exact depsSub_trans h1 h2

/-- A successful `getVar` never removes a recorded dependent edge. -/
theorem getVar_deps (cap : ParserCap) (fuel : Nat) :
    ∀ (path : String) (full : Bool) (st : St) (cv : CacheVal) (st1 : St),
      getVar cap fuel path full st = .ok (cv, st1) →
      depsSub st.deps st1.deps := by
  intro path full st cv st1 h
  simp only [getVar] at h
  cases hget : getRawVar st.vars path with
  | error e => rw [hget] at h; exact absurd h (by simp)
  | ok varbl =>
    rw [hget] at h
    dsimp only at h
    by_cases hft : (full && varbl.varType == "table") = true
    · rw [if_pos hft] at h
      by_cases hcache : (!((alookup st.changed (path ++ "-full")).getD false)
          && cacheTruthy (alookup st.cache (path ++ "-full"))) = true
      · rw [if_pos hcache] at h
        simp only [Except.ok.injEq, Prod.mk.injEq] at h
        rw [← h.2]
        exact depsSub_rfl st.deps
      · rw [if_neg hcache] at h
        cases he : evaluateFullStep cap (evaluate cap fuel) varbl st with
        | error e => rw [he] at h; exact absurd h (by simp)
        | ok p =>
          obtain ⟨value, stE⟩ := p
          rw [he] at h
          dsimp only at h
          simp only [Except.ok.injEq, Prod.mk.injEq] at h
          rw [← h.2]
          exact evaluateFullStep_deps cap (evaluate cap fuel) (evaluate_deps cap fuel)
            varbl st value stE he
    · rw [if_neg hft] at h
      by_cases hcache : (!((alookup st.changed path).getD false)
          && cacheTruthy (alookup st.cache path)) = true
      · rw [if_pos hcache] at h
        simp only [Except.ok.injEq, Prod.mk.injEq] at h
        rw [← h.2]
        exact depsSub_rfl st.deps
      · rw [if_neg hcache] at h
        cases he : evaluate cap fuel varbl [] [] st with
        | error e => rw [he] at h; exact absurd h (by simp)
        | ok p =>
          obtain ⟨value, stE⟩ := p
          rw [he] at h
          dsimp only at h
          simp only [Except.ok.injEq, Prod.mk.injEq] at h
          rw [← h.2]
          exact evaluate_deps cap fuel varbl [] [] st value stE he

/-- `#addScope` never touches the dependents map. -/
theorem addScope_deps (scope : String) (ow : Bool) (st : St) :
    (addScope scope ow st).2.deps = st.deps := by
  simp only [addScope]
  split
  · rfl
  · split <;> rfl
  · split <;> rfl

/-- A successful `setVar` leaves the dependents map unchanged: it only
rewrites the store and runs the stale-marking cascade. -/
theorem setVar_depsEq (fuel : Nat) :
    ∀ (value : VarData) (fo : Bool) (st : St) (b : Bool) (st1 : St),
      setVar fuel value fo st = .ok (b, st1) → st1.deps = st.deps := by
  intro value fo st b st1 h
  simp only [setVar] at h
  by_cases hpn : patternTest value.name = true
  · rw [if_neg (by simp [hpn])] at h
    by_cases hps : patternTest value.scope = true
    · rw [if_neg (by simp [hps])] at h
      by_cases hg : (value.scope == "global") = true
      · rw [if_pos hg] at h
        cases hal : alookup st.vars value.name with
        | none =>
          rw [hal] at h
          dsimp only at h
          cases hsc : setChangedF fuel (getPath value.name value.scope)
              { st with vars := aset st.vars value.name (.var value) } with
          | error e => rw [hsc] at h; exact absurd h (by simp [Except.map])
          | ok st2 =>
            rw [hsc] at h
            simp only [Except.map, Except.ok.injEq, Prod.mk.injEq] at h
            rw [← h.2]
            exact (setChangedF_marks fuel _ _ st2 hsc).1
        | some n =>
          cases n with
          | var w =>
            rw [hal] at h
            dsimp only at h
            cases hsc : setChangedF fuel (getPath value.name value.scope)
                { st with vars := aset st.vars value.name (.var value) } with
            | error e => rw [hsc] at h; exact absurd h (by simp [Except.map])
            | ok st2 =>
              rw [hsc] at h
              simp only [Except.map, Except.ok.injEq, Prod.mk.injEq] at h
              rw [← h.2]
              exact (setChangedF_marks fuel _ _ st2 hsc).1
          | scope m =>
            rw [hal] at h
            dsimp only at h
            by_cases hfo : fo = true
            · rw [if_pos hfo] at h
              cases hsc : setChangedF fuel (getPath value.name value.scope)
                  { st with vars := aset st.vars value.name (.var value) } with
              | error e => rw [hsc] at h; exact absurd h (by simp [Except.map])
              | ok st2 =>
                rw [hsc] at h
                simp only [Except.map, Except.ok.injEq, Prod.mk.injEq] at h
                rw [← h.2]
                exact (setChangedF_marks fuel _ _ st2 hsc).1
            · rw [if_neg hfo] at h
              simp only [Except.ok.injEq, Prod.mk.injEq] at h
              rw [← h.2]
      · rw [if_neg hg] at h
        cases ha : addScope value.scope fo st with
        | mk ab ast =>
          have hast : ast.deps = st.deps := by
            have hds := addScope_deps value.scope fo st
            rw [ha] at hds
            exact hds
          rw [ha] at h
          cases ab with
          | false =>
            dsimp only at h
            simp only [Except.ok.injEq, Prod.mk.injEq] at h
            rw [← h.2]
            exact hast
          | true =>
            dsimp only at h
            cases hv : alookup ast.vars value.scope with
            | none =>
              rw [hv] at h
              dsimp only at h
              simp only [Except.ok.injEq, Prod.mk.injEq] at h
              rw [← h.2]
              exact hast
            | some n =>
              cases n with
              | var w =>
                rw [hv] at h
                dsimp only at h
                simp only [Except.ok.injEq, Prod.mk.injEq] at h
                rw [← h.2]
                exact hast
              | scope m =>
                rw [hv] at h
                dsimp only at h
                cases hm : alookup m value.name with
                | none =>
                  rw [hm] at h
                  dsimp only at h
                  cases hsc : setChangedF fuel (getPath value.name value.scope)
                      { ast with vars := aset ast.vars value.scope (.scope (aset m value.name value)) } with
                  | error e => rw [hsc] at h; exact absurd h (by simp [Except.map])
                  | ok st3 =>
                    rw [hsc] at h
                    simp only [Except.map, Except.ok.injEq, Prod.mk.injEq] at h
                    rw [← h.2]
                    exact ((setChangedF_marks fuel _ _ st3 hsc).1).trans hast
                | some w =>
                  rw [hm] at h
                  dsimp only at h
                  simp only [Except.ok.injEq, Prod.mk.injEq] at h
                  rw [← h.2]
                  exact hast
    · have hps2 : patternTest value.scope = false := by simpa using hps
      rw [if_pos (by simp [hps2])] at h
      exact absurd h (by simp)
  · have hpn2 : patternTest value.name = false := by simpa using hpn
    rw [if_pos (by simp [hpn2])] at h
    exact absurd h (by simp)

/-- Claim C6 (amended): (1) one entry of `#evaluate` for a variable at
path `tp` records under `tp` exactly the previously recorded
dependents together with the current `parents` chain — the paths whose
in-progress evaluations are dereferencing it — and changes no other
entry; (2) a successful `getVar` never removes a recorded dependent
edge; (3) a successful `setVar` leaves the dependents map unchanged;
(4) every completed `#setChanged` cascade marks the written path and,
transitively, every path reachable from it along recorded dependent
edges. -/
theorem C6_deps_accumulate_and_marking (cap : ParserCap) :
    (∀ (deps : List (String × List String)) (tp : String) (parents : List String)
       (d q : String),
      q ∈ (alookup (depsInitAdd deps tp parents) d).getD [] ↔
        q ∈ (alookup deps d).getD [] ∨ (d = tp ∧ q ∈ parents)) ∧
    (∀ (fuel : Nat) (path : String) (full : Bool) (st : St) (cv : CacheVal) (st1 : St),
      getVar cap fuel path full st = .ok (cv, st1) →
      ∀ (d q : String),
        q ∈ (alookup st.deps d).getD [] → q ∈ (alookup st1.deps d).getD []) ∧
    (∀ (fuel : Nat) (value : VarData) (fo : Bool) (st : St) (b : Bool) (st1 : St),
      setVar fuel value fo st = .ok (b, st1) → st1.deps = st.deps) ∧
    (∀ (fuel : Nat) (q : String) (st st2 : St), setChangedF fuel q st = .ok st2 →
      alookup st2.changed q = some true ∧
      ∀ r, ReachDeps st.deps q r → alookup st2.changed r = some true) := by
  refine ⟨fun deps tp parents d q => depsInitAdd_mem deps tp parents d q,
    fun fuel path full st cv st1 h => getVar_deps cap fuel path full st cv st1 h,
    fun fuel value fo st b st1 h => setVar_depsEq fuel value fo st b st1 h,
    fun fuel q st st2 h => ?_⟩
  obtain ⟨_, _, hr⟩ := setChangedF_marks fuel q st st2 h
  exact ⟨hr q (ReachDeps.refl q), hr⟩

/-- Concrete instantiation of `C6_deps_accumulate_and_marking`: a fresh
`depsInitAdd` records exactly the parent; the stale edge `d -> p`
survives the re-evaluation of `p`; overwriting `p` leaves the
dependents map unchanged; and marking `d` stale also marks its
recorded dependent `p`. -/
theorem C6_deps_accumulate_and_marking_witness :
    ("p" ∈ (alookup (depsInitAdd [] "d" ["p"]) "d").getD []) ∧
    ("p" ∈ (alookup (stOfGet c6final).deps "d").getD []) ∧
    c6overwritten.deps = c6evalSt.deps ∧
    alookup (stOfChanged c6marked).changed "d" = some true ∧
    alookup (stOfChanged c6marked).changed "p" = some true := by
  have h := C6_deps_accumulate_and_marking dummyCap
  refine ⟨(h.1 [] "d" ["p"] "d" "p").mpr (Or.inr ⟨rfl, by decide⟩), ?_, ?_, ?_, ?_⟩
  · exact h.2.1 10 "p" false c6overwritten (.lit (.str "L")) (stOfGet c6final) rfl
      "d" "p" (by decide)
  · exact h.2.2.1 10 vLitP true c6evalSt true c6overwritten rfl
  · exact (h.2.2.2 5 "d" c6evalSt (stOfChanged c6marked) rfl).1
  · exact (h.2.2.2 5 "d" c6evalSt (stOfChanged c6marked) rfl).2 "p"
      (ReachDeps.step (ReachDeps.refl "d") (by decide))

/-- `contains` distributes over append. -/
theorem contains_append (l1 l2 : List String) (x : String) :
    (l1 ++ l2).contains x = (l1.contains x || l2.contains x) := by
  induction l1 with
  | nil => simp
  | cons a l2 ih => by_cases hax : x = a <;> simp [hax, ih, List.contains_cons, Bool.or_assoc]

/-- Filtering with a stronger predicate yields a shorter list. -/
theorem filter_length_mono {q r : String → Bool} (l : List String)
    (h : ∀ x, q x = true → r x = true) :
    (l.filter q).length ≤ (l.filter r).length := by
  induction l with
  | nil => simp
  | cons a l2 ih =>
    by_cases hq : q a = true
    · simp only [List.filter_cons, hq, h a hq, if_true, List.length_cons]
      omega
    · have hq2 : q a = false := by simpa using hq
      by_cases hr : r a = true
      · simp only [List.filter_cons, hq2, hr, if_true, Bool.false_eq_true, if_false,
          List.length_cons]
        exact Nat.le_succ_of_le ih
      · have hr2 : r a = false := by simpa using hr
        simpa [List.filter_cons, hq2, hr2] using ih

/-- Filtering with a strictly stronger predicate (witnessed at a member
where they differ) yields a strictly shorter list. -/
theorem filter_length_lt {q r : String → Bool} (l : List String) (p : String)
    (himp : ∀ x, q x = true → r x = true)
    (hp : p ∈ l) (hqp : q p = false) (hrp : r p = true) :
    (l.filter q).length < (l.filter r).length := by
  induction l with
  | nil => exact absurd hp (List.not_mem_nil p)
  | cons a l2 ih =>
    rcases List.mem_cons.mp hp with rfl | hpl2
    · simp only [List.filter_cons, hqp, hrp, if_true, Bool.false_eq_true, if_false,
        List.length_cons]
      exact Nat.lt_succ_of_le (filter_length_mono l2 himp)
    · by_cases hqa : q a = true
      · simp only [List.filter_cons, hqa, himp a hqa, if_true, List.length_cons]
        exact Nat.succ_lt_succ (ih hpl2)
      · have hqa2 : q a = false := by simpa using hqa
        by_cases hra : r a = true
        · simp only [List.filter_cons, hqa2, hra, if_true, Bool.false_eq_true, if_false,
            List.length_cons]
          exact Nat.lt_succ_of_lt (ih hpl2)
        · have hra2 : r a = false := by simpa using hra
          simpa [List.filter_cons, hqa2, hra2] using ih hpl2

/-- Visiting a fresh member of `S` strictly decreases the count of
unvisited members. -/
theorem countMissing_lt (S origin : List String) (p : String) (hp : p ∈ S)
    (hnot : origin.contains p = false) :
    countMissing S (sAdd origin p) < countMissing S origin := by
  have hpo : p ∉ origin := by simpa using hnot
  have hadd : sAdd origin p = origin ++ [p] := by simp [sAdd, hpo]
  rw [hadd]
  unfold countMissing
  apply filter_length_lt S p ?_ hp ?_ ?_
  · intro x hx
    simp only [Bool.not_eq_true'] at hx ⊢
    rw [contains_append] at hx
    exact (Bool.or_eq_false_iff.mp hx).1
  · simp [contains_append, List.contains_cons]
  · simpa using hpo

/-- One `#evaluate` step on a basic reference variable whose path is
not yet visited reduces to `#followReference`. -/
theorem evaluateStep_basic_ref (cap : ParserCap) (recur : EvalRecur) (v : VarData)
    (rv : String) (vs : Option (List (String × ValueItem)))
    (origin parents : List String) (st : St)
    (hvt : v.varType = "basic") (hval : v.value = .one (.typed rv "reference" vs))
    (hmem : origin.contains (getPath v.name v.scope) = false) :
    evaluateStep cap recur v origin parents st
      = followReferenceStep cap recur rv "reference" vs v.scope
          (sAdd origin (getPath v.name v.scope)) (parents ++ [getPath v.name v.scope])
          { st with deps := depsInitAdd st.deps (getPath v.name v.scope) parents } := by
  have hmem2 : getPath v.name v.scope ∉ origin := by simpa using hmem
  simp [evaluateStep, hvt, hval, hmem, hmem2]

/-- `#followReference` on a reference-typed value is the basic
reference path. -/
theorem followReferenceStep_ref (cap : ParserCap) (recur : EvalRecur) (rv : String)
    (vs : Option (List (String × ValueItem))) (scope : String)
    (origin parents : List String) (st : St) :
    followReferenceStep cap recur rv "reference" vs scope origin parents st
      = followRefBasic recur rv scope origin parents st := by
  simp [followReferenceStep]

/-- A resolved `#followReference` whose recursive evaluation returns a
value: the value is passed through and cached under the once-normalized
path. -/
theorem followRefBasic_found (recur : EvalRecur) (rv scope : String)
    (origin parents : List String) (st st2 : St) (v2 : VarData) (value : Lit)
    (h : jsGet st.vars (refTarget scope rv) = .var v2)
    (hrec : recur v2 origin parents { st with trace := st.trace ++ [normalizePath rv scope] }
      = .ok (value, st2)) :
    followRefBasic recur rv scope origin parents st
      = .ok (value, { st2 with cache := aset st2.cache (normalizePath rv scope) (.lit value),
                               changed := aset st2.changed (normalizePath rv scope) false }) := by
  simp only [followRefBasic, getRawVar]
  rw [show (normalizePath (normalizePath rv scope) : String) = refTarget scope rv from rfl, h]
  dsimp only
  rw [hrec]

/-- One `#evaluate` step on an already-visited path returns the
circular-dependency sentinel. -/
theorem evaluateStep_circular (cap : ParserCap) (recur : EvalRecur) (v : VarData)
    (origin parents : List String) (st : St)
    (hmem : origin.contains (getPath v.name v.scope) = true) :
    evaluateStep cap recur v origin parents st
      = .ok (.str "[CIRCULAR DEPENDENCY]",
          { st with deps := depsInitAdd st.deps (getPath v.name v.scope) parents,
                    circHit := true }) := by
  have hmem2 : getPath v.name v.scope ∈ origin := by simpa using hmem
  simp [evaluateStep, hmem, hmem2]

/-- Evaluating any member of a closed reference set returns the
circular-dependency sentinel (and does not raise), with enough fuel to
walk the unvisited members. -/
theorem evaluate_closed_sentinel (cap : ParserCap) (S : List String) :
    ∀ (fuel : Nat) (origin parents : List String) (v : VarData) (st : St),
      closedRefSet st.vars S →
      getPath v.name v.scope ∈ S →
      jsGet st.vars (getPath v.name v.scope) = .var v →
      countMissing S origin + 1 ≤ fuel →
      ∃ st2 : St, evaluate cap fuel v origin parents st
          = .ok (.str "[CIRCULAR DEPENDENCY]", st2) ∧ st2.vars = st.vars := by
  intro fuel
  induction fuel using Nat.strong_induction_on with
  | _ fuel ih =>
    intro origin parents v st hclosed hpS hlook hfuel
    match fuel, hfuel with
    | fuel + 1, hfuel =>
      by_cases hmem : origin.contains (getPath v.name v.scope) = true
      · refine ⟨{ st with deps := depsInitAdd st.deps (getPath v.name v.scope) parents,
                          circHit := true }, ?_, rfl⟩
        show evaluateStep cap (evaluate cap fuel) v origin parents st = _
        exact evaluateStep_circular cap _ v origin parents st hmem
      · have hmem2 : origin.contains (getPath v.name v.scope) = false := by
          simpa using hmem
        obtain ⟨rv, vs, v1, hjs, hvt, hval, hgp, htgt⟩ := hclosed _ hpS
        have hv1 : v1 = v := by
          rw [hlook] at hjs
          injection hjs with hv
          exact hv.symm
        rw [hv1] at hvt hval htgt
        -- the variable stored at the target key
        obtain ⟨rv2, vs2, v2, hjs2, _, _, hgp2, _⟩ := hclosed _ htgt
        -- recursive evaluation of the target returns the sentinel
        have hcnt : countMissing S (sAdd origin (getPath v.name v.scope)) + 1 ≤ fuel := by
          have := countMissing_lt S origin (getPath v.name v.scope) hpS hmem2
          omega
        obtain ⟨st2, hev, hvars⟩ := ih fuel (Nat.lt_succ_self fuel)
          (sAdd origin (getPath v.name v.scope))
          (parents ++ [getPath v.name v.scope]) v2
          { ({ st with deps := depsInitAdd st.deps (getPath v.name v.scope) parents } : St) with
              trace := ({ st with deps := depsInitAdd st.deps (getPath v.name v.scope) parents } : St).trace
                ++ [normalizePath rv v.scope] }
          hclosed (hgp2 ▸ htgt) (by rw [hgp2]; exact hjs2) hcnt
        refine ⟨{ st2 with
            cache := aset st2.cache (normalizePath rv v.scope) (.lit (.str "[CIRCULAR DEPENDENCY]")),
            changed := aset st2.changed (normalizePath rv v.scope) false }, ?_, hvars⟩
        show evaluateStep cap (evaluate cap fuel) v origin parents st = _
        rw [evaluateStep_basic_ref cap _ v rv vs origin parents st hvt hval hmem2,
          followReferenceStep_ref]
        exact followRefBasic_found (evaluate cap fuel) rv v.scope
          (sAdd origin (getPath v.name v.scope)) (parents ++ [getPath v.name v.scope])
          { st with deps := depsInitAdd st.deps (getPath v.name v.scope) parents }
          st2 v2 _ hjs2 hev

/-- Claim C5: for every stored cycle of basic references (any length,
including cycles crossing scopes via `../` or `scope.name` references),
`getVar` at each node of the cycle — each member of the closed node set
— returns the string `"[CIRCULAR DEPENDENCY]"` and does not raise. -/
theorem C5_cycle_sentinel (cap : ParserCap) (S : List String) (path : String)
    (fuel : Nat) (st : St)
    (hclosed : closedRefSet st.vars S)
    (hmem : path ∈ S)
    (hnorm : normalizePath path = path)
    (hcache : (!((alookup st.changed path).getD false)
      && cacheTruthy (alookup st.cache path)) = false)
    (hfuel : countMissing S [] + 1 ≤ fuel) :
    ∃ st2 : St, getVar cap fuel path false st
      = .ok (.lit (.str "[CIRCULAR DEPENDENCY]"), st2) := by
  obtain ⟨rv, vs, v, hjs, hvt, hval, hgp, htgt⟩ := hclosed path hmem
  obtain ⟨st2, hev, _⟩ := evaluate_closed_sentinel cap S fuel [] [] v st hclosed
    (hgp ▸ hmem) (by rw [hgp]; exact hjs) hfuel
  refine ⟨{ st2 with cache := aset st2.cache path (.lit (.str "[CIRCULAR DEPENDENCY]")),
                     changed := aset st2.changed path false }, ?_⟩
  simp only [getVar, getRawVar, hnorm, hjs, Bool.false_and, Bool.false_eq_true, if_false,
    hcache, hev]

/-- Concrete instantiation of `C5_cycle_sentinel` on the four-node
cross-scope cycle. -/
theorem C5_cycle_sentinel_witness :
    ∃ st2 : St, getVar dummyCap 10 "var1" false c5store
      = .ok (.lit (.str "[CIRCULAR DEPENDENCY]"), st2) := by
  apply C5_cycle_sentinel dummyCap c5set "var1" 10 c5store ?_ (by decide) (by decide)
    (by decide) (by decide)
  intro p hp
  simp only [c5set, List.mem_cons, List.not_mem_nil, or_false] at hp
  rcases hp with rfl | rfl | rfl | rfl
  · exact ⟨"var2", none, c5v1, rfl, rfl, rfl, rfl, by decide⟩
  · exact ⟨"scope.var3", none, c5v2, rfl, rfl, rfl, rfl, by decide⟩
  · exact ⟨"../var4", none, c5v3, rfl, rfl, rfl, rfl, by decide⟩
  · exact ⟨"var1", none, c5v4, rfl, rfl, rfl, rfl, by decide⟩

/-- Two calls with equal result projections are equal errors or carry
equal values. -/
theorem resOf_cases {α : Type} {a b : Except Err (α × St)} (h : resOf a = resOf b) :
    (∃ e, a = .error e ∧ b = .error e) ∨
    (∃ x st1 st2, a = .ok (x, st1) ∧ b = .ok (x, st2)) := by
  match a, b with
  | .error e, .error e2 =>
    left
    refine ⟨e, rfl, ?_⟩
    simp only [resOf, Except.map, Except.error.injEq] at h
    rw [h]
  | .error e, .ok (x, st2) => simp [resOf, Except.map] at h
  | .ok (x, st1), .error e => simp [resOf, Except.map] at h
  | .ok (x1, st1), .ok (x2, st2) =>
    right
    simp only [resOf, Except.map, Except.ok.injEq] at h
    exact ⟨x1, st1, st2, rfl, by rw [h]⟩

/-- Independence and store preservation for `followRefBasic`. -/
theorem followRefBasic_props (recur : EvalRecur) (hI : RecurResIndep recur)
    (hP : RecurVarsPres recur) :
    (∀ rv scope origin parents st st', st.vars = st'.vars →
      resOf (followRefBasic recur rv scope origin parents st)
        = resOf (followRefBasic recur rv scope origin parents st')) ∧
    (∀ rv scope origin parents st l st1,
      followRefBasic recur rv scope origin parents st = .ok (l, st1) → st1.vars = st.vars) := by
  constructor
  · intro rv scope origin parents st st' hv
    simp only [followRefBasic]
    rw [show getRawVar st'.vars (normalizePath rv scope)
      = getRawVar st.vars (normalizePath rv scope) from by rw [hv]]
    cases hg : getRawVar st.vars (normalizePath rv scope) with
    | error e => cases e <;> rfl
    | ok v =>
      dsimp only
      have hrec := hI v origin parents
        { st with trace := st.trace ++ [normalizePath rv scope] }
        { st' with trace := st'.trace ++ [normalizePath rv scope] } hv
      rcases resOf_cases hrec with ⟨e, h1, h2⟩ | ⟨x, s1, s2, h1, h2⟩
      · rw [h1, h2]
      · rw [h1, h2]; rfl
  · intro rv scope origin parents st l st1 h
    simp only [followRefBasic] at h
    cases hg : getRawVar st.vars (normalizePath rv scope) with
    | error e =>
      rw [hg] at h
      cases e <;> dsimp only at h <;>
        first
        | (simp only [Except.ok.injEq, Prod.mk.injEq] at h
           rw [← h.2])
        | simp at h
    | ok v =>
      rw [hg] at h
      dsimp only at h
      cases hr : recur v origin parents
          { st with trace := st.trace ++ [normalizePath rv scope] } with
      | error e => rw [hr] at h; exact absurd h (by simp)
      | ok p =>
        obtain ⟨value, st2⟩ := p
        rw [hr] at h
        dsimp only at h
        simp only [Except.ok.injEq, Prod.mk.injEq] at h
        rw [← h.2]
        exact hP v origin parents
          { st with trace := st.trace ++ [normalizePath rv scope] } value st2 hr

/-- Independence and store preservation for the inline-expression
bindings loop. -/
theorem inlineVarsLoop_props (recur : EvalRecur) (hI : RecurResIndep recur)
    (hP : RecurVarsPres recur) :
    ∀ (entries : List (String × ValueItem)) (pvars : List String) (scope : String)
      (origin parents : List String) (acc : List (String × BindVal)),
      (∀ st st', st.vars = st'.vars →
        resOf (inlineVarsLoop recur entries pvars scope origin parents acc st)
          = resOf (inlineVarsLoop recur entries pvars scope origin parents acc st')) ∧
      (∀ st x st1, inlineVarsLoop recur entries pvars scope origin parents acc st
          = .ok (x, st1) → st1.vars = st.vars) := by
  intro entries
  induction entries with
  | nil =>
    intro pvars scope origin parents acc
    refine ⟨fun st st' hv => rfl, fun st x st1 h => ?_⟩
    simp only [inlineVarsLoop, Except.ok.injEq, Prod.mk.injEq] at h
    rw [← h.2]
  | cons kv rest ih =>
    intro pvars scope origin parents acc
    obtain ⟨k, cur⟩ := kv
    constructor
    · intro st st' hv
      simp only [inlineVarsLoop]
      by_cases hk : pvars.contains k = true
      · simp only [hk, Bool.not_true, Bool.false_eq_true, if_false]
        cases cur with
        | vstr s => exact (ih pvars scope origin parents (aset acc k (.bstr s))).1 st st' hv
        | typed v t vs =>
          by_cases ht : t = "literal"
          · simp only [ht, beq_self_eq_true, if_true]
            exact (ih pvars scope origin parents (aset acc k (.bstr v))).1 st st' hv
          · simp only [beq_eq_false_iff_ne.mpr ht, Bool.false_eq_true, if_false]
            have hc := (followRefBasic_props recur hI hP).1 (normalizePath v scope) scope
              origin parents st st' hv
            rcases resOf_cases hc with ⟨e, h1, h2⟩ | ⟨x, s1, s2, h1, h2⟩
            · rw [h1, h2]
            · rw [h1, h2]
              have hv2 : s1.vars = s2.vars := by
                rw [(followRefBasic_props recur hI hP).2 _ _ _ _ _ _ _ h1,
                  (followRefBasic_props recur hI hP).2 _ _ _ _ _ _ _ h2, hv]
              cases x with
              | str followed =>
                by_cases hm : followed = "[MISSING REFERENCE]"
                · simp only [hm, beq_self_eq_true, if_true]
                  rfl
                · simp only [beq_eq_false_iff_ne.mpr hm, Bool.false_eq_true, if_false]
                  exact (ih pvars scope origin parents (aset acc k (.bstr followed))).1 s1 s2 hv2
              | lst followed =>
                exact (ih pvars scope origin parents
                  (aset acc k (.bnums (followed.map jsParseFloat)))).1 s1 s2 hv2
      · have hk2 : pvars.contains k = false := by simpa using hk
        simp only [hk2, Bool.not_false, if_true]
        exact (ih pvars scope origin parents acc).1 st st' hv
    · intro st x st1 h
      simp only [inlineVarsLoop] at h
      by_cases hk : pvars.contains k = true
      · simp only [hk, Bool.not_true, Bool.false_eq_true, if_false] at h
        cases cur with
        | vstr s => exact (ih pvars scope origin parents (aset acc k (.bstr s))).2 st x st1 h
        | typed v t vs =>
          by_cases ht : t = "literal"
          · simp only [ht, beq_self_eq_true, if_true] at h
            exact (ih pvars scope origin parents (aset acc k (.bstr v))).2 st x st1 h
          · simp only [beq_eq_false_iff_ne.mpr ht, Bool.false_eq_true, if_false] at h
            cases hc : followRefBasic recur (normalizePath v scope) scope origin parents st with
            | error e => rw [hc] at h; exact absurd h (by simp)
            | ok p =>
              obtain ⟨xf, s1⟩ := p
              rw [hc] at h
              have hs1 : s1.vars = st.vars :=
                (followRefBasic_props recur hI hP).2 _ _ _ _ _ _ _ hc
              cases xf with
              | str followed =>
                by_cases hm : followed = "[MISSING REFERENCE]"
                · simp only [hm, beq_self_eq_true, if_true, Except.ok.injEq,
                    Prod.mk.injEq] at h
                  rw [← h.2, hs1]
                · simp only [beq_eq_false_iff_ne.mpr hm, Bool.false_eq_true, if_false] at h
                  rw [(ih pvars scope origin parents
                    (aset acc k (.bstr followed))).2 s1 x st1 h, hs1]
              | lst followed =>
                rw [(ih pvars scope origin parents
                  (aset acc k (.bnums (followed.map jsParseFloat)))).2 s1 x st1 h, hs1]
      · have hk2 : pvars.contains k = false := by simpa using hk
        simp only [hk2, Bool.not_false, if_true] at h
        exact (ih pvars scope origin parents acc).2 st x st1 h

/-- Independence and store preservation for `#followReference`. -/
theorem followReferenceStep_props (cap : ParserCap) (recur : EvalRecur)
    (hI : RecurResIndep recur) (hP : RecurVarsPres recur) :
    (∀ rv rt rvars scope origin parents st st', st.vars = st'.vars →
      resOf (followReferenceStep cap recur rv rt rvars scope origin parents st)
        = resOf (followReferenceStep cap recur rv rt rvars scope origin parents st')) ∧
    (∀ rv rt rvars scope origin parents st x st1,
      followReferenceStep cap recur rv rt rvars scope origin parents st = .ok (x, st1) →
        st1.vars = st.vars) := by
  constructor
  · intro rv rt rvars scope origin parents st st' hv
    simp only [followReferenceStep]
    by_cases hrt : rt = "expression"
    · simp only [hrt, beq_self_eq_true, if_true]
      cases cap.parse rv with
      | error e => rfl
      | ok parsed =>
        cases rvars with
        | none => rfl
        | some ivars =>
          dsimp only
          have hc := (inlineVarsLoop_props recur hI hP ivars parsed.freeVars scope
            origin parents []).1 st st' hv
          rcases resOf_cases hc with ⟨e, h1, h2⟩ | ⟨x, s1, s2, h1, h2⟩
          · rw [h1, h2]
          · simp only [h1, h2]
            cases x with
            | inl input =>
              dsimp only
              cases parsed.evalFn input <;> rfl
            | inr l => rfl
    · simp only [beq_eq_false_iff_ne.mpr hrt, Bool.false_eq_true, if_false]
      exact (followRefBasic_props recur hI hP).1 rv scope origin parents st st' hv
  · intro rv rt rvars scope origin parents st x st1 h
    simp only [followReferenceStep] at h
    by_cases hrt : rt = "expression"
    · simp only [hrt, beq_self_eq_true, if_true] at h
      cases hpar : cap.parse rv with
      | error e => rw [hpar] at h; exact absurd h (by simp)
      | ok parsed =>
        rw [hpar] at h
        cases rvars with
        | none => exact absurd h (by simp)
        | some ivars =>
          dsimp only at h
          cases hc : inlineVarsLoop recur ivars parsed.freeVars scope origin parents [] st with
          | error e => rw [hc] at h; exact absurd h (by simp)
          | ok p =>
            obtain ⟨xi, s1⟩ := p
            rw [hc] at h
            have hs1 : s1.vars = st.vars :=
              (inlineVarsLoop_props recur hI hP ivars parsed.freeVars scope
                origin parents []).2 st xi s1 hc
            cases xi with
            | inl input =>
              dsimp only at h
              cases hev : parsed.evalFn input with
              | error e => rw [hev] at h; exact absurd h (by simp)
              | ok evaluated =>
                rw [hev] at h
                simp only [Except.ok.injEq, Prod.mk.injEq] at h
                rw [← h.2, hs1]
            | inr l =>
              dsimp only at h
              simp only [Except.ok.injEq, Prod.mk.injEq] at h
              rw [← h.2, hs1]
    · simp only [beq_eq_false_iff_ne.mpr hrt, Bool.false_eq_true, if_false] at h
      exact (followRefBasic_props recur hI hP).2 rv scope origin parents st x st1 h

/-- Independence and store preservation for `#evalCondition`. -/
theorem evalConditionStep_props (cap : ParserCap) (recur : EvalRecur)
    (hI : RecurResIndep recur) (hP : RecurVarsPres recur) :
    (∀ cond scope origin parents full st st', st.vars = st'.vars →
      resOf (evalConditionStep cap recur cond scope origin parents full st)
        = resOf (evalConditionStep cap recur cond scope origin parents full st')) ∧
    (∀ cond scope origin parents full st x st1,
      evalConditionStep cap recur cond scope origin parents full st = .ok (x, st1) →
        st1.vars = st.vars) := by
  constructor
  · intro cond scope origin parents full st st' hv
    obtain ⟨cv1, cmp, cv2⟩ := cond
    simp only [evalConditionStep]
    cases cv1 with
    | vstr s1v =>
      dsimp only
      cases cv2 with
      | vstr s2v => rfl
      | typed v2 t2 vs2 =>
        dsimp only
        by_cases ht2 : t2 = "literal"
        · simp only [ht2, beq_self_eq_true, if_true]
          rfl
        · simp only [beq_eq_false_iff_ne.mpr ht2, Bool.false_eq_true, if_false]
          have hc2 := (followReferenceStep_props cap recur hI hP).1 v2 t2 vs2 scope
            origin parents st st' hv
          rcases resOf_cases hc2 with ⟨e2, g1, g2⟩ | ⟨val2, u1, u2, g1, g2⟩
          · rw [g1, g2]
          · rw [g1, g2]
            rfl
    | typed v1 t1 vs1 =>
      dsimp only
      by_cases ht1 : t1 = "literal"
      · simp only [ht1, beq_self_eq_true, if_true]
        cases cv2 with
        | vstr s2v => rfl
        | typed v2 t2 vs2 =>
          dsimp only
          by_cases ht2 : t2 = "literal"
          · simp only [ht2, beq_self_eq_true, if_true]
            rfl
          · simp only [beq_eq_false_iff_ne.mpr ht2, Bool.false_eq_true, if_false]
            have hc2 := (followReferenceStep_props cap recur hI hP).1 v2 t2 vs2 scope
              origin parents st st' hv
            rcases resOf_cases hc2 with ⟨e2, g1, g2⟩ | ⟨val2, u1, u2, g1, g2⟩
            · rw [g1, g2]
            · rw [g1, g2]
              rfl
      · simp only [beq_eq_false_iff_ne.mpr ht1, Bool.false_eq_true, if_false]
        have hc1 := (followReferenceStep_props cap recur hI hP).1 v1 t1 vs1 scope
          origin parents st st' hv
        rcases resOf_cases hc1 with ⟨e1, h1, h2⟩ | ⟨val1, s1, s2, h1, h2⟩
        · rw [h1, h2]
        · rw [h1, h2]
          dsimp only
          have hv12 : s1.vars = s2.vars := by
            rw [(followReferenceStep_props cap recur hI hP).2 v1 t1 vs1 scope
                origin parents st val1 s1 h1,
              (followReferenceStep_props cap recur hI hP).2 v1 t1 vs1 scope
                origin parents st' val1 s2 h2, hv]
          cases cv2 with
          | vstr s2v => rfl
          | typed v2 t2 vs2 =>
            dsimp only
            by_cases ht2 : t2 = "literal"
            · simp only [ht2, beq_self_eq_true, if_true]
              rfl
            · simp only [beq_eq_false_iff_ne.mpr ht2, Bool.false_eq_true, if_false]
              have hc2 := (followReferenceStep_props cap recur hI hP).1 v2 t2 vs2 scope
                origin parents s1 s2 hv12
              rcases resOf_cases hc2 with ⟨e2, g1, g2⟩ | ⟨val2, u1, u2, g1, g2⟩
              · rw [g1, g2]
              · rw [g1, g2]
                rfl
  · intro cond scope origin parents full st x st1 h
    obtain ⟨cv1, cmp, cv2⟩ := cond
    simp only [evalConditionStep] at h
    split at h
    · exact absurd h (by simp)
    · rename_i val1 s1 heq1
      split at h
      · exact absurd h (by simp)
      · rename_i val2 s2 heq2
        simp only [Except.ok.injEq, Prod.mk.injEq] at h
        rw [← h.2]
        have hs1 : s1.vars = st.vars := by
          cases cv1 with
          | vstr s =>
            simp only [Except.ok.injEq, Prod.mk.injEq] at heq1
            rw [← heq1.2]
          | typed v t vs =>
            dsimp only at heq1
            by_cases ht : t = "literal"
            · simp only [ht, beq_self_eq_true, if_true, Except.ok.injEq, Prod.mk.injEq] at heq1
              rw [← heq1.2]
            · simp only [beq_eq_false_iff_ne.mpr ht, Bool.false_eq_true, if_false] at heq1
              exact (followReferenceStep_props cap recur hI hP).2 v t vs scope
                origin parents st val1 s1 heq1
        have hs2 : s2.vars = s1.vars := by
          cases cv2 with
          | vstr s =>
            simp only [Except.ok.injEq, Prod.mk.injEq] at heq2
            rw [← heq2.2]
          | typed v t vs =>
            dsimp only at heq2
            by_cases ht : t = "literal"
            · simp only [ht, beq_self_eq_true, if_true, Except.ok.injEq, Prod.mk.injEq] at heq2
              rw [← heq2.2]
            · simp only [beq_eq_false_iff_ne.mpr ht, Bool.false_eq_true, if_false] at heq2
              exact (followReferenceStep_props cap recur hI hP).2 v t vs scope
                origin parents s1 val2 s2 heq2
        rw [hs2, hs1]

/-- Independence and store preservation for the conditions loop of the
table row scan. -/
theorem condsLoop_props (cap : ParserCap) (recur : EvalRecur)
    (hI : RecurResIndep recur) (hP : RecurVarsPres recur) :
    ∀ (conds : List Condition) (scope : String) (origin parents : List String),
      (∀ st st', st.vars = st'.vars →
        resOf (condsLoop cap recur conds scope origin parents st)
          = resOf (condsLoop cap recur conds scope origin parents st')) ∧
      (∀ st x st1, condsLoop cap recur conds scope origin parents st = .ok (x, st1) →
        st1.vars = st.vars) := by
  intro conds
  induction conds with
  | nil =>
    intro scope origin parents
    refine ⟨fun st st' hv => rfl, fun st x st1 h => ?_⟩
    simp only [condsLoop, Except.ok.injEq, Prod.mk.injEq] at h
    rw [← h.2]
  | cons c rest ih =>
    intro scope origin parents
    constructor
    · intro st st' hv
      simp only [condsLoop]
      have hc := (evalConditionStep_props cap recur hI hP).1 c scope origin parents false st st' hv
      rcases resOf_cases hc with ⟨e, h1, h2⟩ | ⟨co, s1, s2, h1, h2⟩
      · rw [h1, h2]
      · rw [h1, h2]
        dsimp only
        have hv12 : s1.vars = s2.vars := by
          rw [(evalConditionStep_props cap recur hI hP).2 c scope origin parents false st co s1 h1,
            (evalConditionStep_props cap recur hI hP).2 c scope origin parents false st' co s2 h2,
            hv]
        by_cases ho : co.output = true
        · rw [if_pos ho, if_pos ho]
          exact (ih scope origin parents).1 s1 s2 hv12
        · rw [if_neg ho, if_neg ho]
          rfl
    · intro st x st1 h
      simp only [condsLoop] at h
      cases hc : evalConditionStep cap recur c scope origin parents false st with
      | error e => rw [hc] at h; exact absurd h (by simp)
      | ok p =>
        obtain ⟨co, s1⟩ := p
        rw [hc] at h
        dsimp only at h
        have hs1 : s1.vars = st.vars :=
          (evalConditionStep_props cap recur hI hP).2 c scope origin parents false st co s1 hc
        by_cases ho : co.output = true
        · rw [if_pos ho] at h
          rw [(ih scope origin parents).2 s1 x st1 h, hs1]
        · rw [if_neg ho] at h
          simp only [Except.ok.injEq, Prod.mk.injEq] at h
          rw [← h.2, hs1]

/-- Independence and store preservation for the table row scan. -/
theorem scanRows_props (cap : ParserCap) (recur : EvalRecur)
    (hI : RecurResIndep recur) (hP : RecurVarsPres recur) :
    ∀ (rows : List TableRow) (scope : String) (origin parents : List String),
      (∀ st st', st.vars = st'.vars →
        resOf (scanRows cap recur rows scope origin parents st)
          = resOf (scanRows cap recur rows scope origin parents st')) ∧
      (∀ st x st1, scanRows cap recur rows scope origin parents st = .ok (x, st1) →
        st1.vars = st.vars) := by
  intro rows
  induction rows with
  | nil =>
    intro scope origin parents
    refine ⟨fun st st' hv => rfl, fun st x st1 h => ?_⟩
    simp only [scanRows, Except.ok.injEq, Prod.mk.injEq] at h
    rw [← h.2]
  | cons row rest ih =>
    intro scope origin parents
    obtain ⟨rc, ro⟩ := row
    constructor
    · intro st st' hv
      simp only [scanRows]
      have hc := (condsLoop_props cap recur hI hP rc scope origin parents).1 st st' hv
      rcases resOf_cases hc with ⟨e, h1, h2⟩ | ⟨b, s1, s2, h1, h2⟩
      · rw [h1, h2]
      · rw [h1, h2]
        have hv12 : s1.vars = s2.vars := by
          rw [(condsLoop_props cap recur hI hP rc scope origin parents).2 st b s1 h1,
            (condsLoop_props cap recur hI hP rc scope origin parents).2 st' b s2 h2, hv]
        cases b with
        | false =>
          dsimp only
          exact (ih scope origin parents).1 s1 s2 hv12
        | true =>
          dsimp only
          cases ro with
          | vstr s => rfl
          | typed v t vs =>
            dsimp only
            by_cases ht : t = "literal"
            · rw [if_pos (by simp [ht]), if_pos (by simp [ht])]
              rfl
            · rw [if_neg (by simp [ht]), if_neg (by simp [ht])]
              have hf := (followReferenceStep_props cap recur hI hP).1 v t vs scope
                origin parents s1 s2 hv12
              rcases resOf_cases hf with ⟨e, g1, g2⟩ | ⟨l, u1, u2, g1, g2⟩
              · rw [g1, g2]
              · rw [g1, g2]
                rfl
    · intro st x st1 h
      simp only [scanRows] at h
      cases hc : condsLoop cap recur rc scope origin parents st with
      | error e => rw [hc] at h; exact absurd h (by simp)
      | ok p =>
        obtain ⟨b, s1⟩ := p
        rw [hc] at h
        have hs1 : s1.vars = st.vars :=
          (condsLoop_props cap recur hI hP rc scope origin parents).2 st b s1 hc
        cases b with
        | false =>
          dsimp only at h
          rw [(ih scope origin parents).2 s1 x st1 h, hs1]
        | true =>
          dsimp only at h
          cases ro with
          | vstr s =>
            simp only [Except.ok.injEq, Prod.mk.injEq] at h
            rw [← h.2, hs1]
          | typed v t vs =>
            dsimp only at h
            by_cases ht : t = "literal"
            · rw [if_pos (by simp [ht])] at h
              simp only [Except.ok.injEq, Prod.mk.injEq] at h
              rw [← h.2, hs1]
            · rw [if_neg (by simp [ht])] at h
              cases hf : followReferenceStep cap recur v t vs scope origin parents s1 with
              | error e => rw [hf] at h; exact absurd h (by simp)
              | ok q =>
                obtain ⟨l, s2⟩ := q
                rw [hf] at h
                dsimp only at h
                simp only [Except.ok.injEq, Prod.mk.injEq] at h
                rw [← h.2,
                  (followReferenceStep_props cap recur hI hP).2 v t vs scope
                    origin parents s1 l s2 hf, hs1]

/-- Independence and store preservation for the list branch loop. -/
theorem listLoop_props (cap : ParserCap) (recur : EvalRecur)
    (hI : RecurResIndep recur) (hP : RecurVarsPres recur) :
    ∀ (items : List ValueItem) (scope : String) (origin parents acc : List String),
      (∀ st st', st.vars = st'.vars →
        resOf (listLoop cap recur items scope origin parents acc st)
          = resOf (listLoop cap recur items scope origin parents acc st')) ∧
      (∀ st x st1, listLoop cap recur items scope origin parents acc st = .ok (x, st1) →
        st1.vars = st.vars) := by
  intro items
  induction items with
  | nil =>
    intro scope origin parents acc
    refine ⟨fun st st' hv => rfl, fun st x st1 h => ?_⟩
    simp only [listLoop, Except.ok.injEq, Prod.mk.injEq] at h
    rw [← h.2]
  | cons e rest ih =>
    intro scope origin parents acc
    constructor
    · intro st st' hv
      simp only [listLoop]
      cases e with
      | vstr s => exact (ih scope origin parents (acc ++ [s])).1 st st' hv
      | typed v t vs =>
        dsimp only
        by_cases ht : t = "literal"
        · rw [if_pos (by simp [ht]), if_pos (by simp [ht])]
          exact (ih scope origin parents (acc ++ [v])).1 st st' hv
        · rw [if_neg (by simp [ht]), if_neg (by simp [ht])]
          have hf := (followReferenceStep_props cap recur hI hP).1 v t vs scope
            origin parents st st' hv
          rcases resOf_cases hf with ⟨er, g1, g2⟩ | ⟨l, u1, u2, g1, g2⟩
          · rw [g1, g2]
          · rw [g1, g2]
            have hu : u1.vars = u2.vars := by
              rw [(followReferenceStep_props cap recur hI hP).2 v t vs scope
                  origin parents st l u1 g1,
                (followReferenceStep_props cap recur hI hP).2 v t vs scope
                  origin parents st' l u2 g2, hv]
            cases l with
            | lst current =>
              dsimp only
              exact (ih scope origin parents (acc ++ current)).1 u1 u2 hu
            | str current =>
              dsimp only
              by_cases hm : current = "[MISSING REFERENCE]"
              · rw [if_pos (by simp [hm]), if_pos (by simp [hm])]
                exact (ih scope origin parents
                  (acc ++ ["[MISSING " ++ v ++ "]"])).1 u1 u2 hu
              · rw [if_neg (by simp [hm]), if_neg (by simp [hm])]
                exact (ih scope origin parents (acc ++ [current])).1 u1 u2 hu
    · intro st x st1 h
      simp only [listLoop] at h
      cases e with
      | vstr s => exact (ih scope origin parents (acc ++ [s])).2 st x st1 h
      | typed v t vs =>
        dsimp only at h
        by_cases ht : t = "literal"
        · rw [if_pos (by simp [ht])] at h
          exact (ih scope origin parents (acc ++ [v])).2 st x st1 h
        · rw [if_neg (by simp [ht])] at h
          cases hf : followReferenceStep cap recur v t vs scope origin parents st with
          | error er => rw [hf] at h; exact absurd h (by simp)
          | ok q =>
            obtain ⟨l, u1⟩ := q
            rw [hf] at h
            have hu : u1.vars = st.vars :=
              (followReferenceStep_props cap recur hI hP).2 v t vs scope
                origin parents st l u1 hf
            cases l with
            | lst current =>
              dsimp only at h
              rw [(ih scope origin parents (acc ++ current)).2 u1 x st1 h, hu]
            | str current =>
              dsimp only at h
              by_cases hm : current = "[MISSING REFERENCE]"
              · rw [if_pos (by simp [hm])] at h
                rw [(ih scope origin parents
                  (acc ++ ["[MISSING " ++ v ++ "]"])).2 u1 x st1 h, hu]
              · rw [if_neg (by simp [hm])] at h
                rw [(ih scope origin parents (acc ++ [current])).2 u1 x st1 h, hu]

/-- Independence and store preservation for the expression-text
resolution. -/
theorem exprToParse_props (cap : ParserCap) (recur : EvalRecur)
    (hI : RecurResIndep recur) (hP : RecurVarsPres recur) (value : VarData)
    (origin parents : List String) :
    (∀ st st', st.vars = st'.vars →
      resOf (exprToParse cap recur value origin parents st)
        = resOf (exprToParse cap recur value origin parents st')) ∧
    (∀ st x st1, exprToParse cap recur value origin parents st = .ok (x, st1) →
      st1.vars = st.vars) := by
  constructor
  · intro st st' hv
    simp only [exprToParse]
    cases hvv : value.value with
    | one vi =>
      cases vi with
      | vstr s => rfl
      | typed v t vs =>
        dsimp only
        by_cases ht : t = "literal"
        · rw [if_pos (by simp [ht]), if_pos (by simp [ht])]
          rfl
        · rw [if_neg (by simp [ht]), if_neg (by simp [ht])]
          have hf := (followReferenceStep_props cap recur hI hP).1 v t vs value.scope
            origin parents st st' hv
          rcases resOf_cases hf with ⟨er, g1, g2⟩ | ⟨l, u1, u2, g1, g2⟩
          · rw [g1, g2]
          · rw [g1, g2]
            cases l <;> rfl
    | arr items => rfl
    | rows r => rfl
  · intro st x st1 h
    simp only [exprToParse] at h
    cases hvv : value.value with
    | one vi =>
      rw [hvv] at h
      cases vi with
      | vstr s =>
        dsimp only at h
        simp only [Except.ok.injEq, Prod.mk.injEq] at h
        rw [← h.2]
      | typed v t vs =>
        dsimp only at h
        by_cases ht : t = "literal"
        · rw [if_pos (by simp [ht])] at h
          simp only [Except.ok.injEq, Prod.mk.injEq] at h
          rw [← h.2]
        · rw [if_neg (by simp [ht])] at h
          cases hf : followReferenceStep cap recur v t vs value.scope origin parents st with
          | error er => rw [hf] at h; exact absurd h (by simp)
          | ok q =>
            obtain ⟨l, u1⟩ := q
            rw [hf] at h
            have hu : u1.vars = st.vars :=
              (followReferenceStep_props cap recur hI hP).2 v t vs value.scope
                origin parents st l u1 hf
            cases l with
            | lst current =>
              dsimp only at h
              simp only [Except.ok.injEq, Prod.mk.injEq] at h
              rw [← h.2, hu]
            | str s =>
              dsimp only at h
              simp only [Except.ok.injEq, Prod.mk.injEq] at h
              rw [← h.2, hu]
    | arr items => rw [hvv] at h; exact absurd h (by simp)
    | rows r => rw [hvv] at h; exact absurd h (by simp)

/-- Independence and store preservation for the expression functions
loop. -/
theorem exprFnsLoop_props (cap : ParserCap) (recur : EvalRecur)
    (hI : RecurResIndep recur) (hP : RecurVarsPres recur) :
    ∀ (fns : List ValueItem) (scope : String) (origin parents : List String) (acc : String),
      (∀ st st', st.vars = st'.vars →
        resOf (exprFnsLoop cap recur fns scope origin parents acc st)
          = resOf (exprFnsLoop cap recur fns scope origin parents acc st')) ∧
      (∀ st x st1, exprFnsLoop cap recur fns scope origin parents acc st = .ok (x, st1) →
        st1.vars = st.vars) := by
  intro fns
  induction fns with
  | nil =>
    intro scope origin parents acc
    refine ⟨fun st st' hv => rfl, fun st x st1 h => ?_⟩
    simp only [exprFnsLoop, Except.ok.injEq, Prod.mk.injEq] at h
    rw [← h.2]
  | cons i rest ih =>
    intro scope origin parents acc
    constructor
    · intro st st' hv
      simp only [exprFnsLoop]
      cases i with
      | vstr s => exact (ih scope origin parents (acc ++ s ++ "; ")).1 st st' hv
      | typed v t vs =>
        dsimp only
        by_cases ht : t = "literal"
        · rw [if_pos (by simp [ht]), if_pos (by simp [ht])]
          exact (ih scope origin parents (acc ++ v ++ "; ")).1 st st' hv
        · rw [if_neg (by simp [ht]), if_neg (by simp [ht])]
          have hf := (followReferenceStep_props cap recur hI hP).1 v t vs scope
            origin parents st st' hv
          rcases resOf_cases hf with ⟨er, g1, g2⟩ | ⟨l, u1, u2, g1, g2⟩
          · rw [g1, g2]
          · rw [g1, g2]
            have hu : u1.vars = u2.vars := by
              rw [(followReferenceStep_props cap recur hI hP).2 v t vs scope
                  origin parents st l u1 g1,
                (followReferenceStep_props cap recur hI hP).2 v t vs scope
                  origin parents st' l u2 g2, hv]
            cases l with
            | lst func =>
              dsimp only
              exact (ih scope origin parents
                (acc ++ String.join (func.map (fun e => e ++ "; ")))).1 u1 u2 hu
            | str func =>
              dsimp only
              by_cases hm : func = "[MISSING REFERENCE]"
              · rw [if_pos (by simp [hm]), if_pos (by simp [hm])]
                rfl
              · rw [if_neg (by simp [hm]), if_neg (by simp [hm])]
                exact (ih scope origin parents (acc ++ func ++ "; ")).1 u1 u2 hu
    · intro st x st1 h
      simp only [exprFnsLoop] at h
      cases i with
      | vstr s => exact (ih scope origin parents (acc ++ s ++ "; ")).2 st x st1 h
      | typed v t vs =>
        dsimp only at h
        by_cases ht : t = "literal"
        · rw [if_pos (by simp [ht])] at h
          exact (ih scope origin parents (acc ++ v ++ "; ")).2 st x st1 h
        · rw [if_neg (by simp [ht])] at h
          cases hf : followReferenceStep cap recur v t vs scope origin parents st with
          | error er => rw [hf] at h; exact absurd h (by simp)
          | ok q =>
            obtain ⟨l, u1⟩ := q
            rw [hf] at h
            have hu : u1.vars = st.vars :=
              (followReferenceStep_props cap recur hI hP).2 v t vs scope
                origin parents st l u1 hf
            cases l with
            | lst func =>
              dsimp only at h
              rw [(ih scope origin parents
                (acc ++ String.join (func.map (fun e => e ++ "; ")))).2 u1 x st1 h, hu]
            | str func =>
              dsimp only at h
              by_cases hm : func = "[MISSING REFERENCE]"
              · rw [if_pos (by simp [hm])] at h
                simp only [Except.ok.injEq, Prod.mk.injEq] at h
                rw [← h.2, hu]
              · rw [if_neg (by simp [hm])] at h
                rw [(ih scope origin parents (acc ++ func ++ "; ")).2 u1 x st1 h, hu]

/-- Independence and store preservation for the expression bindings
loop. -/
theorem exprVarsLoop_props (cap : ParserCap) (recur : EvalRecur)
    (hI : RecurResIndep recur) (hP : RecurVarsPres recur) :
    ∀ (entries : List (String × ValueItem)) (pvars : List String) (scope : String)
      (origin parents : List String) (acc : List (String × BindVal)),
      (∀ st st', st.vars = st'.vars →
        resOf (exprVarsLoop cap recur entries pvars scope origin parents acc st)
          = resOf (exprVarsLoop cap recur entries pvars scope origin parents acc st')) ∧
      (∀ st x st1, exprVarsLoop cap recur entries pvars scope origin parents acc st
          = .ok (x, st1) → st1.vars = st.vars) := by
  intro entries
  induction entries with
  | nil =>
    intro pvars scope origin parents acc
    refine ⟨fun st st' hv => rfl, fun st x st1 h => ?_⟩
    simp only [exprVarsLoop, Except.ok.injEq, Prod.mk.injEq] at h
    rw [← h.2]
  | cons kv rest ih =>
    intro pvars scope origin parents acc
    obtain ⟨k, cur⟩ := kv
    constructor
    · intro st st' hv
      simp only [exprVarsLoop]
      by_cases hk : pvars.contains k = true
      · simp only [hk, Bool.not_true, Bool.false_eq_true, if_false]
        cases cur with
        | vstr s => exact (ih pvars scope origin parents (aset acc k (.bstr s))).1 st st' hv
        | typed v t vs =>
          by_cases ht : t = "literal"
          · simp only [ht, beq_self_eq_true, if_true]
            exact (ih pvars scope origin parents (aset acc k (.bstr v))).1 st st' hv
          · simp only [beq_eq_false_iff_ne.mpr ht, Bool.false_eq_true, if_false]
            have hf := (followReferenceStep_props cap recur hI hP).1 v t vs scope
              origin parents st st' hv
            rcases resOf_cases hf with ⟨er, g1, g2⟩ | ⟨l, u1, u2, g1, g2⟩
            · rw [g1, g2]
            · rw [g1, g2]
              have hu : u1.vars = u2.vars := by
                rw [(followReferenceStep_props cap recur hI hP).2 v t vs scope
                    origin parents st l u1 g1,
                  (followReferenceStep_props cap recur hI hP).2 v t vs scope
                    origin parents st' l u2 g2, hv]
              cases l with
              | str followed =>
                dsimp only
                by_cases hm : followed = "[MISSING REFERENCE]"
                · rw [if_pos (by simp [hm]), if_pos (by simp [hm])]
                  rfl
                · rw [if_neg (by simp [hm]), if_neg (by simp [hm])]
                  exact (ih pvars scope origin parents
                    (aset acc k (.bstr followed))).1 u1 u2 hu
              | lst followed =>
                dsimp only
                exact (ih pvars scope origin parents
                  (aset acc k (.bnums (followed.map jsParseFloat)))).1 u1 u2 hu
      · have hk2 : pvars.contains k = false := by simpa using hk
        simp only [hk2, Bool.not_false, if_true]
        exact (ih pvars scope origin parents acc).1 st st' hv
    · intro st x st1 h
      simp only [exprVarsLoop] at h
      by_cases hk : pvars.contains k = true
      · simp only [hk, Bool.not_true, Bool.false_eq_true, if_false] at h
        cases cur with
        | vstr s => exact (ih pvars scope origin parents (aset acc k (.bstr s))).2 st x st1 h
        | typed v t vs =>
          by_cases ht : t = "literal"
          · simp only [ht, beq_self_eq_true, if_true] at h
            exact (ih pvars scope origin parents (aset acc k (.bstr v))).2 st x st1 h
          · simp only [beq_eq_false_iff_ne.mpr ht, Bool.false_eq_true, if_false] at h
            cases hf : followReferenceStep cap recur v t vs scope origin parents st with
            | error er => rw [hf] at h; exact absurd h (by simp)
            | ok q =>
              obtain ⟨l, u1⟩ := q
              rw [hf] at h
              have hu : u1.vars = st.vars :=
                (followReferenceStep_props cap recur hI hP).2 v t vs scope
                  origin parents st l u1 hf
              cases l with
              | str followed =>
                dsimp only at h
                by_cases hm : followed = "[MISSING REFERENCE]"
                · rw [if_pos (by simp [hm])] at h
                  simp only [Except.ok.injEq, Prod.mk.injEq] at h
                  rw [← h.2, hu]
                · rw [if_neg (by simp [hm])] at h
                  rw [(ih pvars scope origin parents
                    (aset acc k (.bstr followed))).2 u1 x st1 h, hu]
              | lst followed =>
                dsimp only at h
                rw [(ih pvars scope origin parents
                  (aset acc k (.bnums (followed.map jsParseFloat)))).2 u1 x st1 h, hu]
      · have hk2 : pvars.contains k = false := by simpa using hk
        simp only [hk2, Bool.not_false, if_true] at h
        exact (ih pvars scope origin parents acc).2 st x st1 h

/-- Independence and store preservation for one unfolding of
`#evaluate`. -/
theorem evaluateStep_props (cap : ParserCap) (recur : EvalRecur)
    (hI : RecurResIndep recur) (hP : RecurVarsPres recur) :
    (∀ value origin parents st st', st.vars = st'.vars →
      resOf (evaluateStep cap recur value origin parents st)
        = resOf (evaluateStep cap recur value origin parents st')) ∧
    (∀ value origin parents st x st1,
      evaluateStep cap recur value origin parents st = .ok (x, st1) →
        st1.vars = st.vars) := by
  have hFP := followReferenceStep_props cap recur hI hP
  constructor
  · intro value origin parents st st' hv
    simp only [evaluateStep]
    by_cases hcirc : origin.contains (getPath value.name value.scope) = true
    · rw [if_pos hcirc, if_pos hcirc]
      rfl
    · rw [if_neg hcirc, if_neg hcirc]
      by_cases hb : value.varType = "basic"
      · have hbC : (value.varType == "basic") = true := by simp [hb]
        rw [if_pos hbC, if_pos hbC]
        cases hvv : value.value with
        | one vi =>
          cases vi with
          | vstr s => rfl
          | typed v t vs =>
            dsimp only
            by_cases hin : (["literal", "reference", "expression"].contains t) = true
            · have hinC : ¬((!(["literal", "reference", "expression"].contains t)) = true) := by
                rw [hin]; decide
              rw [if_neg hinC, if_neg hinC]
              by_cases ht : t = "literal"
              · have hlit : (t == "literal") = true := by simp [ht]
                rw [if_pos hlit, if_pos hlit]
                rfl
              · have hlit : ¬((t == "literal") = true) := by simp [ht]
                rw [if_neg hlit, if_neg hlit]
                exact hFP.1 v t vs value.scope (sAdd origin (getPath value.name value.scope))
                  (parents ++ [getPath value.name value.scope]) { st with deps := depsInitAdd st.deps (getPath value.name value.scope) parents }
                  { st' with deps := depsInitAdd st'.deps (getPath value.name value.scope) parents } hv
            · have hin2 : (["literal", "reference", "expression"].contains t) = false := by
                rw [Bool.not_eq_true] at hin; exact hin
              have hinC : ((!(["literal", "reference", "expression"].contains t)) = true) := by
                rw [hin2]; decide
              rw [if_pos hinC, if_pos hinC]
        | arr items => rfl
        | rows r => rfl
      · have hbC : ¬((value.varType == "basic") = true) := by simp [hb]
        rw [if_neg hbC, if_neg hbC]
        by_cases hl : value.varType = "list"
        · have hlC : (value.varType == "list") = true := by simp [hl]
          rw [if_pos hlC, if_pos hlC]
          cases hvv : value.value with
          | one vi => rfl
          | arr items =>
            exact (listLoop_props cap recur hI hP items value.scope (sAdd origin (getPath value.name value.scope))
              (parents ++ [getPath value.name value.scope]) []).1 { st with deps := depsInitAdd st.deps (getPath value.name value.scope) parents }
              { st' with deps := depsInitAdd st'.deps (getPath value.name value.scope) parents } hv
          | rows r => cases r <;> rfl
        · have hlC : ¬((value.varType == "list") = true) := by simp [hl]
          rw [if_neg hlC, if_neg hlC]
          by_cases htb : value.varType = "table"
          · have htbC : (value.varType == "table") = true := by simp [htb]
            rw [if_pos htbC, if_pos htbC]
            cases hp : value.priority with
            | none =>
              dsimp only
              have hpC : ((!false) = true) := by decide
              rw [if_pos hpC, if_pos hpC]
            | some p =>
              dsimp only
              by_cases hpl : (["first", "last"].contains p) = true
              · have hpC : ¬((!(["first", "last"].contains p)) = true) := by
                  rw [hpl]; decide
                rw [if_neg hpC, if_neg hpC]
                cases hd : value.dflt with
                | none =>
                  dsimp only
                  have hdC : ((!false) = true) := by decide
                  rw [if_pos hdC, if_pos hdC]
                | some dvi =>
                  cases dvi with
                  | vstr ds =>
                    dsimp only
                    have hdC : ¬((!true) = true) := by decide
                    rw [if_neg hdC, if_neg hdC]
                    cases hvv : value.value with
                    | one vi => rfl
                    | arr items =>
                      cases items with
                      | nil =>
                        dsimp only
                        have hs := (scanRows_props cap recur hI hP (if (some p == some "first") = true then ([] : List TableRow) else List.reverse ([] : List TableRow)) value.scope (sAdd origin (getPath value.name value.scope)) (parents ++ [getPath value.name value.scope])).1 { st with deps := depsInitAdd st.deps (getPath value.name value.scope) parents }
                          { st' with deps := depsInitAdd st'.deps (getPath value.name value.scope) parents } hv
                        rcases resOf_cases hs with ⟨e, g1, g2⟩ | ⟨xr, u1, u2, g1, g2⟩
                        · rw [g1, g2]
                        · rw [g1, g2]
                          have hu : u1.vars = u2.vars := by
                            rw [(scanRows_props cap recur hI hP (if (some p == some "first") = true then ([] : List TableRow) else List.reverse ([] : List TableRow)) value.scope (sAdd origin (getPath value.name value.scope)) (parents ++ [getPath value.name value.scope])).2 _ xr u1 g1,
                              (scanRows_props cap recur hI hP (if (some p == some "first") = true then ([] : List TableRow) else List.reverse ([] : List TableRow)) value.scope (sAdd origin (getPath value.name value.scope)) (parents ++ [getPath value.name value.scope])).2 _ xr u2 g2]
                            exact hv
                          cases xr with
                          | some l => rfl
                          | none => rfl
                      | cons i is => rfl
                    | rows r =>
                      dsimp only
                      have hs := (scanRows_props cap recur hI hP (if (some p == some "first") = true then r else List.reverse r) value.scope (sAdd origin (getPath value.name value.scope)) (parents ++ [getPath value.name value.scope])).1 { st with deps := depsInitAdd st.deps (getPath value.name value.scope) parents }
                        { st' with deps := depsInitAdd st'.deps (getPath value.name value.scope) parents } hv
                      rcases resOf_cases hs with ⟨e, g1, g2⟩ | ⟨xr, u1, u2, g1, g2⟩
                      · rw [g1, g2]
                      · rw [g1, g2]
                        have hu : u1.vars = u2.vars := by
                          rw [(scanRows_props cap recur hI hP (if (some p == some "first") = true then r else List.reverse r) value.scope (sAdd origin (getPath value.name value.scope)) (parents ++ [getPath value.name value.scope])).2 _ xr u1 g1,
                            (scanRows_props cap recur hI hP (if (some p == some "first") = true then r else List.reverse r) value.scope (sAdd origin (getPath value.name value.scope)) (parents ++ [getPath value.name value.scope])).2 _ xr u2 g2]
                          exact hv
                        cases xr with
                        | some l => rfl
                        | none => rfl
                  | typed dv dt dvs =>
                    dsimp only
                    by_cases hint : (["literal", "reference", "expression"].contains dt) = true
                    · have hdC : ¬((!(["literal", "reference", "expression"].contains dt))
                          = true) := by rw [hint]; decide
                      rw [if_neg hdC, if_neg hdC]
                      cases hvv : value.value with
                      | one vi => rfl
                      | arr items =>
                        cases items with
                        | nil =>
                          dsimp only
                          have hs := (scanRows_props cap recur hI hP (if (some p == some "first") = true then ([] : List TableRow) else List.reverse ([] : List TableRow)) value.scope (sAdd origin (getPath value.name value.scope)) (parents ++ [getPath value.name value.scope])).1 { st with deps := depsInitAdd st.deps (getPath value.name value.scope) parents }
                            { st' with deps := depsInitAdd st'.deps (getPath value.name value.scope) parents } hv
                          rcases resOf_cases hs with ⟨e, g1, g2⟩ | ⟨xr, u1, u2, g1, g2⟩
                          · rw [g1, g2]
                          · rw [g1, g2]
                            have hu : u1.vars = u2.vars := by
                              rw [(scanRows_props cap recur hI hP (if (some p == some "first") = true then ([] : List TableRow) else List.reverse ([] : List TableRow)) value.scope (sAdd origin (getPath value.name value.scope)) (parents ++ [getPath value.name value.scope])).2 _ xr u1 g1,
                                (scanRows_props cap recur hI hP (if (some p == some "first") = true then ([] : List TableRow) else List.reverse ([] : List TableRow)) value.scope (sAdd origin (getPath value.name value.scope)) (parents ++ [getPath value.name value.scope])).2 _ xr u2 g2]
                              exact hv
                            cases xr with
                            | some l => rfl
                            | none =>
                              dsimp only
                              by_cases hdt : dt = "literal"
                              · have hdtC : (dt == "literal") = true := by simp [hdt]
                                rw [if_pos hdtC, if_pos hdtC]
                                rfl
                              · have hdtC : ¬((dt == "literal") = true) := by simp [hdt]
                                rw [if_neg hdtC, if_neg hdtC]
                                exact hFP.1 dv dt dvs value.scope (sAdd origin (getPath value.name value.scope)) (parents ++ [getPath value.name value.scope]) u1 u2 hu
                        | cons i is => rfl
                      | rows r =>
                        dsimp only
                        have hs := (scanRows_props cap recur hI hP (if (some p == some "first") = true then r else List.reverse r) value.scope (sAdd origin (getPath value.name value.scope)) (parents ++ [getPath value.name value.scope])).1 { st with deps := depsInitAdd st.deps (getPath value.name value.scope) parents }
                          { st' with deps := depsInitAdd st'.deps (getPath value.name value.scope) parents } hv
                        rcases resOf_cases hs with ⟨e, g1, g2⟩ | ⟨xr, u1, u2, g1, g2⟩
                        · rw [g1, g2]
                        · rw [g1, g2]
                          have hu : u1.vars = u2.vars := by
                            rw [(scanRows_props cap recur hI hP (if (some p == some "first") = true then r else List.reverse r) value.scope (sAdd origin (getPath value.name value.scope)) (parents ++ [getPath value.name value.scope])).2 _ xr u1 g1,
                              (scanRows_props cap recur hI hP (if (some p == some "first") = true then r else List.reverse r) value.scope (sAdd origin (getPath value.name value.scope)) (parents ++ [getPath value.name value.scope])).2 _ xr u2 g2]
                            exact hv
                          cases xr with
                          | some l => rfl
                          | none =>
                            dsimp only
                            by_cases hdt : dt = "literal"
                            · have hdtC : (dt == "literal") = true := by simp [hdt]
                              rw [if_pos hdtC, if_pos hdtC]
                              rfl
                            · have hdtC : ¬((dt == "literal") = true) := by simp [hdt]
                              rw [if_neg hdtC, if_neg hdtC]
                              exact hFP.1 dv dt dvs value.scope (sAdd origin (getPath value.name value.scope)) (parents ++ [getPath value.name value.scope]) u1 u2 hu
                    · have hint2 : (["literal", "reference", "expression"].contains dt)
                          = false := by rw [Bool.not_eq_true] at hint; exact hint
                      have hdC : ((!(["literal", "reference", "expression"].contains dt))
                          = true) := by rw [hint2]; decide
                      rw [if_pos hdC, if_pos hdC]
              · have hpl2 : (["first", "last"].contains p) = false := by
                  rw [Bool.not_eq_true] at hpl; exact hpl
                have hpC : ((!(["first", "last"].contains p)) = true) := by
                  rw [hpl2]; decide
                rw [if_pos hpC, if_pos hpC]
          · have htbC : ¬((value.varType == "table") = true) := by simp [htb]
            rw [if_neg htbC, if_neg htbC]
            by_cases hex : value.varType = "expression"
            · have hexC : (value.varType == "expression") = true := by simp [hex]
              rw [if_pos hexC, if_pos hexC]
              cases hvars : value.vars with
              | none => rfl
              | some exprVars =>
                dsimp only
                have hep := (exprToParse_props cap recur hI hP value (sAdd origin (getPath value.name value.scope))
                  (parents ++ [getPath value.name value.scope])).1 { st with deps := depsInitAdd st.deps (getPath value.name value.scope) parents }
                  { st' with deps := depsInitAdd st'.deps (getPath value.name value.scope) parents } hv
                rcases resOf_cases hep with ⟨e, g1, g2⟩ | ⟨xp, u1, u2, g1, g2⟩
                · rw [g1, g2]
                · rw [g1, g2]
                  have hu : u1.vars = u2.vars := by
                    rw [(exprToParse_props cap recur hI hP value (sAdd origin (getPath value.name value.scope))
                        (parents ++ [getPath value.name value.scope])).2 _ xp u1 g1,
                      (exprToParse_props cap recur hI hP value (sAdd origin (getPath value.name value.scope))
                        (parents ++ [getPath value.name value.scope])).2 _ xp u2 g2]
                    exact hv
                  cases xp with
                  | inr l => rfl
                  | inl toParse0 =>
                    dsimp only
                    cases hfns : value.functions with
                    | none =>
                      dsimp only
                      cases hpar : cap.parse ("" ++ toParse0) with
                      | error e => rfl
                      | ok parsed =>
                        dsimp only
                        have hvl := (exprVarsLoop_props cap recur hI hP exprVars
                          parsed.freeVars value.scope (sAdd origin (getPath value.name value.scope))
                          (parents ++ [getPath value.name value.scope]) []).1 u1 u2 hu
                        rcases resOf_cases hvl with ⟨e, k1, k2⟩ | ⟨xv, w1, w2, k1, k2⟩
                        · rw [k1, k2]
                        · rw [k1, k2]
                          cases xv with
                          | inr l => rfl
                          | inl input =>
                            dsimp only
                            cases parsed.evalFn input <;> rfl
                    | some fns =>
                      dsimp only
                      have hfl := (exprFnsLoop_props cap recur hI hP fns value.scope
                        (sAdd origin (getPath value.name value.scope)) (parents ++ [getPath value.name value.scope]) "").1 u1 u2 hu
                      rcases resOf_cases hfl with ⟨e, k1, k2⟩ | ⟨xf, w1, w2, k1, k2⟩
                      · rw [k1, k2]
                      · rw [k1, k2]
                        have hw : w1.vars = w2.vars := by
                          rw [(exprFnsLoop_props cap recur hI hP fns value.scope
                              (sAdd origin (getPath value.name value.scope)) (parents ++ [getPath value.name value.scope]) "").2 u1 xf w1 k1,
                            (exprFnsLoop_props cap recur hI hP fns value.scope
                              (sAdd origin (getPath value.name value.scope)) (parents ++ [getPath value.name value.scope]) "").2 u2 xf w2 k2]
                          exact hu
                        cases xf with
                        | inr l => rfl
                        | inl functions =>
                          dsimp only
                          cases hpar : cap.parse (functions ++ toParse0) with
                          | error e => rfl
                          | ok parsed =>
                            dsimp only
                            have hvl := (exprVarsLoop_props cap recur hI hP exprVars
                              parsed.freeVars value.scope (sAdd origin (getPath value.name value.scope))
                              (parents ++ [getPath value.name value.scope]) []).1 w1 w2 hw
                            rcases resOf_cases hvl with ⟨e, m1, m2⟩ | ⟨xv, y1, y2, m1, m2⟩
                            · rw [m1, m2]
                            · rw [m1, m2]
                              cases xv with
                              | inr l => rfl
                              | inl input =>
                                dsimp only
                                cases parsed.evalFn input <;> rfl
            · have hexC : ¬((value.varType == "expression") = true) := by simp [hex]
              rw [if_neg hexC, if_neg hexC]
              rfl
  · intro value origin parents st x st1 h
    simp only [evaluateStep] at h
    by_cases hcirc : origin.contains (getPath value.name value.scope) = true
    · rw [if_pos hcirc] at h
      simp only [Except.ok.injEq, Prod.mk.injEq] at h
      rw [← h.2]
    · rw [if_neg hcirc] at h
      by_cases hb : value.varType = "basic"
      · have hbC : (value.varType == "basic") = true := by simp [hb]
        rw [if_pos hbC] at h
        cases hvv : value.value with
        | one vi =>
          rw [hvv] at h
          cases vi with
          | vstr s =>
            dsimp only at h
            simp only [Except.ok.injEq, Prod.mk.injEq] at h
            rw [← h.2]
          | typed v t vs =>
            dsimp only at h
            by_cases hin : (["literal", "reference", "expression"].contains t) = true
            · have hinC : ¬((!(["literal", "reference", "expression"].contains t)) = true) := by
                rw [hin]; decide
              rw [if_neg hinC] at h
              by_cases ht : t = "literal"
              · have hlit : (t == "literal") = true := by simp [ht]
                rw [if_pos hlit] at h
                simp only [Except.ok.injEq, Prod.mk.injEq] at h
                rw [← h.2]
              · have hlit : ¬((t == "literal") = true) := by simp [ht]
                rw [if_neg hlit] at h
                exact hFP.2 v t vs value.scope (sAdd origin (getPath value.name value.scope))
                  (parents ++ [getPath value.name value.scope]) { st with deps := depsInitAdd st.deps (getPath value.name value.scope) parents } x st1 h
            · have hin2 : (["literal", "reference", "expression"].contains t) = false := by
                rw [Bool.not_eq_true] at hin; exact hin
              have hinC : ((!(["literal", "reference", "expression"].contains t)) = true) := by
                rw [hin2]; decide
              rw [if_pos hinC] at h
              exact absurd h (by simp)
        | arr items => rw [hvv] at h; exact absurd h (by simp)
        | rows r => rw [hvv] at h; exact absurd h (by simp)
      · have hbC : ¬((value.varType == "basic") = true) := by simp [hb]
        rw [if_neg hbC] at h
        by_cases hl : value.varType = "list"
        · have hlC : (value.varType == "list") = true := by simp [hl]
          rw [if_pos hlC] at h
          cases hvv : value.value with
          | one vi => rw [hvv] at h; exact absurd h (by simp)
          | arr items =>
            rw [hvv] at h
            exact (listLoop_props cap recur hI hP items value.scope (sAdd origin (getPath value.name value.scope))
              (parents ++ [getPath value.name value.scope]) []).2 { st with deps := depsInitAdd st.deps (getPath value.name value.scope) parents } x st1 h
          | rows r =>
            rw [hvv] at h
            cases r with
            | nil =>
              dsimp only at h
              simp only [Except.ok.injEq, Prod.mk.injEq] at h
              rw [← h.2]
            | cons a as => exact absurd h (by simp)
        · have hlC : ¬((value.varType == "list") = true) := by simp [hl]
          rw [if_neg hlC] at h
          by_cases htb : value.varType = "table"
          · have htbC : (value.varType == "table") = true := by simp [htb]
            rw [if_pos htbC] at h
            cases hp : value.priority with
            | none =>
              rw [hp] at h
              dsimp only at h
              have hpC : ((!false) = true) := by decide
              rw [if_pos hpC] at h
              exact absurd h (by simp)
            | some p =>
              rw [hp] at h
              dsimp only at h
              by_cases hpl : (["first", "last"].contains p) = true
              · have hpC : ¬((!(["first", "last"].contains p)) = true) := by
                  rw [hpl]; decide
                rw [if_neg hpC] at h
                cases hd : value.dflt with
                | none =>
                  rw [hd] at h
                  dsimp only at h
                  have hdC : ((!false) = true) := by decide
                  rw [if_pos hdC] at h
                  exact absurd h (by simp)
                | some dvi =>
                  rw [hd] at h
                  cases dvi with
                  | vstr ds =>
                    dsimp only at h
                    have hdC : ¬((!true) = true) := by decide
                    rw [if_neg hdC] at h
                    cases hvv : value.value with
                    | one vi => rw [hvv] at h; exact absurd h (by simp)
                    | arr items =>
                      rw [hvv] at h
                      cases items with
                      | nil =>
                        dsimp only at h
                        cases hs : scanRows cap recur (if (some p == some "first") = true then ([] : List TableRow) else List.reverse ([] : List TableRow))
                            value.scope (sAdd origin (getPath value.name value.scope))
                            (parents ++ [getPath value.name value.scope])
                            { st with deps := depsInitAdd st.deps (getPath value.name value.scope) parents } with
                        | error e => rw [hs] at h; exact absurd h (by simp)
                        | ok q =>
                          obtain ⟨xr, u1⟩ := q
                          rw [hs] at h
                          have hu : u1.vars = st.vars :=
                            (scanRows_props cap recur hI hP _ value.scope _ _).2 { st with deps := depsInitAdd st.deps (getPath value.name value.scope) parents } xr u1 hs
                          cases xr with
                          | some l =>
                            dsimp only at h
                            simp only [Except.ok.injEq, Prod.mk.injEq] at h
                            rw [← h.2, hu]
                          | none =>
                          dsimp only at h
                          simp only [Except.ok.injEq, Prod.mk.injEq] at h
                          rw [← h.2, hu]
                      | cons i is => exact absurd h (by simp)
                    | rows r =>
                      rw [hvv] at h
                      dsimp only at h
                      cases hs : scanRows cap recur (if (some p == some "first") = true then r else List.reverse r)
                          value.scope (sAdd origin (getPath value.name value.scope))
                          (parents ++ [getPath value.name value.scope])
                          { st with deps := depsInitAdd st.deps (getPath value.name value.scope) parents } with
                      | error e => rw [hs] at h; exact absurd h (by simp)
                      | ok q =>
                        obtain ⟨xr, u1⟩ := q
                        rw [hs] at h
                        have hu : u1.vars = st.vars :=
                          (scanRows_props cap recur hI hP _ value.scope _ _).2 { st with deps := depsInitAdd st.deps (getPath value.name value.scope) parents } xr u1 hs
                        cases xr with
                        | some l =>
                          dsimp only at h
                          simp only [Except.ok.injEq, Prod.mk.injEq] at h
                          rw [← h.2, hu]
                        | none =>
                        dsimp only at h
                        simp only [Except.ok.injEq, Prod.mk.injEq] at h
                        rw [← h.2, hu]
                  | typed dv dt dvs =>
                    dsimp only at h
                    by_cases hint : (["literal", "reference", "expression"].contains dt) = true
                    · have hdC : ¬((!(["literal", "reference", "expression"].contains dt))
                          = true) := by rw [hint]; decide
                      rw [if_neg hdC] at h
                      cases hvv : value.value with
                      | one vi => rw [hvv] at h; exact absurd h (by simp)
                      | arr items =>
                        rw [hvv] at h
                        cases items with
                        | nil =>
                          dsimp only at h
                          cases hs : scanRows cap recur (if (some p == some "first") = true then ([] : List TableRow) else List.reverse ([] : List TableRow))
                              value.scope (sAdd origin (getPath value.name value.scope))
                              (parents ++ [getPath value.name value.scope])
                              { st with deps := depsInitAdd st.deps (getPath value.name value.scope) parents } with
                          | error e => rw [hs] at h; exact absurd h (by simp)
                          | ok q =>
                            obtain ⟨xr, u1⟩ := q
                            rw [hs] at h
                            have hu : u1.vars = st.vars :=
                              (scanRows_props cap recur hI hP _ value.scope _ _).2 { st with deps := depsInitAdd st.deps (getPath value.name value.scope) parents } xr u1 hs
                            cases xr with
                            | some l =>
                              dsimp only at h
                              simp only [Except.ok.injEq, Prod.mk.injEq] at h
                              rw [← h.2, hu]
                            | none =>
                            dsimp only at h
                            by_cases hdt : dt = "literal"
                            · have hdtC : (dt == "literal") = true := by simp [hdt]
                              rw [if_pos hdtC] at h
                              simp only [Except.ok.injEq, Prod.mk.injEq] at h
                              rw [← h.2, hu]
                            · have hdtC : ¬((dt == "literal") = true) := by simp [hdt]
                              rw [if_neg hdtC] at h
                              rw [hFP.2 dv dt dvs value.scope (sAdd origin (getPath value.name value.scope))
                                (parents ++ [getPath value.name value.scope]) u1 x st1 h, hu]
                        | cons i is => exact absurd h (by simp)
                      | rows r =>
                        rw [hvv] at h
                        dsimp only at h
                        cases hs : scanRows cap recur (if (some p == some "first") = true then r else List.reverse r)
                            value.scope (sAdd origin (getPath value.name value.scope))
                            (parents ++ [getPath value.name value.scope])
                            { st with deps := depsInitAdd st.deps (getPath value.name value.scope) parents } with
                        | error e => rw [hs] at h; exact absurd h (by simp)
                        | ok q =>
                          obtain ⟨xr, u1⟩ := q
                          rw [hs] at h
                          have hu : u1.vars = st.vars :=
                            (scanRows_props cap recur hI hP _ value.scope _ _).2 { st with deps := depsInitAdd st.deps (getPath value.name value.scope) parents } xr u1 hs
                          cases xr with
                          | some l =>
                            dsimp only at h
                            simp only [Except.ok.injEq, Prod.mk.injEq] at h
                            rw [← h.2, hu]
                          | none =>
                          dsimp only at h
                          by_cases hdt : dt = "literal"
                          · have hdtC : (dt == "literal") = true := by simp [hdt]
                            rw [if_pos hdtC] at h
                            simp only [Except.ok.injEq, Prod.mk.injEq] at h
                            rw [← h.2, hu]
                          · have hdtC : ¬((dt == "literal") = true) := by simp [hdt]
                            rw [if_neg hdtC] at h
                            rw [hFP.2 dv dt dvs value.scope (sAdd origin (getPath value.name value.scope))
                              (parents ++ [getPath value.name value.scope]) u1 x st1 h, hu]
                    · have hint2 : (["literal", "reference", "expression"].contains dt)
                          = false := by rw [Bool.not_eq_true] at hint; exact hint
                      have hdC : ((!(["literal", "reference", "expression"].contains dt))
                          = true) := by rw [hint2]; decide
                      rw [if_pos hdC] at h
                      exact absurd h (by simp)
              · have hpl2 : (["first", "last"].contains p) = false := by
                  rw [Bool.not_eq_true] at hpl; exact hpl
                have hpC : ((!(["first", "last"].contains p)) = true) := by
                  rw [hpl2]; decide
                rw [if_pos hpC] at h
                exact absurd h (by simp)
          · have htbC : ¬((value.varType == "table") = true) := by simp [htb]
            rw [if_neg htbC] at h
            by_cases hex : value.varType = "expression"
            · have hexC : (value.varType == "expression") = true := by simp [hex]
              rw [if_pos hexC] at h
              cases hvars : value.vars with
              | none => rw [hvars] at h; exact absurd h (by simp)
              | some exprVars =>
                rw [hvars] at h
                dsimp only at h
                cases hep : exprToParse cap recur value
                    (sAdd origin (getPath value.name value.scope))
                    (parents ++ [getPath value.name value.scope])
                    { st with deps := depsInitAdd st.deps (getPath value.name value.scope) parents } with
                | error e => rw [hep] at h; exact absurd h (by simp)
                | ok q =>
                  obtain ⟨xp, u1⟩ := q
                  rw [hep] at h
                  have hu : u1.vars = st.vars :=
                    (exprToParse_props cap recur hI hP value _ _).2 { st with deps := depsInitAdd st.deps (getPath value.name value.scope) parents } xp u1 hep
                  cases xp with
                  | inr l =>
                    dsimp only at h
                    simp only [Except.ok.injEq, Prod.mk.injEq] at h
                    rw [← h.2, hu]
                  | inl toParse0 =>
                    dsimp only at h
                    cases hfns : value.functions with
                    | none =>
                      rw [hfns] at h
                      dsimp only at h
                      cases hpar : cap.parse ("" ++ toParse0) with
                      | error e => rw [hpar] at h; exact absurd h (by simp)
                      | ok parsed =>
                        rw [hpar] at h
                        dsimp only at h
                        cases hvl : exprVarsLoop cap recur exprVars parsed.freeVars
                            value.scope (sAdd origin (getPath value.name value.scope))
                            (parents ++ [getPath value.name value.scope]) [] u1 with
                        | error e => rw [hvl] at h; exact absurd h (by simp)
                        | ok q2 =>
                          obtain ⟨xv, w1⟩ := q2
                          rw [hvl] at h
                          have hw : w1.vars = u1.vars :=
                            (exprVarsLoop_props cap recur hI hP exprVars parsed.freeVars
                              value.scope _ _ []).2 u1 xv w1 hvl
                          cases xv with
                          | inr l =>
                            dsimp only at h
                            simp only [Except.ok.injEq, Prod.mk.injEq] at h
                            rw [← h.2, hw, hu]
                          | inl input =>
                            dsimp only at h
                            cases hev : parsed.evalFn input with
                            | error e => rw [hev] at h; exact absurd h (by simp)
                            | ok evaluated =>
                              rw [hev] at h
                              simp only [Except.ok.injEq, Prod.mk.injEq] at h
                              rw [← h.2, hw, hu]
                    | some fns =>
                      rw [hfns] at h
                      dsimp only at h
                      cases hfl : exprFnsLoop cap recur fns value.scope
                          (sAdd origin (getPath value.name value.scope))
                          (parents ++ [getPath value.name value.scope]) "" u1 with
                      | error e => rw [hfl] at h; exact absurd h (by simp)
                      | ok q2 =>
                        obtain ⟨xf, w1⟩ := q2
                        rw [hfl] at h
                        have hw : w1.vars = u1.vars :=
                          (exprFnsLoop_props cap recur hI hP fns value.scope
                            _ _ "").2 u1 xf w1 hfl
                        cases xf with
                        | inr l =>
                          dsimp only at h
                          simp only [Except.ok.injEq, Prod.mk.injEq] at h
                          rw [← h.2, hw, hu]
                        | inl functions =>
                          dsimp only at h
                          cases hpar : cap.parse (functions ++ toParse0) with
                          | error e => rw [hpar] at h; exact absurd h (by simp)
                          | ok parsed =>
                            rw [hpar] at h
                            dsimp only at h
                            cases hvl : exprVarsLoop cap recur exprVars parsed.freeVars
                                value.scope (sAdd origin (getPath value.name value.scope))
                                (parents ++ [getPath value.name value.scope]) [] w1 with
                            | error e => rw [hvl] at h; exact absurd h (by simp)
                            | ok q3 =>
                              obtain ⟨xv, y1⟩ := q3
                              rw [hvl] at h
                              have hy : y1.vars = w1.vars :=
                                (exprVarsLoop_props cap recur hI hP exprVars parsed.freeVars
                                  value.scope _ _ []).2 w1 xv y1 hvl
                              cases xv with
                              | inr l =>
                                dsimp only at h
                                simp only [Except.ok.injEq, Prod.mk.injEq] at h
                                rw [← h.2, hy, hw, hu]
                              | inl input =>
                                dsimp only at h
                                cases hev : parsed.evalFn input with
                                | error e => rw [hev] at h; exact absurd h (by simp)
                                | ok evaluated =>
                                  rw [hev] at h
                                  simp only [Except.ok.injEq, Prod.mk.injEq] at h
                                  rw [← h.2, hy, hw, hu]
            · have hexC : ¬((value.varType == "expression") = true) := by simp [hex]
              rw [if_neg hexC] at h
              simp only [Except.ok.injEq, Prod.mk.injEq] at h
              rw [← h.2]

/-- `#evaluate` at any fuel: results depend only on the store, and the
store is never modified. -/
theorem evaluate_props (cap : ParserCap) :
    ∀ fuel, RecurResIndep (evaluate cap fuel) ∧ RecurVarsPres (evaluate cap fuel) := by
  intro fuel
  induction fuel with
  | zero =>
    constructor
    · intro v origin parents st st' hv
      rfl
    · intro v origin parents st l st1 h
      exact absurd h (by simp [evaluate])
  | succ n ih =>
    constructor
    · intro v origin parents st st' hv
      exact (evaluateStep_props cap (evaluate cap n) ih.1 ih.2).1 v origin parents st st' hv
    · intro v origin parents st l st1 h
      exact (evaluateStep_props cap (evaluate cap n) ih.1 ih.2).2 v origin parents st l st1 h

/-- A call whose result projection is a value is a success at some
state. -/
theorem resOf_ok {α : Type} {a : Except Err (α × St)} {x : α} (h : resOf a = .ok x) :
    ∃ s, a = .ok (x, s) := by
  match a with
  | .error e => simp [resOf, Except.map] at h
  | .ok (y, s) =>
    simp only [resOf, Except.map, Except.ok.injEq] at h
    exact ⟨s, by rw [h]⟩

/-- Independence of the row output resolution. -/
theorem rowResolve_props (cap : ParserCap) (recur : EvalRecur)
    (hI : RecurResIndep recur) (hP : RecurVarsPres recur) (row : TableRow) (scope : String)
    (origin parents : List String) :
    ∀ st st', st.vars = st'.vars →
      resOf (rowResolve cap recur row scope origin parents st)
        = resOf (rowResolve cap recur row scope origin parents st') := by
  intro st st' hv
  simp only [rowResolve]
  cases ro : row.output with
  | vstr s => rfl
  | typed v t vs =>
    dsimp only
    by_cases ht : t = "literal"
    · have hlit : (t == "literal") = true := by simp [ht]
      rw [if_pos hlit, if_pos hlit]
      rfl
    · have hlit : ¬((t == "literal") = true) := by simp [ht]
      rw [if_neg hlit, if_neg hlit]
      exact (followReferenceStep_props cap recur hI hP).1 v t vs scope origin parents st st' hv

/-- The row scan returns the resolved output of the first passing row:
if every row before `i` fails and row `i` passes, the scan result is
row `i`'s resolved output. -/
theorem scanRows_spec (cap : ParserCap) (recur : EvalRecur)
    (hI : RecurResIndep recur) (hP : RecurVarsPres recur) :
    ∀ (rows : List TableRow) (scope : String) (origin parents : List String)
      (i : Nat) (hi : i < rows.length) (st : St),
      (∀ j (hj : j < rows.length), j < i →
        resOf (condsLoop cap recur (rows.get ⟨j, hj⟩).conditions scope origin parents st)
          = .ok false) →
      resOf (condsLoop cap recur (rows.get ⟨i, hi⟩).conditions scope origin parents st)
          = .ok true →
      resOf (scanRows cap recur rows scope origin parents st)
        = Except.map some
            (resOf (rowResolve cap recur (rows.get ⟨i, hi⟩) scope origin parents st)) := by
  intro rows
  induction rows with
  | nil =>
    intro scope origin parents i hi st hfail hpass
    exact absurd hi (by simp)
  | cons row rest ih =>
    intro scope origin parents i hi st hfail hpass
    obtain ⟨rc, ro⟩ := row
    cases i with
    | zero =>
      have hpass0 : resOf (condsLoop cap recur rc scope origin parents st) = .ok true := hpass
      obtain ⟨st1, hc⟩ := resOf_ok hpass0
      have hv1 : st1.vars = st.vars :=
        (condsLoop_props cap recur hI hP rc scope origin parents).2 st true st1 hc
      suffices hgoal : resOf (scanRows cap recur (⟨rc, ro⟩ :: rest) scope origin parents st)
          = Except.map some
              (resOf (rowResolve cap recur ⟨rc, ro⟩ scope origin parents st)) from hgoal
      simp only [scanRows, rowResolve]
      rw [hc]
      dsimp only
      cases ro with
      | vstr s => rfl
      | typed v t vs =>
        dsimp only
        by_cases ht : t = "literal"
        · have hlit : (t == "literal") = true := by simp [ht]
          rw [if_pos hlit, if_pos hlit]
          rfl
        · have hlit : ¬((t == "literal") = true) := by simp [ht]
          rw [if_neg hlit, if_neg hlit]
          have hf := (followReferenceStep_props cap recur hI hP).1 v t vs scope
            origin parents st1 st hv1
          rcases resOf_cases hf with ⟨e, g1, g2⟩ | ⟨l, u1, u2, g1, g2⟩
          · rw [g1, g2]
            rfl
          · rw [g1, g2]
            rfl
    | succ k =>
      have hk : k < rest.length := Nat.lt_of_succ_lt_succ hi
      have hfail0 : resOf (condsLoop cap recur rc scope origin parents st) = .ok false :=
        hfail 0 (by simp) (Nat.succ_pos k)
      obtain ⟨st1, hc⟩ := resOf_ok hfail0
      have hv1 : st1.vars = st.vars :=
        (condsLoop_props cap recur hI hP rc scope origin parents).2 st false st1 hc
      suffices hgoal : resOf (scanRows cap recur (⟨rc, ro⟩ :: rest) scope origin parents st)
          = Except.map some
              (resOf (rowResolve cap recur (rest.get ⟨k, hk⟩) scope origin parents st))
        from hgoal
      simp only [scanRows]
      rw [hc]
      dsimp only
      have hihyp : ∀ j (hj : j < rest.length), j < k →
          resOf (condsLoop cap recur (rest.get ⟨j, hj⟩).conditions scope origin parents st1)
            = .ok false := by
        intro j hj hjk
        rw [(condsLoop_props cap recur hI hP (rest.get ⟨j, hj⟩).conditions scope
          origin parents).1 st1 st hv1]
        exact hfail (j + 1) (Nat.succ_lt_succ hj) (Nat.succ_lt_succ hjk)
      have hpass1 : resOf (condsLoop cap recur (rest.get ⟨k, hk⟩).conditions scope
          origin parents st1) = .ok true := by
        rw [(condsLoop_props cap recur hI hP (rest.get ⟨k, hk⟩).conditions scope
          origin parents).1 st1 st hv1]
        exact hpass
      rw [ih scope origin parents k hk st1 hihyp hpass1]
      rw [rowResolve_props cap recur hI hP (rest.get ⟨k, hk⟩) scope origin parents st1 st hv1]

/-- The row scan returns `none` when every row fails. -/
theorem scanRows_allfail (cap : ParserCap) (recur : EvalRecur)
    (hI : RecurResIndep recur) (hP : RecurVarsPres recur) :
    ∀ (rows : List TableRow) (scope : String) (origin parents : List String) (st : St),
      (∀ j (hj : j < rows.length),
        resOf (condsLoop cap recur (rows.get ⟨j, hj⟩).conditions scope origin parents st)
          = .ok false) →
      ∃ stN, scanRows cap recur rows scope origin parents st = .ok (none, stN) ∧
        stN.vars = st.vars := by
  intro rows
  induction rows with
  | nil =>
    intro scope origin parents st hfail
    exact ⟨st, rfl, rfl⟩
  | cons row rest ih =>
    intro scope origin parents st hfail
    obtain ⟨rc, ro⟩ := row
    have hfail0 : resOf (condsLoop cap recur rc scope origin parents st) = .ok false :=
      hfail 0 (by simp)
    obtain ⟨st1, hc⟩ := resOf_ok hfail0
    have hv1 : st1.vars = st.vars :=
      (condsLoop_props cap recur hI hP rc scope origin parents).2 st false st1 hc
    have hrest : ∀ j (hj : j < rest.length),
        resOf (condsLoop cap recur (rest.get ⟨j, hj⟩).conditions scope origin parents st1)
          = .ok false := by
      intro j hj
      rw [(condsLoop_props cap recur hI hP (rest.get ⟨j, hj⟩).conditions scope
        origin parents).1 st1 st hv1]
      exact hfail (j + 1) (Nat.succ_lt_succ hj)
    obtain ⟨stN, hsN, hvN⟩ := ih scope origin parents st1 hrest
    refine ⟨stN, ?_, hvN.trans hv1⟩
    simp only [scanRows]
    rw [hc]
    dsimp only
    exact hsN

/-- A call whose result projection is an error is that error. -/
theorem resOf_error {α : Type} {a : Except Err (α × St)} {e : Err} (h : resOf a = .error e) :
    a = .error e := by
  match a with
  | .error f =>
    simp only [resOf, Except.map, Except.error.injEq] at h
    rw [h]
  | .ok (y, s) => simp [resOf, Except.map] at h

/-- Independence of the table default resolution. -/
theorem dfltResolve_props (cap : ParserCap) (recur : EvalRecur)
    (hI : RecurResIndep recur) (hP : RecurVarsPres recur) (value : VarData)
    (origin parents : List String) :
    ∀ st st', st.vars = st'.vars →
      resOf (dfltResolve cap recur value origin parents st)
        = resOf (dfltResolve cap recur value origin parents st') := by
  intro st st' hv
  simp only [dfltResolve]
  cases hd : value.dflt with
  | none => rfl
  | some dvi =>
    cases dvi with
    | vstr s => rfl
    | typed v t vs =>
      dsimp only
      by_cases ht : t = "literal"
      · have hlit : (t == "literal") = true := by simp [ht]
        rw [if_pos hlit, if_pos hlit]
        rfl
      · have hlit : ¬((t == "literal") = true) := by simp [ht]
        rw [if_neg hlit, if_neg hlit]
        exact (followReferenceStep_props cap recur hI hP).1 v t vs value.scope
          origin parents st st' hv

/-- Unfolding of `#evaluate` on a well-formed table variable: the result
is the row scan over the priority-ordered rows, resolving the first
passing row or else the default. -/
theorem evaluate_table_run (cap : ParserCap) (fuel : Nat) (value : VarData)
    (rows : List TableRow) (origin parents : List String) (st : St) (p : String)
    (hvt : value.varType = "table") (hvv : value.value = .rows rows)
    (hdOK : dfltOk value.dflt = true)
    (hcirc : origin.contains (getPath value.name value.scope) = false)
    (hpr : value.priority = some p)
    (hpl : (["first", "last"].contains p) = true) :
    evaluate cap (fuel + 1) value origin parents st
      = (match scanRows cap (evaluate cap fuel)
          (if (some p == some "first") = true then rows else rows.reverse) value.scope
          (sAdd origin (getPath value.name value.scope)) (parents ++ [getPath value.name value.scope])
          { st with deps := depsInitAdd st.deps (getPath value.name value.scope) parents } with
         | .error e => .error e
         | .ok (some l, st1) => .ok (l, st1)
         | .ok (none, st1) =>
           dfltResolve cap (evaluate cap fuel) value (sAdd origin (getPath value.name value.scope))
             (parents ++ [getPath value.name value.scope]) st1) := by
  simp only [evaluate, evaluateStep]
  have hcircC : ¬(origin.contains (getPath value.name value.scope) = true) := by
    rw [hcirc]; decide
  rw [if_neg hcircC]
  have hbC : ¬((value.varType == "basic") = true) := by simp [hvt]
  rw [if_neg hbC]
  have hlC : ¬((value.varType == "list") = true) := by simp [hvt]
  rw [if_neg hlC]
  have htbC : (value.varType == "table") = true := by simp [hvt]
  rw [if_pos htbC]
  rw [hpr]
  dsimp only
  have hpC : ¬((!(["first", "last"].contains p)) = true) := by rw [hpl]; decide
  rw [if_neg hpC]
  cases hd : value.dflt with
  | none =>
    rw [hd] at hdOK
    simp [dfltOk] at hdOK
  | some dvi =>
    rw [hd] at hdOK
    cases dvi with
    | vstr ds =>
      dsimp only
      have hdC : ¬((!true) = true) := by decide
      rw [if_neg hdC]
      rw [hvv]
      dsimp only
      cases hs : scanRows cap (evaluate cap fuel)
          (if (some p == some "first") = true then rows else rows.reverse) value.scope
          (sAdd origin (getPath value.name value.scope)) (parents ++ [getPath value.name value.scope])
          { st with deps := depsInitAdd st.deps (getPath value.name value.scope) parents } with
      | error e => rfl
      | ok q =>
        obtain ⟨xr, st1⟩ := q
        cases xr with
        | some l => rfl
        | none =>
          dsimp only
          simp only [dfltResolve]
          rw [hd]
    | typed dv dt dvs =>
      dsimp only
      simp only [dfltOk] at hdOK
      have hdC : ¬((!(["literal", "reference", "expression"].contains dt)) = true) := by
        rw [hdOK]; decide
      rw [if_neg hdC]
      rw [hvv]
      dsimp only
      cases hs : scanRows cap (evaluate cap fuel)
          (if (some p == some "first") = true then rows else rows.reverse) value.scope
          (sAdd origin (getPath value.name value.scope)) (parents ++ [getPath value.name value.scope])
          { st with deps := depsInitAdd st.deps (getPath value.name value.scope) parents } with
      | error e => rfl
      | ok q =>
        obtain ⟨xr, st1⟩ := q
        cases xr with
        | some l => rfl
        | none =>
          dsimp only
          simp only [dfltResolve]
          rw [hd]

/-- C7: table priority semantics.  For a well-formed table variable
(`varType = "table"`, rows of table rows, well-formed `default`, the
variable not already on the visited chain): (a) with priority `"first"`,
if every row before index `i` fails and row `i` passes, evaluation
returns row `i`\'s resolved output — the lowest-index passing row wins;
(b) with priority `"last"`, if every row after index `i` fails and row
`i` passes, evaluation returns row `i`\'s resolved output — the
highest-index passing row wins (the scan runs over the reversed row
list); (c) with either priority, if every row fails, evaluation returns
the resolved `default`. -/
theorem C7_table_priority (cap : ParserCap) (fuel : Nat) (value : VarData)
    (rows : List TableRow) (origin parents : List String) (st : St)
    (hvt : value.varType = "table") (hvv : value.value = .rows rows)
    (hdOK : dfltOk value.dflt = true)
    (hcirc : origin.contains (getPath value.name value.scope) = false) :
    (∀ i (hi : i < rows.length), value.priority = some "first" →
      (∀ j (hj : j < rows.length), j < i → resOf (condsLoop cap (evaluate cap fuel) (rows.get ⟨j, hj⟩).conditions value.scope
        (sAdd origin (getPath value.name value.scope))
        (parents ++ [getPath value.name value.scope]) st) = .ok false) →
      resOf (condsLoop cap (evaluate cap fuel) (rows.get ⟨i, hi⟩).conditions value.scope
        (sAdd origin (getPath value.name value.scope))
        (parents ++ [getPath value.name value.scope]) st) = .ok true →
      resOf (evaluate cap (fuel + 1) value origin parents st)
        = resOf (rowResolve cap (evaluate cap fuel) (rows.get ⟨i, hi⟩) value.scope
            (sAdd origin (getPath value.name value.scope))
            (parents ++ [getPath value.name value.scope]) st)) ∧
    (∀ i (hi : i < rows.length), value.priority = some "last" →
      (∀ j (hj : j < rows.length), i < j → resOf (condsLoop cap (evaluate cap fuel) (rows.get ⟨j, hj⟩).conditions value.scope
        (sAdd origin (getPath value.name value.scope))
        (parents ++ [getPath value.name value.scope]) st) = .ok false) →
      resOf (condsLoop cap (evaluate cap fuel) (rows.get ⟨i, hi⟩).conditions value.scope
        (sAdd origin (getPath value.name value.scope))
        (parents ++ [getPath value.name value.scope]) st) = .ok true →
      resOf (evaluate cap (fuel + 1) value origin parents st)
        = resOf (rowResolve cap (evaluate cap fuel) (rows.get ⟨i, hi⟩) value.scope
            (sAdd origin (getPath value.name value.scope))
            (parents ++ [getPath value.name value.scope]) st)) ∧
    ((value.priority = some "first" ∨ value.priority = some "last") →
      (∀ j (hj : j < rows.length), resOf (condsLoop cap (evaluate cap fuel) (rows.get ⟨j, hj⟩).conditions value.scope
        (sAdd origin (getPath value.name value.scope))
        (parents ++ [getPath value.name value.scope]) st) = .ok false) →
      resOf (evaluate cap (fuel + 1) value origin parents st)
        = resOf (dfltResolve cap (evaluate cap fuel) value
            (sAdd origin (getPath value.name value.scope))
            (parents ++ [getPath value.name value.scope]) st)) := by
  have hIf := (evaluate_props cap fuel).1
  have hPf := (evaluate_props cap fuel).2
  refine ⟨?_, ?_, ?_⟩
  · intro i hi hpr hfail hpass
    rw [evaluate_table_run cap fuel value rows origin parents st "first" hvt hvv hdOK
      hcirc hpr (by decide)]
    rw [if_pos (show (some "first" == some "first") = true by decide)]
    have hfailA : ∀ j (hj : j < rows.length), j < i →
        resOf (condsLoop cap (evaluate cap fuel) (rows.get ⟨j, hj⟩).conditions value.scope
          (sAdd origin (getPath value.name value.scope)) (parents ++ [getPath value.name value.scope])
          { st with deps := depsInitAdd st.deps (getPath value.name value.scope) parents }) = .ok false := by
      intro j hj hji
      rw [(condsLoop_props cap (evaluate cap fuel) hIf hPf (rows.get ⟨j, hj⟩).conditions
        value.scope (sAdd origin (getPath value.name value.scope))
        (parents ++ [getPath value.name value.scope])).1
        { st with deps := depsInitAdd st.deps (getPath value.name value.scope) parents } st rfl]
      exact hfail j hj hji
    have hpassA : resOf (condsLoop cap (evaluate cap fuel) (rows.get ⟨i, hi⟩).conditions
        value.scope (sAdd origin (getPath value.name value.scope))
        (parents ++ [getPath value.name value.scope])
        { st with deps := depsInitAdd st.deps (getPath value.name value.scope) parents }) = .ok true := by
      rw [(condsLoop_props cap (evaluate cap fuel) hIf hPf (rows.get ⟨i, hi⟩).conditions
        value.scope (sAdd origin (getPath value.name value.scope))
        (parents ++ [getPath value.name value.scope])).1
        { st with deps := depsInitAdd st.deps (getPath value.name value.scope) parents } st rfl]
      exact hpass
    have hspec := scanRows_spec cap (evaluate cap fuel) hIf hPf rows value.scope
      (sAdd origin (getPath value.name value.scope)) (parents ++ [getPath value.name value.scope])
      i hi { st with deps := depsInitAdd st.deps (getPath value.name value.scope) parents } hfailA hpassA
    cases hr : rowResolve cap (evaluate cap fuel) (rows.get ⟨i, hi⟩) value.scope
        (sAdd origin (getPath value.name value.scope)) (parents ++ [getPath value.name value.scope])
        { st with deps := depsInitAdd st.deps (getPath value.name value.scope) parents } with
    | error e =>
      have hsc : resOf (scanRows cap (evaluate cap fuel) rows value.scope
          (sAdd origin (getPath value.name value.scope)) (parents ++ [getPath value.name value.scope])
          { st with deps := depsInitAdd st.deps (getPath value.name value.scope) parents }) = .error e := by
        rw [hspec, hr]; rfl
      rw [resOf_error hsc]
      rw [rowResolve_props cap (evaluate cap fuel) hIf hPf (rows.get ⟨i, hi⟩) value.scope
        (sAdd origin (getPath value.name value.scope)) (parents ++ [getPath value.name value.scope]) st
        { st with deps := depsInitAdd st.deps (getPath value.name value.scope) parents } rfl, hr]
    | ok q =>
      obtain ⟨l, u⟩ := q
      have hsc : resOf (scanRows cap (evaluate cap fuel) rows value.scope
          (sAdd origin (getPath value.name value.scope)) (parents ++ [getPath value.name value.scope])
          { st with deps := depsInitAdd st.deps (getPath value.name value.scope) parents }) = .ok (some l) := by
        rw [hspec, hr]; rfl
      obtain ⟨sN, hsN⟩ := resOf_ok hsc
      rw [hsN]
      rw [rowResolve_props cap (evaluate cap fuel) hIf hPf (rows.get ⟨i, hi⟩) value.scope
        (sAdd origin (getPath value.name value.scope)) (parents ++ [getPath value.name value.scope]) st
        { st with deps := depsInitAdd st.deps (getPath value.name value.scope) parents } rfl, hr]
      rfl
  · intro i hi hpr hfail hpass
    rw [evaluate_table_run cap fuel value rows origin parents st "last" hvt hvv hdOK
      hcirc hpr (by decide)]
    rw [if_neg (show ¬((some "last" == some "first") = true) by decide)]
    have hk : rows.length - 1 - i < rows.reverse.length := by
      simp only [List.length_reverse]; omega
    have hgetk : rows.reverse.get ⟨rows.length - 1 - i, hk⟩ = rows.get ⟨i, hi⟩ :=
      (List.get_reverse' rows ⟨rows.length - 1 - i, hk⟩
        (show rows.length - 1 - (rows.length - 1 - i) < rows.length by omega)).trans
      (congrArg (List.get rows)
        (Fin.ext (show rows.length - 1 - (rows.length - 1 - i) = i by omega)))
    have hfailA : ∀ j (hj : j < rows.reverse.length), j < rows.length - 1 - i →
        resOf (condsLoop cap (evaluate cap fuel) (rows.reverse.get ⟨j, hj⟩).conditions
          value.scope (sAdd origin (getPath value.name value.scope))
          (parents ++ [getPath value.name value.scope])
          { st with deps := depsInitAdd st.deps (getPath value.name value.scope) parents }) = .ok false := by
      intro j hj hjk
      have hjlen : j < rows.length := by simpa using hj
      rw [List.get_reverse' rows ⟨j, hj⟩
        (show rows.length - 1 - j < rows.length by omega)]
      rw [(condsLoop_props cap (evaluate cap fuel) hIf hPf _ value.scope
        (sAdd origin (getPath value.name value.scope))
        (parents ++ [getPath value.name value.scope])).1
        { st with deps := depsInitAdd st.deps (getPath value.name value.scope) parents } st rfl]
      exact hfail (rows.length - 1 - j) (show rows.length - 1 - j < rows.length by omega)
        (show i < rows.length - 1 - j by omega)
    have hpassA : resOf (condsLoop cap (evaluate cap fuel)
        (rows.reverse.get ⟨rows.length - 1 - i, hk⟩).conditions value.scope
        (sAdd origin (getPath value.name value.scope))
        (parents ++ [getPath value.name value.scope])
        { st with deps := depsInitAdd st.deps (getPath value.name value.scope) parents }) = .ok true := by
      rw [hgetk]
      rw [(condsLoop_props cap (evaluate cap fuel) hIf hPf (rows.get ⟨i, hi⟩).conditions
        value.scope (sAdd origin (getPath value.name value.scope))
        (parents ++ [getPath value.name value.scope])).1
        { st with deps := depsInitAdd st.deps (getPath value.name value.scope) parents } st rfl]
      exact hpass
    have hspec := scanRows_spec cap (evaluate cap fuel) hIf hPf rows.reverse value.scope
      (sAdd origin (getPath value.name value.scope)) (parents ++ [getPath value.name value.scope])
      (rows.length - 1 - i) hk { st with deps := depsInitAdd st.deps (getPath value.name value.scope) parents } hfailA hpassA
    rw [hgetk] at hspec
    cases hr : rowResolve cap (evaluate cap fuel) (rows.get ⟨i, hi⟩) value.scope
        (sAdd origin (getPath value.name value.scope)) (parents ++ [getPath value.name value.scope])
        { st with deps := depsInitAdd st.deps (getPath value.name value.scope) parents } with
    | error e =>
      have hsc : resOf (scanRows cap (evaluate cap fuel) rows.reverse value.scope
          (sAdd origin (getPath value.name value.scope)) (parents ++ [getPath value.name value.scope])
          { st with deps := depsInitAdd st.deps (getPath value.name value.scope) parents }) = .error e := by
        rw [hspec, hr]; rfl
      rw [resOf_error hsc]
      rw [rowResolve_props cap (evaluate cap fuel) hIf hPf (rows.get ⟨i, hi⟩) value.scope
        (sAdd origin (getPath value.name value.scope)) (parents ++ [getPath value.name value.scope]) st
        { st with deps := depsInitAdd st.deps (getPath value.name value.scope) parents } rfl, hr]
    | ok q =>
      obtain ⟨l, u⟩ := q
      have hsc : resOf (scanRows cap (evaluate cap fuel) rows.reverse value.scope
          (sAdd origin (getPath value.name value.scope)) (parents ++ [getPath value.name value.scope])
          { st with deps := depsInitAdd st.deps (getPath value.name value.scope) parents }) = .ok (some l) := by
        rw [hspec, hr]; rfl
      obtain ⟨sN, hsN⟩ := resOf_ok hsc
      rw [hsN]
      rw [rowResolve_props cap (evaluate cap fuel) hIf hPf (rows.get ⟨i, hi⟩) value.scope
        (sAdd origin (getPath value.name value.scope)) (parents ++ [getPath value.name value.scope]) st
        { st with deps := depsInitAdd st.deps (getPath value.name value.scope) parents } rfl, hr]
      rfl
  · intro hpror hfail
    rcases hpror with hpr | hpr
    · rw [evaluate_table_run cap fuel value rows origin parents st "first" hvt hvv hdOK
        hcirc hpr (by decide)]
      rw [if_pos (show (some "first" == some "first") = true by decide)]
      have hfailA : ∀ j (hj : j < rows.length),
          resOf (condsLoop cap (evaluate cap fuel) (rows.get ⟨j, hj⟩).conditions value.scope
            (sAdd origin (getPath value.name value.scope))
            (parents ++ [getPath value.name value.scope])
            { st with deps := depsInitAdd st.deps (getPath value.name value.scope) parents }) = .ok false := by
        intro j hj
        rw [(condsLoop_props cap (evaluate cap fuel) hIf hPf (rows.get ⟨j, hj⟩).conditions
          value.scope (sAdd origin (getPath value.name value.scope))
          (parents ++ [getPath value.name value.scope])).1
          { st with deps := depsInitAdd st.deps (getPath value.name value.scope) parents } st rfl]
        exact hfail j hj
      obtain ⟨stN, hsN, hvN⟩ := scanRows_allfail cap (evaluate cap fuel) hIf hPf rows
        value.scope (sAdd origin (getPath value.name value.scope))
        (parents ++ [getPath value.name value.scope])
        { st with deps := depsInitAdd st.deps (getPath value.name value.scope) parents } hfailA
      rw [hsN]
      dsimp only
      rw [dfltResolve_props cap (evaluate cap fuel) hIf hPf value
        (sAdd origin (getPath value.name value.scope)) (parents ++ [getPath value.name value.scope])
        stN st hvN]
    · rw [evaluate_table_run cap fuel value rows origin parents st "last" hvt hvv hdOK
        hcirc hpr (by decide)]
      rw [if_neg (show ¬((some "last" == some "first") = true) by decide)]
      have hfailA : ∀ j (hj : j < rows.reverse.length),
          resOf (condsLoop cap (evaluate cap fuel) (rows.reverse.get ⟨j, hj⟩).conditions
            value.scope (sAdd origin (getPath value.name value.scope))
            (parents ++ [getPath value.name value.scope])
            { st with deps := depsInitAdd st.deps (getPath value.name value.scope) parents }) = .ok false := by
        intro j hj
        have hjlen : j < rows.length := by simpa using hj
        rw [List.get_reverse' rows ⟨j, hj⟩
          (show rows.length - 1 - j < rows.length by omega)]
        rw [(condsLoop_props cap (evaluate cap fuel) hIf hPf _ value.scope
          (sAdd origin (getPath value.name value.scope))
          (parents ++ [getPath value.name value.scope])).1
          { st with deps := depsInitAdd st.deps (getPath value.name value.scope) parents } st rfl]
        exact hfail (rows.length - 1 - j) (show rows.length - 1 - j < rows.length by omega)
      obtain ⟨stN, hsN, hvN⟩ := scanRows_allfail cap (evaluate cap fuel) hIf hPf rows.reverse
        value.scope (sAdd origin (getPath value.name value.scope))
        (parents ++ [getPath value.name value.scope])
        { st with deps := depsInitAdd st.deps (getPath value.name value.scope) parents } hfailA
      rw [hsN]
      dsimp only
      rw [dfltResolve_props cap (evaluate cap fuel) hIf hPf value
        (sAdd origin (getPath value.name value.scope)) (parents ++ [getPath value.name value.scope])
        stN st hvN]

/-- Witness for C7: on `c7rows`, priority `"first"` picks row 0 (the
lowest-index passing row), priority `"last"` picks row 1 (the
highest-index passing row), and an all-fail table resolves its
default. -/
theorem C7_table_priority_witness :
    resOf (evaluate dummyCap 3 c7first [] [] initSt) = .ok (.str "row0") ∧
    resOf (evaluate dummyCap 3 c7last [] [] initSt) = .ok (.str "row1") ∧
    resOf (evaluate dummyCap 3 c7none [] [] initSt) = .ok (.str "dflt") := by
  refine ⟨?_, ?_, ?_⟩
  · have h := (C7_table_priority dummyCap 2 c7first c7rows [] [] initSt rfl rfl rfl rfl).1
      0 (by decide) rfl (fun j hj hji => absurd hji (Nat.not_lt_zero j)) rfl
    exact h.trans rfl
  · have h := (C7_table_priority dummyCap 2 c7last c7rows [] [] initSt rfl rfl rfl rfl).2.1
      1 (by decide) rfl ?_ rfl
    · exact h.trans rfl
    · intro j hj h1j
      have hj2 : j = 2 := by
        simp only [c7rows, List.length_cons, List.length_nil] at hj
        omega
      subst hj2
      rfl
  · have h := (C7_table_priority dummyCap 2 c7none c7rowsF [] [] initSt rfl rfl rfl
      rfl).2.2 (Or.inl rfl) ?_
    · exact h.trans rfl
    · intro j hj
      have hj0 : j = 0 := by
        simp only [c7rowsF, List.length_cons, List.length_nil] at hj
        omega
      subst hj0
      rfl

/-- A successful `alookup` finds a stored entry. -/
theorem alookup_mem {α : Type} {l : List (String × α)} {k : String} {x : α}
    (h : alookup l k = some x) : (k, x) ∈ l := by
  induction l with
  | nil => simp [alookup] at h
  | cons kv rest ih =>
    obtain ⟨k1, v1⟩ := kv
    simp only [alookup] at h
    by_cases hk : (k1 == k) = true
    · rw [if_pos hk] at h
      injection h with h
      have : k1 = k := by simpa using hk
      rw [← this, h]
      exact List.mem_cons_self _ _
    · rw [if_neg hk] at h
      exact List.mem_cons_of_mem _ (ih h)

/-- A variable retrieved by `getRawVar` is stored at the root or inside
a stored scope. -/
theorem getRawVar_source {vars : List (String × Node)} {p : String} {v : VarData}
    (h : getRawVar vars p = .ok v) :
    (∃ k, (k, Node.var v) ∈ vars) ∨
    (∃ k m k2, (k, Node.scope m) ∈ vars ∧ (k2, v) ∈ m) := by
  simp only [getRawVar] at h
  cases hj : jsGet vars (normalizePath p) with
  | var w =>
    rw [hj] at h
    injection h with h
    subst h
    simp only [jsGet] at hj
    cases hsp : splitOnDotL (normalizePath p).data with
    | nil =>
      rw [hsp] at hj
      exact absurd hj (by simp)
    | cons seg rest =>
      rw [hsp] at hj
      cases rest with
      | nil =>
        dsimp only at hj
        cases hal : alookup vars (String.mk seg) with
        | none => rw [hal] at hj; exact absurd hj (by simp)
        | some node =>
          rw [hal] at hj
          cases node with
          | var u =>
            dsimp only at hj
            injection hj with hj
            subst hj
            exact Or.inl ⟨_, alookup_mem hal⟩
          | scope m => exact absurd hj (by simp)
      | cons seg2 rest2 =>
        cases rest2 with
        | nil =>
          dsimp only at hj
          cases hal : alookup vars (String.mk seg) with
          | none => rw [hal] at hj; exact absurd hj (by simp)
          | some node =>
            rw [hal] at hj
            cases node with
            | scope m =>
              dsimp only at hj
              cases hal2 : alookup m (String.mk seg2) with
              | none => rw [hal2] at hj; exact absurd hj (by simp)
              | some u =>
                rw [hal2] at hj
                dsimp only at hj
                injection hj with hj
                subst hj
                exact Or.inr ⟨_, _, _, alookup_mem hal, alookup_mem hal2⟩
            | var u =>
              dsimp only at hj
              by_cases hf : (fieldTruthy u (String.mk seg2)) = true
              · rw [if_pos hf] at hj; exact absurd hj (by simp)
              · rw [if_neg hf] at hj; exact absurd hj (by simp)
        | cons seg3 rest3 => exact absurd hj (by simp)
  | scopeNode m => rw [hj] at h; exact absurd h (by simp)
  | junk => rw [hj] at h; exact absurd h (by simp)
  | nothing => rw [hj] at h; exact absurd h (by simp)

/-- Under `rankOkB`, every variable `getRawVar` can retrieve satisfies
the per-variable edge condition. -/
theorem rankOk_lookup {rank : String → Nat} {vars : List (String × Node)} {p : String}
    {v : VarData} (hall : rankOkB rank vars = true) (h : getRawVar vars p = .ok v) :
    varRefsOkB rank vars v = true := by
  rcases getRawVar_source h with ⟨k, hmem⟩ | ⟨k, m, k2, hmem, hmem2⟩
  · have := (List.all_eq_true.mp hall) _ hmem
    simpa using this
  · have h1 := (List.all_eq_true.mp hall) _ hmem
    simp only at h1
    have := (List.all_eq_true.mp h1) _ hmem2
    simpa using this

/-- Unpacking `varRefsOkB`: each resolvable reference strictly drops in
rank. -/
theorem varRefsOkB_spec {rank : String → Nat} {vars : List (String × Node)} {v : VarData}
    (h : varRefsOkB rank vars v = true) :
    ∀ rv, rv ∈ varRefs v → ∀ u, getRawVar vars (normalizePath rv v.scope) = .ok u →
      rank (getPath u.name u.scope) < rank (getPath v.name v.scope) := by
  intro rv hrv u hget
  have := (List.all_eq_true.mp h) rv hrv
  rw [hget] at this
  simpa using this

/-- `RefsBelow` restricts along sublists. -/
theorem RefsBelow_sub {rank : String → Nat} {vars : List (String × Node)} {scope : String}
    {origin : List String} {refs refs' : List String}
    (hsub : ∀ rv, rv ∈ refs' → rv ∈ refs)
    (h : RefsBelow rank vars scope origin refs) :
    RefsBelow rank vars scope origin refs' :=
  fun rv hrv => h rv (hsub rv hrv)

/-- The circular-check flag stays down through a basic reference
dereference whose target ranks below the visited chain. -/
theorem followRefBasic_circ (rank : String → Nat) (recur : EvalRecur)
    (hR : RecurCirc rank recur) :
    ∀ rv scope origin parents st l st1,
      rankOkB rank st.vars = true →
      RefsBelow rank st.vars scope origin [rv] →
      st.circHit = false →
      followRefBasic recur rv scope origin parents st = .ok (l, st1) →
      st1.circHit = false := by
  intro rv scope origin parents st l st1 hall hrefs hcirc h
  simp only [followRefBasic] at h
  cases hg : getRawVar st.vars (normalizePath rv scope) with
  | error e =>
    rw [hg] at h
    cases e <;> dsimp only at h <;>
      first
      | (simp only [Except.ok.injEq, Prod.mk.injEq] at h
         rw [← h.2]
         exact hcirc)
      | simp at h
  | ok w =>
    rw [hg] at h
    dsimp only at h
    cases hr : recur w origin parents
        { st with trace := st.trace ++ [normalizePath rv scope] } with
    | error e => rw [hr] at h; exact absurd h (by simp)
    | ok p =>
      obtain ⟨value, st2⟩ := p
      rw [hr] at h
      dsimp only at h
      simp only [Except.ok.injEq, Prod.mk.injEq] at h
      rw [← h.2]
      exact hR w origin parents { st with trace := st.trace ++ [normalizePath rv scope] }
        value st2 hall (rankOk_lookup hall hg)
        (hrefs rv (List.mem_singleton.mpr rfl) w hg) hcirc hr

/-- The circular-check flag stays down through the inline-expression
bindings loop. -/
theorem inlineVarsLoop_circ (rank : String → Nat) (recur : EvalRecur)
    (hR : RecurCirc rank recur) (hI : RecurResIndep recur) (hP : RecurVarsPres recur) :
    ∀ (entries : List (String × ValueItem)) (pvars : List String) (scope : String)
      (origin parents : List String) (acc : List (String × BindVal)) st x st1,
      rankOkB rank st.vars = true →
      RefsBelow rank st.vars scope origin (inlineRefs scope entries) →
      st.circHit = false →
      inlineVarsLoop recur entries pvars scope origin parents acc st = .ok (x, st1) →
      st1.circHit = false := by
  intro entries
  induction entries with
  | nil =>
    intro pvars scope origin parents acc st x st1 hall hrefs hcirc h
    simp only [inlineVarsLoop, Except.ok.injEq, Prod.mk.injEq] at h
    rw [← h.2]
    exact hcirc
  | cons kv rest ih =>
    intro pvars scope origin parents acc st x st1 hall hrefs hcirc h
    obtain ⟨k, cur⟩ := kv
    have hsubrest : ∀ rv, rv ∈ inlineRefs scope rest →
        rv ∈ inlineRefs scope ((k, cur) :: rest) :=
      fun rv hrv => List.mem_append_right _ hrv
    simp only [inlineVarsLoop] at h
    by_cases hk : pvars.contains k = true
    · simp only [hk, Bool.not_true, Bool.false_eq_true, if_false] at h
      cases cur with
      | vstr s =>
        exact ih pvars scope origin parents (aset acc k (.bstr s)) st x st1 hall
          (RefsBelow_sub hsubrest hrefs) hcirc h
      | typed v t vs =>
        by_cases ht : t = "literal"
        · simp only [ht, beq_self_eq_true, if_true] at h
          exact ih pvars scope origin parents (aset acc k (.bstr v)) st x st1 hall
            (RefsBelow_sub hsubrest hrefs) hcirc h
        · simp only [beq_eq_false_iff_ne.mpr ht, Bool.false_eq_true, if_false] at h
          have hmemhead : normalizePath v scope ∈ inlineRefs scope ((k, .typed v t vs) :: rest) :=
            List.mem_append_left _ (by
              simp only [beq_eq_false_iff_ne.mpr ht, Bool.false_eq_true, if_false]
              exact List.mem_singleton.mpr rfl)
          cases hf : followRefBasic recur (normalizePath v scope) scope origin parents st with
          | error e => rw [hf] at h; exact absurd h (by simp)
          | ok q =>
            obtain ⟨l, u1⟩ := q
            rw [hf] at h
            have hcu : u1.circHit = false :=
              followRefBasic_circ rank recur hR (normalizePath v scope) scope origin
                parents st l u1 hall
                (RefsBelow_sub (fun rv hrv => by
                  rw [List.mem_singleton.mp hrv]; exact hmemhead) hrefs)
                hcirc hf
            have hvu : u1.vars = st.vars :=
              (followRefBasic_props recur hI hP).2 (normalizePath v scope) scope origin
                parents st l u1 hf
            cases l with
            | str followed =>
              dsimp only at h
              by_cases hm : followed = "[MISSING REFERENCE]"
              · rw [if_pos (by simp [hm])] at h
                simp only [Except.ok.injEq, Prod.mk.injEq] at h
                rw [← h.2]
                exact hcu
              · rw [if_neg (by simp [hm])] at h
                exact ih pvars scope origin parents (aset acc k (.bstr followed)) u1 x st1
                  (by rw [hvu]; exact hall)
                  (by rw [hvu]; exact RefsBelow_sub hsubrest hrefs) hcu h
            | lst followed =>
              dsimp only at h
              exact ih pvars scope origin parents
                (aset acc k (.bnums (followed.map jsParseFloat))) u1 x st1
                (by rw [hvu]; exact hall)
                (by rw [hvu]; exact RefsBelow_sub hsubrest hrefs) hcu h
    · have hk2 : pvars.contains k = false := by simpa using hk
      simp only [hk2, Bool.not_false, if_true] at h
      exact ih pvars scope origin parents acc st x st1 hall
        (RefsBelow_sub hsubrest hrefs) hcirc h

/-- The circular-check flag stays down through `#followReference`. -/
theorem followReferenceStep_circ (cap : ParserCap) (rank : String → Nat) (recur : EvalRecur)
    (hR : RecurCirc rank recur) (hI : RecurResIndep recur) (hP : RecurVarsPres recur) :
    ∀ rv rt rvars scope origin parents st x st1,
      ¬(rt = "literal") →
      rankOkB rank st.vars = true →
      RefsBelow rank st.vars scope origin (itemRefs scope (.typed rv rt rvars)) →
      st.circHit = false →
      followReferenceStep cap recur rv rt rvars scope origin parents st = .ok (x, st1) →
      st1.circHit = false := by
  intro rv rt rvars scope origin parents st x st1 hrt hall hrefs hcirc h
  simp only [followReferenceStep] at h
  by_cases hexp : rt = "expression"
  · subst hexp
    simp only [beq_self_eq_true, if_true] at h
    cases hpar : cap.parse rv with
    | error e => rw [hpar] at h; exact absurd h (by simp)
    | ok parsed =>
      rw [hpar] at h
      cases rvars with
      | none => exact absurd h (by simp)
      | some ivars =>
        dsimp only at h
        have hrefs' : RefsBelow rank st.vars scope origin (inlineRefs scope ivars) := hrefs
        cases hvl : inlineVarsLoop recur ivars parsed.freeVars scope origin parents [] st with
        | error e => rw [hvl] at h; exact absurd h (by simp)
        | ok q =>
          obtain ⟨xi, s1⟩ := q
          rw [hvl] at h
          have hcs1 : s1.circHit = false :=
            inlineVarsLoop_circ rank recur hR hI hP ivars parsed.freeVars scope origin
              parents [] st xi s1 hall hrefs' hcirc hvl
          cases xi with
          | inl input =>
            dsimp only at h
            cases hev : parsed.evalFn input with
            | error e => rw [hev] at h; exact absurd h (by simp)
            | ok evaluated =>
              rw [hev] at h
              simp only [Except.ok.injEq, Prod.mk.injEq] at h
              rw [← h.2]
              exact hcs1
          | inr l =>
            dsimp only at h
            simp only [Except.ok.injEq, Prod.mk.injEq] at h
            rw [← h.2]
            exact hcs1
  · simp only [beq_eq_false_iff_ne.mpr hexp, Bool.false_eq_true, if_false] at h
    have hrefs' : RefsBelow rank st.vars scope origin [rv] := by
      have heq : itemRefs scope (.typed rv rt rvars) = [rv] := by
        simp [itemRefs, beq_eq_false_iff_ne.mpr hrt, beq_eq_false_iff_ne.mpr hexp]
      rw [heq] at hrefs
      exact hrefs
    exact followRefBasic_circ rank recur hR rv scope origin parents st x st1 hall
      hrefs' hcirc h

/-- The circular-check flag stays down through `#evalCondition`. -/
theorem evalConditionStep_circ (cap : ParserCap) (rank : String → Nat) (recur : EvalRecur)
    (hR : RecurCirc rank recur) (hI : RecurResIndep recur) (hP : RecurVarsPres recur) :
    ∀ cond scope origin parents full st x st1,
      rankOkB rank st.vars = true →
      RefsBelow rank st.vars scope origin (condRefs scope cond) →
      st.circHit = false →
      evalConditionStep cap recur cond scope origin parents full st = .ok (x, st1) →
      st1.circHit = false := by
  intro cond scope origin parents full st x st1 hall hrefs hcirc h
  obtain ⟨cv1, cmp, cv2⟩ := cond
  simp only [evalConditionStep] at h
  split at h
  · exact absurd h (by simp)
  · rename_i val1 s1 heq1
    have h1 : s1.circHit = false ∧ s1.vars = st.vars := by
      cases cv1 with
      | vstr s =>
        simp only [Except.ok.injEq, Prod.mk.injEq] at heq1
        rw [← heq1.2]
        exact ⟨hcirc, rfl⟩
      | typed v t vs =>
        dsimp only at heq1
        by_cases ht : t = "literal"
        · simp only [ht, beq_self_eq_true, if_true, Except.ok.injEq, Prod.mk.injEq] at heq1
          rw [← heq1.2]
          exact ⟨hcirc, rfl⟩
        · simp only [beq_eq_false_iff_ne.mpr ht, Bool.false_eq_true, if_false] at heq1
          refine ⟨?_, (followReferenceStep_props cap recur hI hP).2 v t vs scope origin
            parents st val1 s1 heq1⟩
          exact followReferenceStep_circ cap rank recur hR hI hP v t vs scope origin
            parents st val1 s1 ht hall
            (RefsBelow_sub (fun rv hrv => List.mem_append_left _ hrv) hrefs) hcirc heq1
    split at h
    · exact absurd h (by simp)
    · rename_i val2 s2 heq2
      have h2 : s2.circHit = false := by
        cases cv2 with
        | vstr s =>
          simp only [Except.ok.injEq, Prod.mk.injEq] at heq2
          rw [← heq2.2]
          exact h1.1
        | typed v t vs =>
          dsimp only at heq2
          by_cases ht : t = "literal"
          · simp only [ht, beq_self_eq_true, if_true, Except.ok.injEq, Prod.mk.injEq] at heq2
            rw [← heq2.2]
            exact h1.1
          · simp only [beq_eq_false_iff_ne.mpr ht, Bool.false_eq_true, if_false] at heq2
            exact followReferenceStep_circ cap rank recur hR hI hP v t vs scope origin
              parents s1 val2 s2 ht (by rw [h1.2]; exact hall)
              (by rw [h1.2]
                  exact RefsBelow_sub (fun rv hrv => List.mem_append_right _ hrv) hrefs)
              h1.1 heq2
      simp only [Except.ok.injEq, Prod.mk.injEq] at h
      rw [← h.2]
      exact h2

/-- The circular-check flag stays down through the conditions loop. -/
theorem condsLoop_circ (cap : ParserCap) (rank : String → Nat) (recur : EvalRecur)
    (hR : RecurCirc rank recur) (hI : RecurResIndep recur) (hP : RecurVarsPres recur) :
    ∀ (conds : List Condition) scope origin parents st x st1,
      rankOkB rank st.vars = true →
      RefsBelow rank st.vars scope origin (conds.flatMap (condRefs scope)) →
      st.circHit = false →
      condsLoop cap recur conds scope origin parents st = .ok (x, st1) →
      st1.circHit = false := by
  intro conds
  induction conds with
  | nil =>
    intro scope origin parents st x st1 hall hrefs hcirc h
    simp only [condsLoop, Except.ok.injEq, Prod.mk.injEq] at h
    rw [← h.2]
    exact hcirc
  | cons c rest ih =>
    intro scope origin parents st x st1 hall hrefs hcirc h
    simp only [condsLoop] at h
    cases hc : evalConditionStep cap recur c scope origin parents false st with
    | error e => rw [hc] at h; exact absurd h (by simp)
    | ok p =>
      obtain ⟨co, s1⟩ := p
      rw [hc] at h
      dsimp only at h
      have hcs1 : s1.circHit = false :=
        evalConditionStep_circ cap rank recur hR hI hP c scope origin parents false st
          co s1 hall (RefsBelow_sub (fun rv hrv => List.mem_append_left _ hrv) hrefs)
          hcirc hc
      have hvs1 : s1.vars = st.vars :=
        (evalConditionStep_props cap recur hI hP).2 c scope origin parents false st co s1 hc
      by_cases ho : co.output = true
      · rw [if_pos ho] at h
        exact ih scope origin parents s1 x st1 (by rw [hvs1]; exact hall)
          (by rw [hvs1]
              exact RefsBelow_sub (fun rv hrv => List.mem_append_right _ hrv) hrefs)
          hcs1 h
      · rw [if_neg ho] at h
        simp only [Except.ok.injEq, Prod.mk.injEq] at h
        rw [← h.2]
        exact hcs1

/-- The circular-check flag stays down through the table row scan. -/
theorem scanRows_circ (cap : ParserCap) (rank : String → Nat) (recur : EvalRecur)
    (hR : RecurCirc rank recur) (hI : RecurResIndep recur) (hP : RecurVarsPres recur) :
    ∀ (rows : List TableRow) scope origin parents st x st1,
      rankOkB rank st.vars = true →
      RefsBelow rank st.vars scope origin (rows.flatMap (rowRefs scope)) →
      st.circHit = false →
      scanRows cap recur rows scope origin parents st = .ok (x, st1) →
      st1.circHit = false := by
  intro rows
  induction rows with
  | nil =>
    intro scope origin parents st x st1 hall hrefs hcirc h
    simp only [scanRows, Except.ok.injEq, Prod.mk.injEq] at h
    rw [← h.2]
    exact hcirc
  | cons row rest ih =>
    intro scope origin parents st x st1 hall hrefs hcirc h
    obtain ⟨rc, ro⟩ := row
    simp only [scanRows] at h
    cases hc : condsLoop cap recur rc scope origin parents st with
    | error e => rw [hc] at h; exact absurd h (by simp)
    | ok p =>
      obtain ⟨b, s1⟩ := p
      rw [hc] at h
      have hcs1 : s1.circHit = false :=
        condsLoop_circ cap rank recur hR hI hP rc scope origin parents st b s1 hall
          (RefsBelow_sub (fun rv hrv =>
            List.mem_append_left _ (List.mem_append_left _ hrv)) hrefs)
          hcirc hc
      have hvs1 : s1.vars = st.vars :=
        (condsLoop_props cap recur hI hP rc scope origin parents).2 st b s1 hc
      cases b with
      | false =>
        dsimp only at h
        exact ih scope origin parents s1 x st1 (by rw [hvs1]; exact hall)
          (by rw [hvs1]
              exact RefsBelow_sub (fun rv hrv => List.mem_append_right _ hrv) hrefs)
          hcs1 h
      | true =>
        dsimp only at h
        cases ro with
        | vstr s =>
          simp only [Except.ok.injEq, Prod.mk.injEq] at h
          rw [← h.2]
          exact hcs1
        | typed v t vs =>
          dsimp only at h
          by_cases ht : t = "literal"
          · rw [if_pos (by simp [ht])] at h
            simp only [Except.ok.injEq, Prod.mk.injEq] at h
            rw [← h.2]
            exact hcs1
          · rw [if_neg (by simp [ht])] at h
            cases hf : followReferenceStep cap recur v t vs scope origin parents s1 with
            | error e => rw [hf] at h; exact absurd h (by simp)
            | ok q =>
              obtain ⟨l, s2⟩ := q
              rw [hf] at h
              dsimp only at h
              simp only [Except.ok.injEq, Prod.mk.injEq] at h
              rw [← h.2]
              exact followReferenceStep_circ cap rank recur hR hI hP v t vs scope origin
                parents s1 l s2 ht (by rw [hvs1]; exact hall)
                (by rw [hvs1]
                    exact RefsBelow_sub (fun rv hrv =>
                      List.mem_append_left _ (List.mem_append_right _ hrv)) hrefs)
                hcs1 hf

/-- The circular-check flag stays down through the list loop. -/
theorem listLoop_circ (cap : ParserCap) (rank : String → Nat) (recur : EvalRecur)
    (hR : RecurCirc rank recur) (hI : RecurResIndep recur) (hP : RecurVarsPres recur) :
    ∀ (items : List ValueItem) scope origin parents acc st x st1,
      rankOkB rank st.vars = true →
      RefsBelow rank st.vars scope origin (items.flatMap (itemRefs scope)) →
      st.circHit = false →
      listLoop cap recur items scope origin parents acc st = .ok (x, st1) →
      st1.circHit = false := by
  intro items
  induction items with
  | nil =>
    intro scope origin parents acc st x st1 hall hrefs hcirc h
    simp only [listLoop, Except.ok.injEq, Prod.mk.injEq] at h
    rw [← h.2]
    exact hcirc
  | cons e rest ih =>
    intro scope origin parents acc st x st1 hall hrefs hcirc h
    simp only [listLoop] at h
    cases e with
    | vstr s =>
      exact ih scope origin parents (acc ++ [s]) st x st1 hall
        (RefsBelow_sub (fun rv hrv => List.mem_append_right _ hrv) hrefs) hcirc h
    | typed v t vs =>
      dsimp only at h
      by_cases ht : t = "literal"
      · rw [if_pos (by simp [ht])] at h
        exact ih scope origin parents (acc ++ [v]) st x st1 hall
          (RefsBelow_sub (fun rv hrv => List.mem_append_right _ hrv) hrefs) hcirc h
      · rw [if_neg (by simp [ht])] at h
        cases hf : followReferenceStep cap recur v t vs scope origin parents st with
        | error er => rw [hf] at h; exact absurd h (by simp)
        | ok q =>
          obtain ⟨l, u1⟩ := q
          rw [hf] at h
          have hcu : u1.circHit = false :=
            followReferenceStep_circ cap rank recur hR hI hP v t vs scope origin parents
              st l u1 ht hall
              (RefsBelow_sub (fun rv hrv => List.mem_append_left _ hrv) hrefs) hcirc hf
          have hvu : u1.vars = st.vars :=
            (followReferenceStep_props cap recur hI hP).2 v t vs scope origin parents
              st l u1 hf
          cases l with
          | lst current =>
            dsimp only at h
            exact ih scope origin parents (acc ++ current) u1 x st1
              (by rw [hvu]; exact hall)
              (by rw [hvu]
                  exact RefsBelow_sub (fun rv hrv => List.mem_append_right _ hrv) hrefs)
              hcu h
          | str current =>
            dsimp only at h
            by_cases hm : current = "[MISSING REFERENCE]"
            · rw [if_pos (by simp [hm])] at h
              exact ih scope origin parents (acc ++ ["[MISSING " ++ v ++ "]"]) u1 x st1
                (by rw [hvu]; exact hall)
                (by rw [hvu]
                    exact RefsBelow_sub (fun rv hrv => List.mem_append_right _ hrv) hrefs)
                hcu h
            · rw [if_neg (by simp [hm])] at h
              exact ih scope origin parents (acc ++ [current]) u1 x st1
                (by rw [hvu]; exact hall)
                (by rw [hvu]
                    exact RefsBelow_sub (fun rv hrv => List.mem_append_right _ hrv) hrefs)
                hcu h

/-- The circular-check flag stays down through the expression-text
resolution. -/
theorem exprToParse_circ (cap : ParserCap) (rank : String → Nat) (recur : EvalRecur)
    (hR : RecurCirc rank recur) (hI : RecurResIndep recur) (hP : RecurVarsPres recur) :
    ∀ (value : VarData) origin parents st x st1,
      rankOkB rank st.vars = true →
      RefsBelow rank st.vars value.scope origin (varRefs value) →
      st.circHit = false →
      exprToParse cap recur value origin parents st = .ok (x, st1) →
      st1.circHit = false := by
  intro value origin parents st x st1 hall hrefs hcirc h
  simp only [exprToParse] at h
  cases hvv : value.value with
  | one vi =>
    rw [hvv] at h
    cases vi with
    | vstr s =>
      dsimp only at h
      simp only [Except.ok.injEq, Prod.mk.injEq] at h
      rw [← h.2]
      exact hcirc
    | typed v t vs =>
      dsimp only at h
      by_cases ht : t = "literal"
      · rw [if_pos (by simp [ht])] at h
        simp only [Except.ok.injEq, Prod.mk.injEq] at h
        rw [← h.2]
        exact hcirc
      · rw [if_neg (by simp [ht])] at h
        cases hf : followReferenceStep cap recur v t vs value.scope origin parents st with
        | error er => rw [hf] at h; exact absurd h (by simp)
        | ok q =>
          obtain ⟨l, u1⟩ := q
          rw [hf] at h
          have hcu : u1.circHit = false :=
            followReferenceStep_circ cap rank recur hR hI hP v t vs value.scope origin
              parents st l u1 ht hall
              (RefsBelow_sub (fun rv hrv => by
                simp only [varRefs, hvv]
                exact List.mem_append_left _
                  (List.mem_append_left _ (List.mem_append_left _ hrv))) hrefs)
              hcirc hf
          cases l with
          | lst current =>
            dsimp only at h
            simp only [Except.ok.injEq, Prod.mk.injEq] at h
            rw [← h.2]
            exact hcu
          | str s =>
            dsimp only at h
            simp only [Except.ok.injEq, Prod.mk.injEq] at h
            rw [← h.2]
            exact hcu
  | arr items => rw [hvv] at h; exact absurd h (by simp)
  | rows r => rw [hvv] at h; exact absurd h (by simp)

/-- The circular-check flag stays down through the functions loop. -/
theorem exprFnsLoop_circ (cap : ParserCap) (rank : String → Nat) (recur : EvalRecur)
    (hR : RecurCirc rank recur) (hI : RecurResIndep recur) (hP : RecurVarsPres recur) :
    ∀ (fns : List ValueItem) scope origin parents acc st x st1,
      rankOkB rank st.vars = true →
      RefsBelow rank st.vars scope origin (fns.flatMap (itemRefs scope)) →
      st.circHit = false →
      exprFnsLoop cap recur fns scope origin parents acc st = .ok (x, st1) →
      st1.circHit = false := by
  intro fns
  induction fns with
  | nil =>
    intro scope origin parents acc st x st1 hall hrefs hcirc h
    simp only [exprFnsLoop, Except.ok.injEq, Prod.mk.injEq] at h
    rw [← h.2]
    exact hcirc
  | cons i rest ih =>
    intro scope origin parents acc st x st1 hall hrefs hcirc h
    simp only [exprFnsLoop] at h
    cases i with
    | vstr s =>
      exact ih scope origin parents (acc ++ s ++ "; ") st x st1 hall
        (RefsBelow_sub (fun rv hrv => List.mem_append_right _ hrv) hrefs) hcirc h
    | typed v t vs =>
      dsimp only at h
      by_cases ht : t = "literal"
      · rw [if_pos (by simp [ht])] at h
        exact ih scope origin parents (acc ++ v ++ "; ") st x st1 hall
          (RefsBelow_sub (fun rv hrv => List.mem_append_right _ hrv) hrefs) hcirc h
      · rw [if_neg (by simp [ht])] at h
        cases hf : followReferenceStep cap recur v t vs scope origin parents st with
        | error er => rw [hf] at h; exact absurd h (by simp)
        | ok q =>
          obtain ⟨l, u1⟩ := q
          rw [hf] at h
          have hcu : u1.circHit = false :=
            followReferenceStep_circ cap rank recur hR hI hP v t vs scope origin parents
              st l u1 ht hall
              (RefsBelow_sub (fun rv hrv => List.mem_append_left _ hrv) hrefs) hcirc hf
          have hvu : u1.vars = st.vars :=
            (followReferenceStep_props cap recur hI hP).2 v t vs scope origin parents
              st l u1 hf
          cases l with
          | lst func =>
            dsimp only at h
            exact ih scope origin parents
              (acc ++ String.join (func.map (fun e => e ++ "; "))) u1 x st1
              (by rw [hvu]; exact hall)
              (by rw [hvu]
                  exact RefsBelow_sub (fun rv hrv => List.mem_append_right _ hrv) hrefs)
              hcu h
          | str func =>
            dsimp only at h
            by_cases hm : func = "[MISSING REFERENCE]"
            · rw [if_pos (by simp [hm])] at h
              simp only [Except.ok.injEq, Prod.mk.injEq] at h
              rw [← h.2]
              exact hcu
            · rw [if_neg (by simp [hm])] at h
              exact ih scope origin parents (acc ++ func ++ "; ") u1 x st1
                (by rw [hvu]; exact hall)
                (by rw [hvu]
                    exact RefsBelow_sub (fun rv hrv => List.mem_append_right _ hrv) hrefs)
                hcu h

/-- The circular-check flag stays down through the expression bindings
loop. -/
theorem exprVarsLoop_circ (cap : ParserCap) (rank : String → Nat) (recur : EvalRecur)
    (hR : RecurCirc rank recur) (hI : RecurResIndep recur) (hP : RecurVarsPres recur) :
    ∀ (entries : List (String × ValueItem)) pvars scope origin parents acc st x st1,
      rankOkB rank st.vars = true →
      RefsBelow rank st.vars scope origin
        (entries.flatMap (fun kv => itemRefs scope kv.2)) →
      st.circHit = false →
      exprVarsLoop cap recur entries pvars scope origin parents acc st = .ok (x, st1) →
      st1.circHit = false := by
  intro entries
  induction entries with
  | nil =>
    intro pvars scope origin parents acc st x st1 hall hrefs hcirc h
    simp only [exprVarsLoop, Except.ok.injEq, Prod.mk.injEq] at h
    rw [← h.2]
    exact hcirc
  | cons kv rest ih =>
    intro pvars scope origin parents acc st x st1 hall hrefs hcirc h
    obtain ⟨k, cur⟩ := kv
    have hsubrest : ∀ rv, rv ∈ rest.flatMap (fun kv => itemRefs scope kv.2) →
        rv ∈ ((k, cur) :: rest).flatMap (fun kv => itemRefs scope kv.2) :=
      fun rv hrv => List.mem_append_right _ hrv
    simp only [exprVarsLoop] at h
    by_cases hk : pvars.contains k = true
    · simp only [hk, Bool.not_true, Bool.false_eq_true, if_false] at h
      cases cur with
      | vstr s =>
        exact ih pvars scope origin parents (aset acc k (.bstr s)) st x st1 hall
          (RefsBelow_sub hsubrest hrefs) hcirc h
      | typed v t vs =>
        by_cases ht : t = "literal"
        · simp only [ht, beq_self_eq_true, if_true] at h
          exact ih pvars scope origin parents (aset acc k (.bstr v)) st x st1 hall
            (RefsBelow_sub hsubrest hrefs) hcirc h
        · simp only [beq_eq_false_iff_ne.mpr ht, Bool.false_eq_true, if_false] at h
          cases hf : followReferenceStep cap recur v t vs scope origin parents st with
          | error er => rw [hf] at h; exact absurd h (by simp)
          | ok q =>
            obtain ⟨l, u1⟩ := q
            rw [hf] at h
            have hcu : u1.circHit = false :=
              followReferenceStep_circ cap rank recur hR hI hP v t vs scope origin
                parents st l u1 ht hall
                (RefsBelow_sub (fun rv hrv => List.mem_append_left _ hrv) hrefs) hcirc hf
            have hvu : u1.vars = st.vars :=
              (followReferenceStep_props cap recur hI hP).2 v t vs scope origin parents
                st l u1 hf
            cases l with
            | str followed =>
              dsimp only at h
              by_cases hm : followed = "[MISSING REFERENCE]"
              · rw [if_pos (by simp [hm])] at h
                simp only [Except.ok.injEq, Prod.mk.injEq] at h
                rw [← h.2]
                exact hcu
              · rw [if_neg (by simp [hm])] at h
                exact ih pvars scope origin parents (aset acc k (.bstr followed)) u1 x st1
                  (by rw [hvu]; exact hall)
                  (by rw [hvu]; exact RefsBelow_sub hsubrest hrefs) hcu h
            | lst followed =>
              dsimp only at h
              exact ih pvars scope origin parents
                (aset acc k (.bnums (followed.map jsParseFloat))) u1 x st1
                (by rw [hvu]; exact hall)
                (by rw [hvu]; exact RefsBelow_sub hsubrest hrefs) hcu h
    · have hk2 : pvars.contains k = false := by simpa using hk
      simp only [hk2, Bool.not_false, if_true] at h
      exact ih pvars scope origin parents acc st x st1 hall
        (RefsBelow_sub hsubrest hrefs) hcirc h

/-- The circular-check flag stays down through one unfolding of
`#evaluate` when the store's reference graph has a topological rank. -/
theorem evaluateStep_circ (cap : ParserCap) (rank : String → Nat) (recur : EvalRecur)
    (hR : RecurCirc rank recur) (hI : RecurResIndep recur) (hP : RecurVarsPres recur) :
    ∀ value origin parents st x st1,
      rankOkB rank st.vars = true →
      varRefsOkB rank st.vars value = true →
      OriginBelow rank origin (rank (getPath value.name value.scope)) →
      st.circHit = false →
      evaluateStep cap recur value origin parents st = .ok (x, st1) →
      st1.circHit = false := by
  intro value origin parents st x st1 hall hvok horig hcirc h
  simp only [evaluateStep] at h
  have hmem : getPath value.name value.scope ∉ origin := fun hmem =>
    absurd (horig _ hmem) (lt_irrefl _)
  have hcontains : origin.contains (getPath value.name value.scope) = false := by
    simpa using hmem
  have hcircC : ¬(origin.contains (getPath value.name value.scope) = true) := by
    rw [hcontains]; exact Bool.false_ne_true
  rw [if_neg hcircC] at h
  have hsadd : sAdd origin (getPath value.name value.scope)
      = origin ++ [getPath value.name value.scope] := by
    simp [sAdd, hcontains, hmem]
  have hRB : RefsBelow rank st.vars value.scope
      (sAdd origin (getPath value.name value.scope)) (varRefs value) := by
    intro rv hrv w hw p hp
    have hlt := varRefsOkB_spec hvok rv hrv w hw
    rw [hsadd] at hp
    rcases List.mem_append.mp hp with hpo | hpt
    · exact lt_trans hlt (horig p hpo)
    · have hpe : p = getPath value.name value.scope := by simpa using hpt
      rw [hpe]
      exact hlt
  by_cases hb : value.varType = "basic"
  · have hbC : (value.varType == "basic") = true := by simp [hb]
    rw [if_pos hbC] at h
    cases hvv : value.value with
    | one vi =>
      rw [hvv] at h
      cases vi with
      | vstr s =>
        dsimp only at h
        simp only [Except.ok.injEq, Prod.mk.injEq] at h
        rw [← h.2]
        exact hcirc
      | typed v t vs =>
        dsimp only at h
        by_cases hin : (["literal", "reference", "expression"].contains t) = true
        · have hinC : ¬((!(["literal", "reference", "expression"].contains t)) = true) := by
            rw [hin]; decide
          rw [if_neg hinC] at h
          by_cases ht : t = "literal"
          · have hlit : (t == "literal") = true := by simp [ht]
            rw [if_pos hlit] at h
            simp only [Except.ok.injEq, Prod.mk.injEq] at h
            rw [← h.2]
            exact hcirc
          · have hlit : ¬((t == "literal") = true) := by simp [ht]
            rw [if_neg hlit] at h
            exact followReferenceStep_circ cap rank recur hR hI hP v t vs value.scope
              (sAdd origin (getPath value.name value.scope))
              (parents ++ [getPath value.name value.scope]) { st with deps := depsInitAdd st.deps (getPath value.name value.scope) parents }
              x st1 ht hall
              (RefsBelow_sub (fun rv hrv => by
                simp only [varRefs, hvv]
                exact List.mem_append_left _
                  (List.mem_append_left _ (List.mem_append_left _ hrv))) hRB)
              hcirc h
        · have hin2 : (["literal", "reference", "expression"].contains t) = false := by
            rw [Bool.not_eq_true] at hin; exact hin
          have hinC : ((!(["literal", "reference", "expression"].contains t)) = true) := by
            rw [hin2]; decide
          rw [if_pos hinC] at h
          exact absurd h (by simp)
    | arr items => rw [hvv] at h; exact absurd h (by simp)
    | rows r => rw [hvv] at h; exact absurd h (by simp)
  · have hbC : ¬((value.varType == "basic") = true) := by simp [hb]
    rw [if_neg hbC] at h
    by_cases hl : value.varType = "list"
    · have hlC : (value.varType == "list") = true := by simp [hl]
      rw [if_pos hlC] at h
      cases hvv : value.value with
      | one vi => rw [hvv] at h; exact absurd h (by simp)
      | arr items =>
        rw [hvv] at h
        exact listLoop_circ cap rank recur hR hI hP items value.scope
          (sAdd origin (getPath value.name value.scope))
          (parents ++ [getPath value.name value.scope]) []
          { st with deps := depsInitAdd st.deps (getPath value.name value.scope) parents } x st1 hall
          (RefsBelow_sub (fun rv hrv => by
            simp only [varRefs, hvv]
            exact List.mem_append_left _
              (List.mem_append_left _ (List.mem_append_left _ hrv))) hRB)
          hcirc h
      | rows r =>
        rw [hvv] at h
        cases r with
        | nil =>
          dsimp only at h
          simp only [Except.ok.injEq, Prod.mk.injEq] at h
          rw [← h.2]
          exact hcirc
        | cons a as => exact absurd h (by simp)
    · have hlC : ¬((value.varType == "list") = true) := by simp [hl]
      rw [if_neg hlC] at h
      by_cases htb : value.varType = "table"
      · have htbC : (value.varType == "table") = true := by simp [htb]
        rw [if_pos htbC] at h
        cases hp : value.priority with
        | none =>
          rw [hp] at h
          dsimp only at h
          have hpC : ((!false) = true) := by decide
          rw [if_pos hpC] at h
          exact absurd h (by simp)
        | some p =>
          rw [hp] at h
          dsimp only at h
          by_cases hpl : (["first", "last"].contains p) = true
          · have hpC : ¬((!(["first", "last"].contains p)) = true) := by
              rw [hpl]; decide
            rw [if_neg hpC] at h
            cases hd : value.dflt with
            | none =>
              rw [hd] at h
              dsimp only at h
              have hdC : ((!false) = true) := by decide
              rw [if_pos hdC] at h
              exact absurd h (by simp)
            | some dvi =>
              rw [hd] at h
              cases dvi with
              | vstr ds =>
                dsimp only at h
                have hdC : ¬((!true) = true) := by decide
                rw [if_neg hdC] at h
                cases hvv : value.value with
                | one vi => rw [hvv] at h; exact absurd h (by simp)
                | arr items =>
                  rw [hvv] at h
                  cases items with
                  | nil =>
                    dsimp only at h
                    by_cases hpf : (some p == some "first") = true
                    · rw [if_pos hpf] at h
                      cases hs : scanRows cap recur ([] : List TableRow)
                          value.scope (sAdd origin (getPath value.name value.scope))
                          (parents ++ [getPath value.name value.scope])
                          { st with deps := depsInitAdd st.deps (getPath value.name value.scope) parents } with
                      | error e => rw [hs] at h; exact absurd h (by simp)
                      | ok q =>
                        obtain ⟨xr, u1⟩ := q
                        rw [hs] at h
                        have hcs1 : u1.circHit = false :=
                          scanRows_circ cap rank recur hR hI hP ([] : List TableRow) value.scope
                            (sAdd origin (getPath value.name value.scope))
                            (parents ++ [getPath value.name value.scope])
                            { st with deps := depsInitAdd st.deps (getPath value.name value.scope) parents } xr u1 hall
                            (RefsBelow_sub (fun rv hrv => absurd hrv (by simp)) hRB)
                            hcirc hs
                        have hvs1 : u1.vars = st.vars :=
                          (scanRows_props cap recur hI hP _ value.scope _ _).2 { st with deps := depsInitAdd st.deps (getPath value.name value.scope) parents } xr u1 hs
                        cases xr with
                        | some l =>
                          dsimp only at h
                          simp only [Except.ok.injEq, Prod.mk.injEq] at h
                          rw [← h.2]
                          exact hcs1
                        | none =>
                        dsimp only at h
                        simp only [Except.ok.injEq, Prod.mk.injEq] at h
                        rw [← h.2]
                        exact hcs1
                    · rw [if_neg hpf] at h
                      cases hs : scanRows cap recur (List.reverse ([] : List TableRow))
                          value.scope (sAdd origin (getPath value.name value.scope))
                          (parents ++ [getPath value.name value.scope])
                          { st with deps := depsInitAdd st.deps (getPath value.name value.scope) parents } with
                      | error e => rw [hs] at h; exact absurd h (by simp)
                      | ok q =>
                        obtain ⟨xr, u1⟩ := q
                        rw [hs] at h
                        have hcs1 : u1.circHit = false :=
                          scanRows_circ cap rank recur hR hI hP (List.reverse ([] : List TableRow)) value.scope
                            (sAdd origin (getPath value.name value.scope))
                            (parents ++ [getPath value.name value.scope])
                            { st with deps := depsInitAdd st.deps (getPath value.name value.scope) parents } xr u1 hall
                            (RefsBelow_sub (fun rv hrv => absurd hrv (by simp)) hRB)
                            hcirc hs
                        have hvs1 : u1.vars = st.vars :=
                          (scanRows_props cap recur hI hP _ value.scope _ _).2 { st with deps := depsInitAdd st.deps (getPath value.name value.scope) parents } xr u1 hs
                        cases xr with
                        | some l =>
                          dsimp only at h
                          simp only [Except.ok.injEq, Prod.mk.injEq] at h
                          rw [← h.2]
                          exact hcs1
                        | none =>
                        dsimp only at h
                        simp only [Except.ok.injEq, Prod.mk.injEq] at h
                        rw [← h.2]
                        exact hcs1
                  | cons i is => exact absurd h (by simp)
                | rows rows =>
                  rw [hvv] at h
                  dsimp only at h
                  by_cases hpf : (some p == some "first") = true
                  · rw [if_pos hpf] at h
                    cases hs : scanRows cap recur rows
                        value.scope (sAdd origin (getPath value.name value.scope))
                        (parents ++ [getPath value.name value.scope])
                        { st with deps := depsInitAdd st.deps (getPath value.name value.scope) parents } with
                    | error e => rw [hs] at h; exact absurd h (by simp)
                    | ok q =>
                      obtain ⟨xr, u1⟩ := q
                      rw [hs] at h
                      have hcs1 : u1.circHit = false :=
                        scanRows_circ cap rank recur hR hI hP rows value.scope
                          (sAdd origin (getPath value.name value.scope))
                          (parents ++ [getPath value.name value.scope])
                          { st with deps := depsInitAdd st.deps (getPath value.name value.scope) parents } xr u1 hall
                          (RefsBelow_sub (fun rv hrv => by
                                  simp only [varRefs, hvv]
                                  exact List.mem_append_left _
                                    (List.mem_append_left _ (List.mem_append_left _ hrv))) hRB)
                          hcirc hs
                      have hvs1 : u1.vars = st.vars :=
                        (scanRows_props cap recur hI hP _ value.scope _ _).2 { st with deps := depsInitAdd st.deps (getPath value.name value.scope) parents } xr u1 hs
                      cases xr with
                      | some l =>
                        dsimp only at h
                        simp only [Except.ok.injEq, Prod.mk.injEq] at h
                        rw [← h.2]
                        exact hcs1
                      | none =>
                      dsimp only at h
                      simp only [Except.ok.injEq, Prod.mk.injEq] at h
                      rw [← h.2]
                      exact hcs1
                  · rw [if_neg hpf] at h
                    cases hs : scanRows cap recur rows.reverse
                        value.scope (sAdd origin (getPath value.name value.scope))
                        (parents ++ [getPath value.name value.scope])
                        { st with deps := depsInitAdd st.deps (getPath value.name value.scope) parents } with
                    | error e => rw [hs] at h; exact absurd h (by simp)
                    | ok q =>
                      obtain ⟨xr, u1⟩ := q
                      rw [hs] at h
                      have hcs1 : u1.circHit = false :=
                        scanRows_circ cap rank recur hR hI hP rows.reverse value.scope
                          (sAdd origin (getPath value.name value.scope))
                          (parents ++ [getPath value.name value.scope])
                          { st with deps := depsInitAdd st.deps (getPath value.name value.scope) parents } xr u1 hall
                          (RefsBelow_sub (fun rv hrv => by
                                  rcases List.mem_flatMap.mp hrv with ⟨row, hrow, hrv2⟩
                                  have hrv3 : rv ∈ rows.flatMap (rowRefs value.scope) :=
                                    List.mem_flatMap.mpr ⟨row, List.mem_reverse.mp hrow, hrv2⟩
                                  simp only [varRefs, hvv]
                                  exact List.mem_append_left _
                                    (List.mem_append_left _ (List.mem_append_left _ hrv3))) hRB)
                          hcirc hs
                      have hvs1 : u1.vars = st.vars :=
                        (scanRows_props cap recur hI hP _ value.scope _ _).2 { st with deps := depsInitAdd st.deps (getPath value.name value.scope) parents } xr u1 hs
                      cases xr with
                      | some l =>
                        dsimp only at h
                        simp only [Except.ok.injEq, Prod.mk.injEq] at h
                        rw [← h.2]
                        exact hcs1
                      | none =>
                      dsimp only at h
                      simp only [Except.ok.injEq, Prod.mk.injEq] at h
                      rw [← h.2]
                      exact hcs1
              | typed dv dt dvs =>
                dsimp only at h
                by_cases hint : (["literal", "reference", "expression"].contains dt) = true
                · have hdC : ¬((!(["literal", "reference", "expression"].contains dt))
                      = true) := by rw [hint]; decide
                  rw [if_neg hdC] at h
                  cases hvv : value.value with
                  | one vi => rw [hvv] at h; exact absurd h (by simp)
                  | arr items =>
                    rw [hvv] at h
                    cases items with
                    | nil =>
                      dsimp only at h
                      by_cases hpf : (some p == some "first") = true
                      · rw [if_pos hpf] at h
                        cases hs : scanRows cap recur ([] : List TableRow)
                            value.scope (sAdd origin (getPath value.name value.scope))
                            (parents ++ [getPath value.name value.scope])
                            { st with deps := depsInitAdd st.deps (getPath value.name value.scope) parents } with
                        | error e => rw [hs] at h; exact absurd h (by simp)
                        | ok q =>
                          obtain ⟨xr, u1⟩ := q
                          rw [hs] at h
                          have hcs1 : u1.circHit = false :=
                            scanRows_circ cap rank recur hR hI hP ([] : List TableRow) value.scope
                              (sAdd origin (getPath value.name value.scope))
                              (parents ++ [getPath value.name value.scope])
                              { st with deps := depsInitAdd st.deps (getPath value.name value.scope) parents } xr u1 hall
                              (RefsBelow_sub (fun rv hrv => absurd hrv (by simp)) hRB)
                              hcirc hs
                          have hvs1 : u1.vars = st.vars :=
                            (scanRows_props cap recur hI hP _ value.scope _ _).2 { st with deps := depsInitAdd st.deps (getPath value.name value.scope) parents } xr u1 hs
                          cases xr with
                          | some l =>
                            dsimp only at h
                            simp only [Except.ok.injEq, Prod.mk.injEq] at h
                            rw [← h.2]
                            exact hcs1
                          | none =>
                          dsimp only at h
                          by_cases hdt : dt = "literal"
                          · rw [if_pos (by simp [hdt])] at h
                            simp only [Except.ok.injEq, Prod.mk.injEq] at h
                            rw [← h.2]
                            exact hcs1
                          · rw [if_neg (by simp [hdt])] at h
                            exact followReferenceStep_circ cap rank recur hR hI hP dv dt dvs value.scope
                              (sAdd origin (getPath value.name value.scope)) (parents ++ [getPath value.name value.scope]) u1 x st1 hdt
                              (by rw [hvs1]; exact hall)
                              (by rw [hvs1]
                                  exact RefsBelow_sub (fun rv hrv => by
                                    simp only [varRefs, hd]
                                    exact List.mem_append_left _
                                      (List.mem_append_left _ (List.mem_append_right _ hrv))) hRB)
                              hcs1 h
                      · rw [if_neg hpf] at h
                        cases hs : scanRows cap recur (List.reverse ([] : List TableRow))
                            value.scope (sAdd origin (getPath value.name value.scope))
                            (parents ++ [getPath value.name value.scope])
                            { st with deps := depsInitAdd st.deps (getPath value.name value.scope) parents } with
                        | error e => rw [hs] at h; exact absurd h (by simp)
                        | ok q =>
                          obtain ⟨xr, u1⟩ := q
                          rw [hs] at h
                          have hcs1 : u1.circHit = false :=
                            scanRows_circ cap rank recur hR hI hP (List.reverse ([] : List TableRow)) value.scope
                              (sAdd origin (getPath value.name value.scope))
                              (parents ++ [getPath value.name value.scope])
                              { st with deps := depsInitAdd st.deps (getPath value.name value.scope) parents } xr u1 hall
                              (RefsBelow_sub (fun rv hrv => absurd hrv (by simp)) hRB)
                              hcirc hs
                          have hvs1 : u1.vars = st.vars :=
                            (scanRows_props cap recur hI hP _ value.scope _ _).2 { st with deps := depsInitAdd st.deps (getPath value.name value.scope) parents } xr u1 hs
                          cases xr with
                          | some l =>
                            dsimp only at h
                            simp only [Except.ok.injEq, Prod.mk.injEq] at h
                            rw [← h.2]
                            exact hcs1
                          | none =>
                          dsimp only at h
                          by_cases hdt : dt = "literal"
                          · rw [if_pos (by simp [hdt])] at h
                            simp only [Except.ok.injEq, Prod.mk.injEq] at h
                            rw [← h.2]
                            exact hcs1
                          · rw [if_neg (by simp [hdt])] at h
                            exact followReferenceStep_circ cap rank recur hR hI hP dv dt dvs value.scope
                              (sAdd origin (getPath value.name value.scope)) (parents ++ [getPath value.name value.scope]) u1 x st1 hdt
                              (by rw [hvs1]; exact hall)
                              (by rw [hvs1]
                                  exact RefsBelow_sub (fun rv hrv => by
                                    simp only [varRefs, hd]
                                    exact List.mem_append_left _
                                      (List.mem_append_left _ (List.mem_append_right _ hrv))) hRB)
                              hcs1 h
                    | cons i is => exact absurd h (by simp)
                  | rows rows =>
                    rw [hvv] at h
                    dsimp only at h
                    by_cases hpf : (some p == some "first") = true
                    · rw [if_pos hpf] at h
                      cases hs : scanRows cap recur rows
                          value.scope (sAdd origin (getPath value.name value.scope))
                          (parents ++ [getPath value.name value.scope])
                          { st with deps := depsInitAdd st.deps (getPath value.name value.scope) parents } with
                      | error e => rw [hs] at h; exact absurd h (by simp)
                      | ok q =>
                        obtain ⟨xr, u1⟩ := q
                        rw [hs] at h
                        have hcs1 : u1.circHit = false :=
                          scanRows_circ cap rank recur hR hI hP rows value.scope
                            (sAdd origin (getPath value.name value.scope))
                            (parents ++ [getPath value.name value.scope])
                            { st with deps := depsInitAdd st.deps (getPath value.name value.scope) parents } xr u1 hall
                            (RefsBelow_sub (fun rv hrv => by
                                    simp only [varRefs, hvv]
                                    exact List.mem_append_left _
                                      (List.mem_append_left _ (List.mem_append_left _ hrv))) hRB)
                            hcirc hs
                        have hvs1 : u1.vars = st.vars :=
                          (scanRows_props cap recur hI hP _ value.scope _ _).2 { st with deps := depsInitAdd st.deps (getPath value.name value.scope) parents } xr u1 hs
                        cases xr with
                        | some l =>
                          dsimp only at h
                          simp only [Except.ok.injEq, Prod.mk.injEq] at h
                          rw [← h.2]
                          exact hcs1
                        | none =>
                        dsimp only at h
                        by_cases hdt : dt = "literal"
                        · rw [if_pos (by simp [hdt])] at h
                          simp only [Except.ok.injEq, Prod.mk.injEq] at h
                          rw [← h.2]
                          exact hcs1
                        · rw [if_neg (by simp [hdt])] at h
                          exact followReferenceStep_circ cap rank recur hR hI hP dv dt dvs value.scope
                            (sAdd origin (getPath value.name value.scope)) (parents ++ [getPath value.name value.scope]) u1 x st1 hdt
                            (by rw [hvs1]; exact hall)
                            (by rw [hvs1]
                                exact RefsBelow_sub (fun rv hrv => by
                                  simp only [varRefs, hd]
                                  exact List.mem_append_left _
                                    (List.mem_append_left _ (List.mem_append_right _ hrv))) hRB)
                            hcs1 h
                    · rw [if_neg hpf] at h
                      cases hs : scanRows cap recur rows.reverse
                          value.scope (sAdd origin (getPath value.name value.scope))
                          (parents ++ [getPath value.name value.scope])
                          { st with deps := depsInitAdd st.deps (getPath value.name value.scope) parents } with
                      | error e => rw [hs] at h; exact absurd h (by simp)
                      | ok q =>
                        obtain ⟨xr, u1⟩ := q
                        rw [hs] at h
                        have hcs1 : u1.circHit = false :=
                          scanRows_circ cap rank recur hR hI hP rows.reverse value.scope
                            (sAdd origin (getPath value.name value.scope))
                            (parents ++ [getPath value.name value.scope])
                            { st with deps := depsInitAdd st.deps (getPath value.name value.scope) parents } xr u1 hall
                            (RefsBelow_sub (fun rv hrv => by
                                    rcases List.mem_flatMap.mp hrv with ⟨row, hrow, hrv2⟩
                                    have hrv3 : rv ∈ rows.flatMap (rowRefs value.scope) :=
                                      List.mem_flatMap.mpr ⟨row, List.mem_reverse.mp hrow, hrv2⟩
                                    simp only [varRefs, hvv]
                                    exact List.mem_append_left _
                                      (List.mem_append_left _ (List.mem_append_left _ hrv3))) hRB)
                            hcirc hs
                        have hvs1 : u1.vars = st.vars :=
                          (scanRows_props cap recur hI hP _ value.scope _ _).2 { st with deps := depsInitAdd st.deps (getPath value.name value.scope) parents } xr u1 hs
                        cases xr with
                        | some l =>
                          dsimp only at h
                          simp only [Except.ok.injEq, Prod.mk.injEq] at h
                          rw [← h.2]
                          exact hcs1
                        | none =>
                        dsimp only at h
                        by_cases hdt : dt = "literal"
                        · rw [if_pos (by simp [hdt])] at h
                          simp only [Except.ok.injEq, Prod.mk.injEq] at h
                          rw [← h.2]
                          exact hcs1
                        · rw [if_neg (by simp [hdt])] at h
                          exact followReferenceStep_circ cap rank recur hR hI hP dv dt dvs value.scope
                            (sAdd origin (getPath value.name value.scope)) (parents ++ [getPath value.name value.scope]) u1 x st1 hdt
                            (by rw [hvs1]; exact hall)
                            (by rw [hvs1]
                                exact RefsBelow_sub (fun rv hrv => by
                                  simp only [varRefs, hd]
                                  exact List.mem_append_left _
                                    (List.mem_append_left _ (List.mem_append_right _ hrv))) hRB)
                            hcs1 h
                · have hint2 : (["literal", "reference", "expression"].contains dt)
                      = false := by rw [Bool.not_eq_true] at hint; exact hint
                  have hdC : ((!(["literal", "reference", "expression"].contains dt))
                      = true) := by rw [hint2]; decide
                  rw [if_pos hdC] at h
                  exact absurd h (by simp)
          · have hpl2 : (["first", "last"].contains p) = false := by
              rw [Bool.not_eq_true] at hpl; exact hpl
            have hpC : ((!(["first", "last"].contains p)) = true) := by
              rw [hpl2]; decide
            rw [if_pos hpC] at h
            exact absurd h (by simp)
      · have htbC : ¬((value.varType == "table") = true) := by simp [htb]
        rw [if_neg htbC] at h
        by_cases hex : value.varType = "expression"
        · have hexC : (value.varType == "expression") = true := by simp [hex]
          rw [if_pos hexC] at h
          cases hvars : value.vars with
          | none => rw [hvars] at h; exact absurd h (by simp)
          | some exprVars =>
            rw [hvars] at h
            dsimp only at h
            cases hep : exprToParse cap recur value
                (sAdd origin (getPath value.name value.scope))
                (parents ++ [getPath value.name value.scope])
                { st with deps := depsInitAdd st.deps (getPath value.name value.scope) parents } with
            | error e => rw [hep] at h; exact absurd h (by simp)
            | ok q =>
              obtain ⟨xp, u1⟩ := q
              rw [hep] at h
              have hcu : u1.circHit = false :=
                exprToParse_circ cap rank recur hR hI hP value
                  (sAdd origin (getPath value.name value.scope))
                  (parents ++ [getPath value.name value.scope])
                  { st with deps := depsInitAdd st.deps (getPath value.name value.scope) parents } xp u1 hall hRB hcirc hep
              have hvu : u1.vars = st.vars :=
                (exprToParse_props cap recur hI hP value _ _).2 { st with deps := depsInitAdd st.deps (getPath value.name value.scope) parents } xp u1 hep
              cases xp with
              | inr l =>
                dsimp only at h
                simp only [Except.ok.injEq, Prod.mk.injEq] at h
                rw [← h.2]
                exact hcu
              | inl toParse0 =>
                dsimp only at h
                cases hfns : value.functions with
                | none =>
                  rw [hfns] at h
                  dsimp only at h
                  cases hpar : cap.parse ("" ++ toParse0) with
                  | error e => rw [hpar] at h; exact absurd h (by simp)
                  | ok parsed =>
                    rw [hpar] at h
                    dsimp only at h
                    cases hvl : exprVarsLoop cap recur exprVars parsed.freeVars
                        value.scope (sAdd origin (getPath value.name value.scope))
                        (parents ++ [getPath value.name value.scope]) [] u1 with
                    | error e => rw [hvl] at h; exact absurd h (by simp)
                    | ok q2 =>
                      obtain ⟨xv, w1⟩ := q2
                      rw [hvl] at h
                      have hcw : w1.circHit = false :=
                        exprVarsLoop_circ cap rank recur hR hI hP exprVars parsed.freeVars
                          value.scope (sAdd origin (getPath value.name value.scope))
                          (parents ++ [getPath value.name value.scope]) [] u1 xv w1
                          (by rw [hvu]; exact hall)
                          (by rw [hvu]
                              exact RefsBelow_sub (fun rv hrv => by
                                simp only [varRefs, hvars]
                                exact List.mem_append_left _
                                  (List.mem_append_right _ hrv)) hRB)
                          hcu hvl
                      cases xv with
                      | inr l =>
                        dsimp only at h
                        simp only [Except.ok.injEq, Prod.mk.injEq] at h
                        rw [← h.2]
                        exact hcw
                      | inl input =>
                        dsimp only at h
                        cases hev : parsed.evalFn input with
                        | error e => rw [hev] at h; exact absurd h (by simp)
                        | ok evaluated =>
                          rw [hev] at h
                          simp only [Except.ok.injEq, Prod.mk.injEq] at h
                          rw [← h.2]
                          exact hcw
                | some fns =>
                  rw [hfns] at h
                  dsimp only at h
                  cases hfl : exprFnsLoop cap recur fns value.scope
                      (sAdd origin (getPath value.name value.scope))
                      (parents ++ [getPath value.name value.scope]) "" u1 with
                  | error e => rw [hfl] at h; exact absurd h (by simp)
                  | ok q2 =>
                    obtain ⟨xf, w1⟩ := q2
                    rw [hfl] at h
                    have hcw : w1.circHit = false :=
                      exprFnsLoop_circ cap rank recur hR hI hP fns value.scope
                        (sAdd origin (getPath value.name value.scope))
                        (parents ++ [getPath value.name value.scope]) "" u1 xf w1
                        (by rw [hvu]; exact hall)
                        (by rw [hvu]
                            exact RefsBelow_sub (fun rv hrv => by
                              simp only [varRefs, hfns]
                              exact List.mem_append_right _ hrv) hRB)
                        hcu hfl
                    have hvw : w1.vars = u1.vars :=
                      (exprFnsLoop_props cap recur hI hP fns value.scope
                        _ _ "").2 u1 xf w1 hfl
                    cases xf with
                    | inr l =>
                      dsimp only at h
                      simp only [Except.ok.injEq, Prod.mk.injEq] at h
                      rw [← h.2]
                      exact hcw
                    | inl functions =>
                      dsimp only at h
                      cases hpar : cap.parse (functions ++ toParse0) with
                      | error e => rw [hpar] at h; exact absurd h (by simp)
                      | ok parsed =>
                        rw [hpar] at h
                        dsimp only at h
                        cases hvl : exprVarsLoop cap recur exprVars parsed.freeVars
                            value.scope (sAdd origin (getPath value.name value.scope))
                            (parents ++ [getPath value.name value.scope]) [] w1 with
                        | error e => rw [hvl] at h; exact absurd h (by simp)
                        | ok q3 =>
                          obtain ⟨xv, y1⟩ := q3
                          rw [hvl] at h
                          have hcy : y1.circHit = false :=
                            exprVarsLoop_circ cap rank recur hR hI hP exprVars
                              parsed.freeVars value.scope
                              (sAdd origin (getPath value.name value.scope))
                              (parents ++ [getPath value.name value.scope]) [] w1 xv y1
                              (by rw [hvw, hvu]; exact hall)
                              (by rw [hvw, hvu]
                                  exact RefsBelow_sub (fun rv hrv => by
                                    simp only [varRefs, hvars]
                                    exact List.mem_append_left _
                                      (List.mem_append_right _ hrv)) hRB)
                              hcw hvl
                          cases xv with
                          | inr l =>
                            dsimp only at h
                            simp only [Except.ok.injEq, Prod.mk.injEq] at h
                            rw [← h.2]
                            exact hcy
                          | inl input =>
                            dsimp only at h
                            cases hev : parsed.evalFn input with
                            | error e => rw [hev] at h; exact absurd h (by simp)
                            | ok evaluated =>
                              rw [hev] at h
                              simp only [Except.ok.injEq, Prod.mk.injEq] at h
                              rw [← h.2]
                              exact hcy
        · have hexC : ¬((value.varType == "expression") = true) := by simp [hex]
          rw [if_neg hexC] at h
          simp only [Except.ok.injEq, Prod.mk.injEq] at h
          rw [← h.2]
          exact hcirc

/-- `#evaluate` never fires the circular-dependency check on an acyclic
store, at any fuel. -/
theorem evaluate_circ (cap : ParserCap) (rank : String → Nat) :
    ∀ fuel, RecurCirc rank (evaluate cap fuel) := by
  intro fuel
  induction fuel with
  | zero =>
    intro v origin parents st r st1 _ _ _ _ h
    exact absurd h (by simp [evaluate])
  | succ n ih =>
    intro v origin parents st r st1 hall hvok horig hcirc h
    exact evaluateStep_circ cap rank (evaluate cap n) ih (evaluate_props cap n).1
      (evaluate_props cap n).2 v origin parents st r st1 hall hvok horig hcirc h

/-- C10 counterexample: in a store with no reference edges at all,
`getVar` returns the string `"[CIRCULAR DEPENDENCY]"` (the sentinel is
in-band), and the circular-dependency check never fired. -/
theorem C10_inband_sentinel_counterexample :
    varRefs c10inband = [] ∧
    resOf (getVar dummyCap 3 "fake" false (runBulkSt [c10inband]))
      = .ok (.lit (.str "[CIRCULAR DEPENDENCY]")) ∧
    (stOfGet (getVar dummyCap 3 "fake" false (runBulkSt [c10inband]))).circHit = false :=
  ⟨rfl, rfl, rfl⟩

/-- C10 (amended): on a store whose reference graph admits a
topological rank (is acyclic), evaluation through `getVar` never fires
the circular-dependency check (the ghost `circHit` flag stays down), so
the sentinel can only appear as an in-band string value; and a
reference dereferenced twice against the same store contents resolves
to the same result both times (the visited set, copied per step,
cannot make the second dereference differ). -/
theorem C10_acyclic_no_false_circular (cap : ParserCap) (fuel : Nat) (rank : String → Nat) :
    (∀ (st : St) (path : String) (cv : CacheVal) (st1 : St),
      rankOkB rank st.vars = true →
      st.circHit = false →
      getVar cap fuel path false st = .ok (cv, st1) →
      st1.circHit = false) ∧
    (∀ rv rt rvars scope origin parents st st', st.vars = st'.vars →
      resOf (followReferenceStep cap (evaluate cap fuel) rv rt rvars scope origin parents st)
        = resOf (followReferenceStep cap (evaluate cap fuel) rv rt rvars scope origin
            parents st')) := by
  constructor
  · intro st path cv st1 hall hcirc h
    simp only [getVar] at h
    cases hget : getRawVar st.vars path with
    | error e => rw [hget] at h; exact absurd h (by simp)
    | ok varbl =>
      rw [hget] at h
      dsimp only at h
      rw [if_neg (by simp)] at h
      by_cases hcache :
          (!((alookup st.changed path).getD false) && cacheTruthy (alookup st.cache path))
            = true
      · rw [if_pos hcache] at h
        simp only [Except.ok.injEq, Prod.mk.injEq] at h
        rw [← h.2]
        exact hcirc
      · rw [if_neg hcache] at h
        cases he : evaluate cap fuel varbl [] [] st with
        | error e => rw [he] at h; exact absurd h (by simp)
        | ok p =>
          obtain ⟨value, stE⟩ := p
          rw [he] at h
          dsimp only at h
          simp only [Except.ok.injEq, Prod.mk.injEq] at h
          rw [← h.2]
          exact evaluate_circ cap rank fuel varbl [] [] st value stE hall
            (rankOk_lookup hall hget) (fun p hp => absurd hp (List.not_mem_nil p))
            hcirc he
  · intro rv rt rvars scope origin parents st st' hv
    exact (followReferenceStep_props cap (evaluate cap fuel) (evaluate_props cap fuel).1
      (evaluate_props cap fuel).2).1 rv rt rvars scope origin parents st st' hv

/-- Witness for C10: on the acyclic store `c10st`, `getVar "d"`
resolves through the reference to `"69"` with the circular check never
firing, and dereferencing `p` twice against equal store contents gives
equal results. -/
theorem C10_acyclic_no_false_circular_witness :
    rankOkB c10rank c10st.vars = true ∧
    c10st.circHit = false ∧
    getVar dummyCap 3 "d" false c10st
      = .ok (.lit (.str "69"), stOfGet (getVar dummyCap 3 "d" false c10st)) ∧
    (stOfGet (getVar dummyCap 3 "d" false c10st)).circHit = false ∧
    resOf (followReferenceStep dummyCap (evaluate dummyCap 2) "p" "reference" none "global"
        ["d"] ["d"] c10st)
      = resOf (followReferenceStep dummyCap (evaluate dummyCap 2) "p" "reference" none "global"
        ["d"] ["d"] { c10st with cache := [] }) := by
  refine ⟨rfl, rfl, rfl, ?_, ?_⟩
  · exact (C10_acyclic_no_false_circular dummyCap 3 c10rank).1 c10st "d"
      (.lit (.str "69")) (stOfGet (getVar dummyCap 3 "d" false c10st)) rfl rfl rfl
  · exact (C10_acyclic_no_false_circular dummyCap 2 c10rank).2 "p" "reference" none
      "global" ["d"] ["d"] c10st { c10st with cache := [] } rfl

end UserVars
